import Mathlib

/-!
# The dispatch layer of the file-manager backend (`operations.go`)

A shallow embedding of `operations.go`: `pathToURL`, `installJob`,
`newOperationJob` and the dispatch methods of `OperationBackend`, each
translated from the Go source, together with a model of the two standard
library packages the code calls (`net/url` and `path/filepath`).

Conventions.

* A Go `string` is a sequence of bytes.  It is modelled by a Lean `String`
  holding one character per byte (so a character stands for the byte with
  the same code, and text in ASCII is written as it is in Go).  The byte
  level functions work on `List Char`.
* A Go `error` is `Option GoError`, `none` being `nil`.
* A Go pointer or interface value that may be `nil` is an `Option`.
* Effects (log lines, calls into the engine, registration on the session
  bus) are recorded, in order, in a list of `Event`s returned next to the
  result.
-/

set_option autoImplicit false

/-- A non-nil Go `error` value, identified by its message. -/
structure GoError where
  msg : String
deriving DecidableEq, Repr

namespace errors

/-- Go `errors.New`. -/
def New (msg : String) : GoError := ⟨msg⟩

end errors

/-! ## `strings`: the helpers of Go's `strings` package used below, on bytes -/

namespace strings

/-- Go `strings.Cut(s, sep)` for a one byte separator: the text before the
first `sep`, the text after it, and whether `sep` was found. -/
def Cut (sep : Char) : List Char → List Char × List Char × Bool
  | [] => ([], [], false)
  | c :: cs =>
    if c = sep then ([], cs, true)
    else ((c :: (Cut sep cs).1), (Cut sep cs).2.1, (Cut sep cs).2.2)

/-- Go `strings.Index(s, sep)`, `none` standing for `-1`. -/
def Index (sep : List Char) : List Char → Option Nat
  | [] => if sep = [] then some 0 else none
  | c :: cs =>
    if sep.isPrefixOf (c :: cs) then some 0
    else (Index sep cs).map (· + 1)

/-- Go `strings.LastIndex(s, sep)` for a one byte separator, `none` standing
for `-1`. -/
def LastIndex (sep : Char) : List Char → Option Nat
  | [] => none
  | c :: cs =>
    match LastIndex sep cs with
    | some i => some (i + 1)
    | none => if c = sep then some 0 else none

/-- Go `strings.HasPrefix`. -/
def HasPrefix (s pre : List Char) : Bool := pre.isPrefixOf s

/-- Go `strings.HasSuffix`. -/
def HasSuffix (s suf : List Char) : Bool := suf.isSuffixOf s

/-- Go `strings.Count(s, sep)` for a one byte separator. -/
def Count (s : List Char) (sep : Char) : Nat := s.count sep

/-- Go `strings.Contains(s, sep)` for a one byte separator. -/
def Contains (s : List Char) (sep : Char) : Bool := s.contains sep

/-- Go `strings.ToLower` on ASCII text. -/
def ToLower (s : List Char) : List Char := s.map Char.toLower

end strings

/-! ## `path/filepath` (Unix) -/

namespace filepath

/-- Go `filepath.IsAbs` on Unix: `strings.HasPrefix(path, "/")`. -/
def IsAbs (path : String) : Bool := strings.HasPrefix path.data ['/']

end filepath

/-! ## `net/url`

The parser `url.Parse` and the printer `(*URL).String` of the Go standard
library, as in Go 1.19 and later (with the hints `RawPath` and `RawFragment`
and the flags `ForceQuery` and `OmitHost`), function by function.  An error
is the cause alone, without the `url.Error` that wraps it.
-/

namespace url

/-- The `encoding` modes of `net/url`. -/
inductive encoding
  | encodePath
  | encodePathSegment
  | encodeHost
  | encodeZone
  | encodeUserPassword
  | encodeQueryComponent
  | encodeFragment
deriving DecidableEq, Repr

open encoding

/-- Whether the byte `c` lies between `lo` and `hi`, bounds included. -/
def between (lo hi c : Char) : Bool := decide (lo.toNat ≤ c.toNat ∧ c.toNat ≤ hi.toNat)

/-- Go `ishex`. -/
def ishex (c : Char) : Bool :=
  between '0' '9' c || between 'a' 'f' c || between 'A' 'F' c

/-- Go `unhex`. -/
def unhex (c : Char) : Nat :=
  if between '0' '9' c then c.toNat - 48
  else if between 'a' 'f' c then c.toNat - 97 + 10
  else if between 'A' 'F' c then c.toNat - 65 + 10
  else 0

/-- The byte `"0123456789ABCDEF"[n]`. -/
def upperhex (n : Nat) : Char :=
  if n < 10 then Char.ofNat (48 + n) else Char.ofNat (55 + n)

/-- Go `shouldEscape`: whether the byte `c` must be written `%XX` in the
part of a URL that `mode` names. -/
def shouldEscape (c : Char) (mode : encoding) : Bool :=
  if between 'a' 'z' c || between 'A' 'Z' c || between '0' '9' c then false
  else if (mode == encodeHost || mode == encodeZone) &&
      ['!', '$', '&', '\'', '(', ')', '*', '+', ',', ';', '=', ':', '[', ']', '<', '>',
        '"'].contains c then false
  else if ['-', '_', '.', '~'].contains c then false
  else if ['$', '&', '+', ',', '/', ':', ';', '=', '?', '@'].contains c then
    match mode with
    | encodePath => c == '?'
    | encodePathSegment => c == '/' || c == ';' || c == ',' || c == '?'
    | encodeUserPassword => c == '@' || c == '/' || c == '?' || c == ':'
    | encodeQueryComponent => true
    | encodeFragment => false
    | _ => true
  else if mode == encodeFragment && ['!', '(', ')', '*'].contains c then false
  else true

/-- Go `unescape`: undo the `%XX` escapes of `s`; an error on a malformed
escape, and in a host on an escape or a byte that a host may not hold. -/
def unescape (mode : encoding) : List Char → Except GoError (List Char)
  | [] => .ok []
  | c :: rest =>
    if c = '%' then
      match rest with
      | a :: b :: rest2 =>
        if !ishex a || !ishex b then .error ⟨"invalid URL escape"⟩
        else if mode == encodeHost && unhex a < 8 && [c, a, b] != ['%', '2', '5'] then
          .error ⟨"invalid URL escape"⟩
        else if mode == encodeZone && [c, a, b] != ['%', '2', '5'] &&
            Char.ofNat (unhex a * 16 + unhex b) != ' ' &&
            shouldEscape (Char.ofNat (unhex a * 16 + unhex b)) encodeHost then
          .error ⟨"invalid URL escape"⟩
        else
          match unescape mode rest2 with
          | .ok t => .ok (Char.ofNat (unhex a * 16 + unhex b) :: t)
          | .error e => .error e
      | _ => .error ⟨"invalid URL escape"⟩
    else if c = '+' then
      match unescape mode rest with
      | .ok t => .ok ((if mode == encodeQueryComponent then ' ' else '+') :: t)
      | .error e => .error e
    else if (mode == encodeHost || mode == encodeZone) && decide (c.toNat < 128) &&
        shouldEscape c encodeHost then
      .error ⟨"invalid character in host name"⟩
    else
      match unescape mode rest with
      | .ok t => .ok (c :: t)
      | .error e => .error e

/-- The bytes written for the byte `c` by Go `escape`. -/
def escapeByte (mode : encoding) (c : Char) : List Char :=
  if shouldEscape c mode then
    if c == ' ' && mode == encodeQueryComponent then ['+']
    else ['%', upperhex (c.toNat / 16), upperhex (c.toNat % 16)]
  else [c]

/-- Go `escape`. -/
def escape (s : List Char) (mode : encoding) : List Char :=
  s.flatMap (escapeByte mode)

/-- Go `validEncoded`: whether `s` is a valid encoded path or fragment. -/
def validEncoded (s : List Char) (mode : encoding) : Bool :=
  s.all fun c =>
    if ['!', '$', '&', '\'', '(', ')', '*', '+', ',', ';', '=', ':', '@'].contains c then true
    else if ['[', ']'].contains c then true
    else if c == '%' then true
    else !shouldEscape c mode

/-- Go `url.Userinfo`. -/
structure Userinfo where
  username : String
  password : String
  passwordSet : Bool
deriving DecidableEq, Repr

/-- Go `url.URL`. -/
structure URL where
  Scheme : String := ""
  Opaque : String := ""
  User : Option Userinfo := none
  Host : String := ""
  Path : String := ""
  RawPath : String := ""
  OmitHost : Bool := false
  ForceQuery : Bool := false
  RawQuery : String := ""
  Fragment : String := ""
  RawFragment : String := ""
deriving DecidableEq, Repr

/-- Go `stringContainsCTLByte`. -/
def stringContainsCTLByte (s : List Char) : Bool :=
  s.any fun b => decide (b.toNat < 32) || decide (b.toNat = 127)

/-- The loop of Go `getScheme`: `pre` is the text already read, `rawURL[:i]`. -/
def getSchemeLoop (rawURL : List Char) : List Char → List Char →
    Except GoError (List Char × List Char)
  | _, [] => .ok ([], rawURL)
  | pre, c :: cs =>
    if between 'a' 'z' c || between 'A' 'Z' c then getSchemeLoop rawURL (pre ++ [c]) cs
    else if between '0' '9' c || c == '+' || c == '-' || c == '.' then
      if pre = [] then .ok ([], rawURL) else getSchemeLoop rawURL (pre ++ [c]) cs
    else if c == ':' then
      if pre = [] then .error ⟨"missing protocol scheme"⟩ else .ok (pre, cs)
    else .ok ([], rawURL)

/-- Go `getScheme`: split `scheme:rest`; the scheme is empty when `rawURL`
does not start with one. -/
def getScheme (rawURL : List Char) : Except GoError (List Char × List Char) :=
  getSchemeLoop rawURL [] rawURL

/-- Go `validOptionalPort`: `port` is empty or `:` and digits. -/
def validOptionalPort (port : List Char) : Bool :=
  match port with
  | [] => true
  | c :: ds => c == ':' && ds.all fun b => between '0' '9' b

/-- Go `parseHost`. -/
def parseHost (host : List Char) : Except GoError (List Char) :=
  if strings.HasPrefix host ['['] then
    match strings.LastIndex ']' host with
    | none => .error ⟨"missing ']' in host"⟩
    | some i =>
      if !validOptionalPort (host.drop (i + 1)) then .error ⟨"invalid port after host"⟩
      else
        match strings.Index ['%', '2', '5'] (host.take i) with
        | some zone =>
          match unescape encodeHost (host.take zone) with
          | .error e => .error e
          | .ok host1 =>
            match unescape encodeZone ((host.take i).drop zone) with
            | .error e => .error e
            | .ok host2 =>
              match unescape encodeHost (host.drop i) with
              | .error e => .error e
              | .ok host3 => .ok (host1 ++ host2 ++ host3)
        | none => unescape encodeHost host
  else
    match strings.LastIndex ':' host with
    | some i =>
      if !validOptionalPort (host.drop i) then .error ⟨"invalid port after host"⟩
      else unescape encodeHost host
    | none => unescape encodeHost host

/-- Go `validUserinfo`. -/
def validUserinfo (s : List Char) : Bool :=
  s.all fun r =>
    between 'A' 'Z' r || between 'a' 'z' r || between '0' '9' r ||
    ['-', '.', '_', ':', '~', '!', '$', '&', '\'', '(', ')', '*', '+', ',', ';', '=', '%',
      '@'].contains r

/-- Go `parseAuthority`: the user information and the host of
`[userinfo@]host`. -/
def parseAuthority (authority : List Char) : Except GoError (Option Userinfo × List Char) :=
  match strings.LastIndex '@' authority with
  | none =>
    match parseHost authority with
    | .error e => .error e
    | .ok host => .ok (none, host)
  | some i =>
    match parseHost (authority.drop (i + 1)) with
    | .error e => .error e
    | .ok host =>
      let userinfo := authority.take i
      if !validUserinfo userinfo then .error ⟨"net/url: invalid userinfo"⟩
      else if !strings.Contains userinfo ':' then
        match unescape encodeUserPassword userinfo with
        | .error e => .error e
        | .ok user => .ok (some ⟨⟨user⟩, "", false⟩, host)
      else
        match unescape encodeUserPassword (strings.Cut ':' userinfo).1 with
        | .error e => .error e
        | .ok username =>
          match unescape encodeUserPassword (strings.Cut ':' userinfo).2.1 with
          | .error e => .error e
          | .ok password => .ok (some ⟨⟨username⟩, ⟨password⟩, true⟩, host)

/-- Go `(*URL).setPath`: set `Path` and, when the default encoding of the
path differs from `p`, `RawPath`. -/
def setPath (u : URL) (p : List Char) : Except GoError URL :=
  match unescape encodePath p with
  | .error e => .error e
  | .ok path =>
    .ok { u with Path := ⟨path⟩, RawPath := if p = escape path encodePath then "" else ⟨p⟩ }

/-- Go `(*URL).setFragment`. -/
def setFragment (u : URL) (f : List Char) : Except GoError URL :=
  match unescape encodeFragment f with
  | .error e => .error e
  | .ok frag =>
    .ok { u with Fragment := ⟨frag⟩,
                 RawFragment := if f = escape frag encodeFragment then "" else ⟨f⟩ }

/-- Go `parse(rawURL, false)`: a URL without its fragment. -/
def parse (rawURL : List Char) : Except GoError URL :=
  if stringContainsCTLByte rawURL then .error ⟨"net/url: invalid control character in URL"⟩
  else if rawURL = ['*'] then .ok { Path := "*" }
  else
    match getScheme rawURL with
    | .error e => .error e
    | .ok (scheme0, rest0) =>
      let scheme := strings.ToLower scheme0
      let forceQuery := strings.HasSuffix rest0 ['?'] && strings.Count rest0 '?' == 1
      let rest := if forceQuery then rest0.dropLast else (strings.Cut '?' rest0).1
      let rawQuery := if forceQuery then [] else (strings.Cut '?' rest0).2.1
      let u : URL := { Scheme := ⟨scheme⟩, ForceQuery := forceQuery, RawQuery := ⟨rawQuery⟩ }
      if !strings.HasPrefix rest ['/'] && scheme != [] then
        .ok { u with Opaque := ⟨rest⟩ }
      else if !strings.HasPrefix rest ['/'] && strings.Contains (strings.Cut '/' rest).1 ':' then
        .error ⟨"first path segment in URL cannot contain colon"⟩
      else if (scheme != [] || !strings.HasPrefix rest ['/', '/', '/']) &&
          strings.HasPrefix rest ['/', '/'] then
        let authority := (strings.Cut '/' (rest.drop 2)).1
        let rest2 := if strings.Contains (rest.drop 2) '/'
          then '/' :: (strings.Cut '/' (rest.drop 2)).2.1 else []
        match parseAuthority authority with
        | .error e => .error e
        | .ok (user, host) => setPath { u with User := user, Host := ⟨host⟩ } rest2
      else if scheme != [] && strings.HasPrefix rest ['/'] then
        setPath { u with OmitHost := true } rest
      else setPath u rest

/-- Go `url.Parse`: parse a raw URL (absolute, or relative or a bare path)
into a `URL`. -/
def Parse (rawURL : String) : Except GoError URL :=
  match parse (strings.Cut '#' rawURL.data).1 with
  | .error e => .error e
  | .ok u =>
    if (strings.Cut '#' rawURL.data).2.1 = [] then .ok u
    else setFragment u (strings.Cut '#' rawURL.data).2.1

/-- Whether `unescape` succeeds on `raw` and yields `plain`. -/
def unescapesTo (mode : encoding) (raw plain : List Char) : Bool :=
  match unescape mode raw with
  | .ok p => p == plain
  | .error _ => false

/-- Go `(*URL).EscapedPath`. -/
def EscapedPath (u : URL) : List Char :=
  if u.RawPath != "" && validEncoded u.RawPath.data encodePath &&
      unescapesTo encodePath u.RawPath.data u.Path.data then u.RawPath.data
  else if u.Path = "*" then ['*']
  else escape u.Path.data encodePath

/-- Go `(*URL).EscapedFragment`. -/
def EscapedFragment (u : URL) : List Char :=
  if u.RawFragment != "" && validEncoded u.RawFragment.data encodeFragment &&
      unescapesTo encodeFragment u.RawFragment.data u.Fragment.data then u.RawFragment.data
  else escape u.Fragment.data encodeFragment

/-- Go `(*Userinfo).String`. -/
def Userinfo.String (ui : Userinfo) : List Char :=
  escape ui.username.data encodeUserPassword ++
    (if ui.passwordSet then ':' :: escape ui.password.data encodeUserPassword else [])

/-- The `scheme:` part written by `(*URL).String`. -/
def schemePart (u : URL) : List Char :=
  if u.Scheme != "" then u.Scheme.data ++ [':'] else []

/-- The `//userinfo@host` part written by `(*URL).String`. -/
def authorityPart (u : URL) : List Char :=
  if u.Scheme != "" || u.Host != "" || u.User.isSome then
    if u.OmitHost && u.Host == "" && u.User.isNone then []
    else
      (if u.Host != "" || u.Path != "" || u.User.isSome then ['/', '/'] else []) ++
      (match u.User with
        | some ui => ui.String ++ ['@']
        | none => []) ++
      (if u.Host != "" then escape u.Host.data encodeHost else [])
  else []

/-- The path part written by `(*URL).String`, given the text `buf` written
before it. -/
def pathPart (u : URL) (buf : List Char) : List Char :=
  (if EscapedPath u != [] && (EscapedPath u).head? != some '/' && u.Host != "" then ['/']
    else []) ++
  (if buf = [] && strings.Contains (strings.Cut '/' (EscapedPath u)).1 ':' then ['.', '/']
    else []) ++
  EscapedPath u

/-- Go `(*URL).String`: reassemble the URL into a URL string. -/
def URL.String (u : URL) : String :=
  ⟨schemePart u ++
    (if u.Opaque != "" then u.Opaque.data
      else authorityPart u ++ pathPart u (schemePart u ++ authorityPart u)) ++
    (if u.ForceQuery || u.RawQuery != "" then '?' :: u.RawQuery.data else []) ++
    (if u.Fragment != "" then '#' :: EscapedFragment u else [])⟩

end url

/-! ## `dbus` and the delegator package `d`: the collaborators -/

/-- Go `dbus.DBusInfo`. -/
structure DBusInfo where
  Dest : String
  ObjectPath : String
  Interface : String
deriving DecidableEq, Repr

/-- A job of the engine: a non-nil `dbus.DBusObject`.  The dispatch layer
reads nothing of a job but its `GetDBusInfo()`. -/
structure Job where
  GetDBusInfo : DBusInfo
deriving DecidableEq, Repr

/-- Go `dbus.DBusObject`, an interface value: `none` is `nil`. -/
abbrev DBusObject := Option Job

/-- A UI delegate built by `d.NewUIDelegate` from the identity of the remote
handler. -/
structure UIDelegate where
  dest : String
  objPath : String
  iface : String
deriving DecidableEq, Repr

/-- Go `d.IUIDelegate`, an interface value: `none` is `nil`. -/
abbrev IUIDelegate := Option UIDelegate

/-- A call of one of the job constructors of the delegator package `d`,
with its arguments. -/
inductive EngineCall
  | NewListJob (uri : String) (flags : Int)
  | NewStatJob (uri : String)
  | NewDeleteJob (uris : List String) (shouldConfirm : Bool) (uiDelegate : IUIDelegate)
  | NewTrashJob (uris : List String) (shouldConfirm : Bool) (uiDelegate : IUIDelegate)
  | NewEmptyTrashJob (shouldConfirm : Bool) (uiDelegate : IUIDelegate)
  | NewChmodJob (uri : String) (permission : Nat)
  | NewChownJob (uri : String) (newOwner newGroup : String)
  | NewCreateFileJob (uri filename initContent : String) (uiDelegate : IUIDelegate)
  | NewCreateDirectoryJob (uri dirname : String) (uiDelegate : IUIDelegate)
  | NewCreateFileFromTemplateJob (uri templateURL : String) (uiDelegate : IUIDelegate)
  | NewLinkJob (uri destDirURL : String) (uiDelegate : IUIDelegate)
  | NewGetDefaultLaunchAppJob (uri : String) (mustSupportURI : Bool)
  | NewGetRecommendedLaunchAppsJob (uri : String)
  | NewGetAllLaunchAppsJob
  | NewSetDefaultLaunchAppJob (id mimeType : String)
  | NewCopyJob (uris : List String) (destDirURL targetName : String) (flags : Nat)
      (uiDelegate : IUIDelegate)
  | NewMoveJob (uris : List String) (destDirURL targetName : String) (flags : Nat)
      (uiDelegate : IUIDelegate)
  | NewRenameJob (fileURL newName : String)
  | NewGetTemplateJob (templateDirURI : String)
deriving DecidableEq, Repr

/-- The level of a log line. -/
inductive LogLevel
  | Debug
  | Warning
  | Error
deriving DecidableEq, Repr

/-- What a dispatch call does besides returning: the lines it logs, the
calls of the factory handed to `newOperationJob`, the calls of the job
constructors of the engine, and the registrations on the session bus. -/
inductive Event
  | Log (level : LogLevel) (args : List String)
  | CallFn (srcURLs : List String)
  | Engine (call : EngineCall)
  | InstallOnSession (job : Job)
deriving DecidableEq, Repr

/-- The collaborators of `operations.go` that are not in the file: the
constants and constructors of the delegator package `d`, the session bus of
`dbus`, and the templates directory of `glib`.  The connection `getConn()`
is taken as established: when it cannot be, `Log.Fatal` ends the process
and no dispatch call returns. -/
structure Env where
  /-- The constant `d.JobObjectPath`. -/
  JobObjectPath : String
  /-- The constant `d.JobDestination`. -/
  JobDestination : String
  /-- Go `dbus.InstallOnSession(job)`: `none` when the job is registered. -/
  InstallOnSession : Job → Option GoError
  /-- Go `d.NewUIDelegate(getConn(), dest, objPath, iface)`. -/
  NewUIDelegate : String → String → String → IUIDelegate × Option GoError
  /-- The job constructors `d.New...Job`. -/
  d : EngineCall → DBusObject
  /-- Go `glib.GetUserSpecialDir(glib.UserDirectoryDirectoryTemplates)`, after
  the reload of the cache. -/
  templatesDir : String

/-- The result of running Go code that may panic at run time (a nil
dereference, an index out of range). -/
inductive Outcome (α : Type)
  | ret (a : α)
  | panic
deriving DecidableEq, Repr

/-- The four values every dispatch method returns:
`(string, dbus.ObjectPath, string, error)`. -/
structure Reply where
  dest : String
  objPath : String
  iface : String
  err : Option GoError
deriving DecidableEq, Repr

/-! ## `operations.go` -/

/-- Go `(*OperationBackend).newUIDelegate`: the delegate, and the warning
logged when its construction failed. -/
def newUIDelegate (env : Env) (dest objPath iface : String) : IUIDelegate × List Event :=
  match (env.NewUIDelegate dest objPath iface).2 with
  | some err =>
    ((env.NewUIDelegate dest objPath iface).1,
      [Event.Log .Warning
        ["Create UI Delegate from (%s, %s, %s) failed: %v", dest, objPath, iface, err.msg]])
  | none => ((env.NewUIDelegate dest objPath iface).1, [])

/-- Go `(*OperationBackend).GetDBusInfo`. -/
def GetDBusInfo (env : Env) : DBusInfo :=
  { Dest := env.JobDestination, ObjectPath := env.JobObjectPath,
    Interface := env.JobDestination }

/-- Go `installJob`: because an empty object path is invalid,
`JobObjectPath` is the default value, so an empty interface means that the
install failed. -/
def installJob (env : Env) (job : DBusObject) : Reply × List Event :=
  match job with
  | none =>
    (⟨"", env.JobObjectPath, "", some (errors.New "cannot install a nil object on dbus.")⟩,
      [Event.Log .Warning ["cannot install a nil object on dbus."]])
  | some j =>
    match env.InstallOnSession j with
    | some err =>
      (⟨"", env.JobObjectPath, "", some err⟩,
        [Event.InstallOnSession j,
          Event.Log .Warning ["install dbus on session bus failed:", err.msg]])
    | none =>
      (⟨j.GetDBusInfo.Dest, j.GetDBusInfo.ObjectPath, j.GetDBusInfo.Interface, none⟩,
        [Event.InstallOnSession j])

/-- Go `pathToURL`: transform an absolute path to a URL.  The pair is the
Go pair `(*url.URL, error)`. -/
def pathToURL (path : String) : Option url.URL × Option GoError :=
  match url.Parse path with
  | .error err => (none, some err)
  | .ok srcURL =>
    if !filepath.IsAbs srcURL.Path then
      (some srcURL, some (errors.New "a absolute path is requested"))
    else if srcURL.Scheme = "" then (some { srcURL with Scheme := "file" }, none)
    else (some srcURL, none)

/-- How the loop of `newOperationJob` over `paths` ends. -/
inductive Normalized
  /-- Every path was converted: the `srcURLs`. -/
  | urls (srcURLs : List String)
  /-- The first path on which `pathToURL` fails stops the loop with its
  error. -/
  | failed (err : GoError)
  /-- The call `srcURL.String()` on a nil `srcURL`. -/
  | nilDereference
deriving DecidableEq, Repr

/-- The loop of Go `newOperationJob` that fills `srcURLs`. -/
def normalizePaths : List String → Normalized
  | [] => .urls []
  | path :: paths =>
    match pathToURL path with
    | (_, some err) => .failed err
    | (none, none) => .nilDereference
    | (some srcURL, none) =>
      match normalizePaths paths with
      | .urls srcURLs => .urls (srcURL.String :: srcURLs)
      | r => r

/-- Go `newOperationJob`: create a new operation from `fn` and install it
on the session bus.  The factory `fn` returns its job and what it did. -/
def newOperationJob (env : Env) (paths : List String)
    (fn : List String → Outcome DBusObject × List Event) : Outcome Reply × List Event :=
  match normalizePaths paths with
  | .failed err =>
    (.ret ⟨"", env.JobObjectPath, "", some err⟩,
      [Event.Log .Error ["convert path to URL failed:", err.msg]])
  | .nilDereference => (.panic, [])
  | .urls srcURLs =>
    match fn srcURLs with
    | (.panic, events) => (.panic, Event.CallFn srcURLs :: events)
    | (.ret job, events) =>
      (.ret (installJob env job).1, Event.CallFn srcURLs :: events ++ (installJob env job).2)

/-- The `Log.Debug` line a dispatch method writes before it runs `run`. -/
def logDebug (name : String) (run : Outcome Reply × List Event) : Outcome Reply × List Event :=
  (run.1, Event.Log .Debug [name] :: run.2)

/-- The call `d.New...Job(...)` of a constructor of the engine, after the
events `before`: the job it returns. -/
def callEngine (env : Env) (before : List Event) (call : EngineCall) :
    Outcome DBusObject × List Event :=
  (.ret (env.d call), before ++ [Event.Engine call])

/-- Go `(*OperationBackend).NewListJob`. -/
def NewListJob (env : Env) (path : String) (flags : Int) : Outcome Reply × List Event :=
  logDebug "NewListJob" <| newOperationJob env [path] fun uri =>
    match uri with
    | uri0 :: _ => callEngine env [] (.NewListJob uri0 flags)
    | [] => (.panic, [])

/-- Go `(*OperationBackend).NewStatJob`. -/
def NewStatJob (env : Env) (path : String) : Outcome Reply × List Event :=
  logDebug "NewStatJob" <| newOperationJob env [path] fun uri =>
    match uri with
    | uri0 :: _ => callEngine env [] (.NewStatJob uri0)
    | [] => (.panic, [])

/-- Go `(*OperationBackend).NewDeleteJob`. -/
def NewDeleteJob (env : Env) (path : List String) (shouldConfirm : Bool)
    (dest objPath iface : String) : Outcome Reply × List Event :=
  logDebug "NewDeleteJob" <| newOperationJob env path fun uri =>
    callEngine env (newUIDelegate env dest objPath iface).2
      (.NewDeleteJob uri shouldConfirm (newUIDelegate env dest objPath iface).1)

/-- Go `(*OperationBackend).NewTrashJob`. -/
def NewTrashJob (env : Env) (path : List String) (shouldConfirm : Bool)
    (dest objPath iface : String) : Outcome Reply × List Event :=
  logDebug "NewTrashJob" <| newOperationJob env path fun uri =>
    callEngine env (newUIDelegate env dest objPath iface).2
      (.NewTrashJob uri shouldConfirm (newUIDelegate env dest objPath iface).1)

/-- Go `(*OperationBackend).NewEmptyTrashJob`. -/
def NewEmptyTrashJob (env : Env) (shouldConfirm : Bool) (dest objPath iface : String) :
    Outcome Reply × List Event :=
  logDebug "NewEmptyTrashJob" <| newOperationJob env [] fun _ =>
    callEngine env (newUIDelegate env dest objPath iface).2
      (.NewEmptyTrashJob shouldConfirm (newUIDelegate env dest objPath iface).1)

/-- Go `(*OperationBackend).NewChmodJob`. -/
def NewChmodJob (env : Env) (path : String) (permission : Nat) : Outcome Reply × List Event :=
  logDebug "NewChmodJob" <| newOperationJob env [path] fun uris =>
    match uris with
    | uri0 :: _ => callEngine env [] (.NewChmodJob uri0 permission)
    | [] => (.panic, [])

/-- Go `(*OperationBackend).NewChownJob`. -/
def NewChownJob (env : Env) (path newOwner newGroup : String) : Outcome Reply × List Event :=
  logDebug "NewChownJob" <| newOperationJob env [path] fun uris =>
    match uris with
    | uri0 :: _ => callEngine env [] (.NewChownJob uri0 newOwner newGroup)
    | [] => (.panic, [])

/-- Go `(*OperationBackend).NewCreateFileJob`. -/
def NewCreateFileJob (env : Env) (destDir filename initContent dest objPath iface : String) :
    Outcome Reply × List Event :=
  logDebug "NewCreateFileJob" <| newOperationJob env [destDir] fun uris =>
    match uris with
    | uri0 :: _ =>
      callEngine env (newUIDelegate env dest objPath iface).2
        (.NewCreateFileJob uri0 filename initContent (newUIDelegate env dest objPath iface).1)
    | [] => (.panic, (newUIDelegate env dest objPath iface).2)

/-- Go `(*OperationBackend).NewCreateDirectoryJob`. -/
def NewCreateDirectoryJob (env : Env) (destDir dirname dest objPath iface : String) :
    Outcome Reply × List Event :=
  logDebug "NewCreateDirectoryJob" <| newOperationJob env [destDir] fun uris =>
    match uris with
    | uri0 :: _ =>
      callEngine env (newUIDelegate env dest objPath iface).2
        (.NewCreateDirectoryJob uri0 dirname (newUIDelegate env dest objPath iface).1)
    | [] => (.panic, (newUIDelegate env dest objPath iface).2)

/-- Go `(*OperationBackend).NewCreateFileFromTemplateJob`. -/
def NewCreateFileFromTemplateJob (env : Env) (destDir templatePath dest objPath iface : String) :
    Outcome Reply × List Event :=
  logDebug "NewCreateFileFromTemplateJob" <| newOperationJob env [destDir] fun uris =>
    match pathToURL templatePath with
    | (_, some err) => (.ret none, [Event.Log .Error ["convert path to URL failed:", err.msg]])
    | (templateURL, none) =>
      match uris, templateURL with
      | uri0 :: _, some u =>
        callEngine env (newUIDelegate env dest objPath iface).2
          (.NewCreateFileFromTemplateJob uri0 u.String (newUIDelegate env dest objPath iface).1)
      | _, _ => (.panic, (newUIDelegate env dest objPath iface).2)

/-- Go `(*OperationBackend).NewLinkJob`. -/
def NewLinkJob (env : Env) (src destDir dest objPath iface : String) :
    Outcome Reply × List Event :=
  logDebug "NewLinkJob" <| newOperationJob env [src] fun uris =>
    match pathToURL destDir with
    | (_, some err) => (.ret none, [Event.Log .Error ["convert path to URL failed:", err.msg]])
    | (destDirURL, none) =>
      match uris, destDirURL with
      | uri0 :: _, some u =>
        callEngine env (newUIDelegate env dest objPath iface).2
          (.NewLinkJob uri0 u.String (newUIDelegate env dest objPath iface).1)
      | _, _ => (.panic, (newUIDelegate env dest objPath iface).2)

/-- Go `(*OperationBackend).NewGetDefaultLaunchAppJob`. -/
def NewGetDefaultLaunchAppJob (env : Env) (path : String) (mustSupportURI : Bool) :
    Outcome Reply × List Event :=
  logDebug "NewGetDefaultLaunchAppJob" <| newOperationJob env [path] fun uris =>
    match uris with
    | uri0 :: _ => callEngine env [] (.NewGetDefaultLaunchAppJob uri0 mustSupportURI)
    | [] => (.panic, [])

/-- Go `(*OperationBackend).NewGetRecommendedLaunchAppsJob`. -/
def NewGetRecommendedLaunchAppsJob (env : Env) (uri : String) : Outcome Reply × List Event :=
  logDebug "NewGetRecommendedLaunchAppsJob" <| newOperationJob env [uri] fun uris =>
    match uris with
    | uri0 :: _ => callEngine env [] (.NewGetRecommendedLaunchAppsJob uri0)
    | [] => (.panic, [])

/-- Go `(*OperationBackend).NewGetAllLaunchAppsJob`. -/
def NewGetAllLaunchAppsJob (env : Env) : Outcome Reply × List Event :=
  logDebug "NewGetAllLaunchAppsJob" <| newOperationJob env [] fun _ =>
    callEngine env [] .NewGetAllLaunchAppsJob

/-- Go `(*OperationBackend).NewSetDefaultLaunchAppJob`. -/
def NewSetDefaultLaunchAppJob (env : Env) (id mimeType : String) : Outcome Reply × List Event :=
  logDebug "NewSetDefaultLaunchAppJob" <| newOperationJob env [] fun _ =>
    if !strings.HasSuffix id.data ".desktop".data then
      (.ret none, [Event.Log .Error ["wrong desktop id: %q", id]])
    else callEngine env [] (.NewSetDefaultLaunchAppJob id mimeType)

/-- The factory of Go `NewCopyJob` and `NewMoveJob`, `call` being the
constructor `d.NewCopyJob` or `d.NewMoveJob` applied to what follows the
destination. -/
def copyMoveFn (env : Env) (destDir dest objPath iface : String)
    (call : List String → String → IUIDelegate → EngineCall) (uris : List String) :
    Outcome DBusObject × List Event :=
  match pathToURL destDir with
  | (destDirURL, err) =>
    if destDir ≠ "" ∧ err.isSome then
      (.ret none,
        [Event.Log .Error ["convert path to URL failed:", (err.map GoError.msg).getD ""]])
    else
      match destDirURL with
      | some u =>
        callEngine env (newUIDelegate env dest objPath iface).2
          (call uris u.String (newUIDelegate env dest objPath iface).1)
      | none => (.panic, (newUIDelegate env dest objPath iface).2)

/-- Go `(*OperationBackend).NewCopyJob`. -/
def NewCopyJob (env : Env) (srcs : List String) (destDir targetName : String) (flags : Nat)
    (dest objPath iface : String) : Outcome Reply × List Event :=
  logDebug "NewCopyJob" <| newOperationJob env srcs <|
    copyMoveFn env destDir dest objPath iface fun uris destDirURL uiDelegate =>
      .NewCopyJob uris destDirURL targetName flags uiDelegate

/-- Go `(*OperationBackend).NewMoveJob`. -/
def NewMoveJob (env : Env) (paths : List String) (destDir targetName : String) (flags : Nat)
    (dest objPath iface : String) : Outcome Reply × List Event :=
  logDebug "NewMoveJob" <| newOperationJob env paths <|
    copyMoveFn env destDir dest objPath iface fun uris destDirURL uiDelegate =>
      .NewMoveJob uris destDirURL targetName flags uiDelegate

/-- Go `(*OperationBackend).NewRenameJob`. -/
def NewRenameJob (env : Env) (fileURL newName : String) : Outcome Reply × List Event :=
  logDebug "NewRenameJob" <| newOperationJob env [fileURL] fun uris =>
    match uris with
    | fileURL0 :: _ => callEngine env [] (.NewRenameJob fileURL0 newName)
    | [] => (.panic, [])

/-- Go `(*OperationBackend).NewGetTemplateJob`. -/
def NewGetTemplateJob (env : Env) : Outcome Reply × List Event :=
  logDebug "NewGetTemplateJob" <| newOperationJob env [env.templatesDir] fun uris =>
    match uris with
    | templateDirURI :: _ => callEngine env [] (.NewGetTemplateJob templateDirURI)
    | [] => (.panic, [])

/-- The sentinel address with the error `err`: destination `""`, object
path `d.JobObjectPath`, interface `""`. -/
def sentinel (env : Env) (err : Option GoError) : Reply :=
  ⟨"", env.JobObjectPath, "", err⟩

/-! ## Predicates on the input -/

/-- A plain absolute path: it starts with a slash but not with exactly two,
and holds no `?`, `#` or `%` and no control byte. -/
def isPlainAbsPath (path : String) : Bool :=
  strings.HasPrefix path.data ['/'] &&
  (!strings.HasPrefix path.data ['/', '/'] || strings.HasPrefix path.data ['/', '/', '/']) &&
  path.data.all fun c =>
    c != '?' && c != '#' && c != '%' && !decide (c.toNat < 32) && !decide (c.toNat = 127)

/-- Whether every character of `s` stands for a byte. -/
def isBytes (s : String) : Bool := s.data.all fun c => decide (c.toNat < 256)

/-- Whether every byte of `s` is in ASCII. -/
def isASCII (s : String) : Bool := s.data.all fun c => decide (c.toNat < 128)

/-! ## Notions for the proofs about `net/url` -/

namespace url
open encoding

/-- The relation between a text and what `unescape` returns for it. -/
inductive Unescaped (m : encoding) : List Char → List Char → Prop
  | nil : Unescaped m [] []
  | hex (a b : Char) (r t : List Char) : ishex a = true → ishex b = true →
      (m = encodeHost → 8 ≤ unhex a ∨ (a = '2' ∧ b = '5')) →
      (m = encodeZone → (a = '2' ∧ b = '5') ∨ Char.ofNat (unhex a * 16 + unhex b) = ' ' ∨
        shouldEscape (Char.ofNat (unhex a * 16 + unhex b)) encodeHost = false) →
      Unescaped m r t →
      Unescaped m ('%' :: a :: b :: r) (Char.ofNat (unhex a * 16 + unhex b) :: t)
  | raw (c : Char) (r t : List Char) : c ≠ '%' →
      (m = encodeHost ∨ m = encodeZone → c.toNat < 128 → shouldEscape c encodeHost = false) →
      Unescaped m r t →
      Unescaped m (c :: r) ((if c = '+' ∧ m = encodeQueryComponent then ' ' else c) :: t)

end url

/-- Whether `s` is a scheme as `url.Parse` stores one: a lower case
letter, then lower case letters, digits, `+`, `-` and `.`. -/
def url.isScheme (s : List Char) : Bool :=
  match s with
  | [] => false
  | c :: cs =>
    url.between 'a' 'z' c &&
      cs.all fun d => url.between 'a' 'z' d || url.between '0' '9' d || d == '+' || d == '-' ||
        d == '.'

/-- The escaped form that `EscapedPath` and `EscapedFragment` choose: the
raw text when it is a valid encoding of the plain text, else the escape of
the plain text. -/
def url.escapedOf (m : url.encoding) (raw plain : List Char) : List Char :=
  if raw ≠ [] ∧ url.validEncoded raw m = true ∧ url.unescapesTo m raw plain = true then raw
  else url.escape plain m

/-- The text `userinfo@host` that `String` writes between `//` and the
path. -/
def url.authorityText (user : Option url.Userinfo) (host : List Char) : List Char :=
  (match user with
    | some ui => ui.String ++ ['@']
    | none => []) ++ url.escape host url.encoding.encodeHost

/-- The user information that `parseAuthority` builds: bytes, and no
password when none is set. -/
def url.userOK (user : Option url.Userinfo) : Prop :=
  ∀ ui, user = some ui →
    (∀ c ∈ ui.username.data, c.toNat < 256) ∧ (∀ c ∈ ui.password.data, c.toNat < 256) ∧
    (ui.passwordSet = false → ui.password = "")

/-- Whether `s` is a scheme as `getScheme` finds one: a letter, then
letters, digits, `+`, `-` and `.`. -/
def url.isSchemeAnyCase (s : List Char) : Bool :=
  match s with
  | [] => false
  | c :: cs =>
    (url.between 'a' 'z' c || url.between 'A' 'Z' c) &&
      cs.all fun d => url.between 'a' 'z' d || url.between 'A' 'Z' d ||
        url.between '0' '9' d || d == '+' || d == '-' || d == '.'

/-- What holds of a URL that `url.Parse` returns with an absolute path: the
scheme, when there is one, is a scheme in lower case; there is no opaque
part; the query holds no `#` and no control byte, and is empty when
`ForceQuery` is set; `OmitHost` comes with a scheme and without authority;
the user information and the host are as `parseAuthority` builds them; the
path and the fragment hold bytes. -/
def url.Parsed (u : url.URL) : Prop :=
  (u.Scheme.data = [] ∨ url.isScheme u.Scheme.data = true) ∧
  u.Opaque = "" ∧
  (∀ c ∈ u.Path.data, c.toNat < 256) ∧
  '#' ∉ u.RawQuery.data ∧ url.stringContainsCTLByte u.RawQuery.data = false ∧
  (u.ForceQuery = true → u.RawQuery = "") ∧
  (u.OmitHost = true → u.Host = "" ∧ u.User = none ∧ u.Scheme.data ≠ []) ∧
  url.userOK u.User ∧
  (∃ r, (∀ c ∈ r, c.toNat < 256) ∧ url.parseHost r = .ok u.Host.data) ∧
  (∀ c ∈ u.Fragment.data, c.toNat < 256)

/-- The zone of an IPv6 literal host, as `parseHost` splits one off: in a
host that starts with `[`, the text from the first `%` up to the last `]`;
empty when the host has no zone. -/
def url.hostZone (host : List Char) : List Char :=
  if strings.HasPrefix host ['['] then
    match strings.LastIndex ']' host with
    | none => []
    | some i =>
      match strings.Index ['%'] (host.take i) with
      | none => []
      | some z => (host.take i).drop z
  else []

/-! ## Values for the examples -/

/-- A job as the engine builds one, with the address it describes itself
by. -/
def exampleJob : Job :=
  { GetDBusInfo :=
      { Dest := "com.deepin.filemanager.Backend.Operations",
        ObjectPath := "/com/deepin/filemanager/Backend/Operations/ListJob1",
        Interface := "com.deepin.filemanager.Backend.Operations.ListJob" } }

/-- An environment in which every collaborator succeeds: each constructor
of the engine returns `exampleJob` and the session bus registers it. -/
def exampleEnv : Env :=
  { JobObjectPath := "/com/deepin/filemanager/Backend/Operations"
    JobDestination := "com.deepin.filemanager.Backend.Operations"
    InstallOnSession := fun _ => none
    NewUIDelegate := fun dest objPath iface => (some ⟨dest, objPath, iface⟩, none)
    d := fun _ => some exampleJob
    templatesDir := "/home/user/Templates" }

/-- The environment `exampleEnv` with a session bus that refuses every
registration. -/
def busFailsEnv : Env :=
  { exampleEnv with InstallOnSession := fun _ => some ⟨"object path already exported"⟩ }

/-- Whether `e` is a call of a constructor of the engine. -/
def Event.isEngine : Event → Bool
  | .Engine _ => true
  | _ => false

/-- Whether `e` is a call of the factory handed to `newOperationJob`. -/
def Event.isCallFn : Event → Bool
  | .CallFn _ => true
  | _ => false

/-- Whether `e` is a registration on the session bus. -/
def Event.isInstallOnSession : Event → Bool
  | .InstallOnSession _ => true
  | _ => false

/-! ## Theorems -/

/-! ### `pathToURL` and the loop over the paths -/

/-- A `pathToURL` that returns no error returns a URL. -/
theorem pathToURL_url_of_no_error (path : String) (h : (pathToURL path).2 = none) :
    ∃ u, pathToURL path = (some u, none) := by
  unfold pathToURL at h ⊢
  cases hp : url.Parse path with
  | error e => simp [hp] at h
  | ok u =>
    simp only [hp] at h ⊢
    split_ifs at h ⊢ <;> simp_all

/-- The loop over the paths never dereferences a nil URL. -/
theorem normalizePaths_ne_nilDereference (paths : List String) :
    normalizePaths paths ≠ .nilDereference := by
  induction paths with
  | nil => simp [normalizePaths]
  | cons p ps ih =>
    unfold normalizePaths
    cases hp : (pathToURL p).2 with
    | some err =>
      rcases hpu : pathToURL p with ⟨_ | u, _ | e⟩ <;> simp_all
    | none =>
      obtain ⟨u, hu⟩ := pathToURL_url_of_no_error p hp
      rw [hu]
      cases hn : normalizePaths ps <;> simp_all

/-- The loop over the paths stops with an error as soon as one path fails. -/
theorem normalizePaths_failed (paths : List String)
    (h : ∃ p ∈ paths, (pathToURL p).2 ≠ none) :
    ∃ err, normalizePaths paths = .failed err := by
  induction paths with
  | nil => simp at h
  | cons p ps ih =>
    unfold normalizePaths
    cases hp : (pathToURL p).2 with
    | some err =>
      rcases hpu : pathToURL p with ⟨_ | u, _ | e⟩ <;> simp_all
    | none =>
      obtain ⟨u, hu⟩ := pathToURL_url_of_no_error p hp
      have hps : ∃ q ∈ ps, (pathToURL q).2 ≠ none := by
        obtain ⟨q, hq, hne⟩ := h
        rcases List.mem_cons.mp hq with rfl | hq
        · exact absurd hp hne
        · exact ⟨q, hq, hne⟩
      obtain ⟨err, herr⟩ := ih hps
      rw [hu]; simp [herr]

/-- When every path converts, the loop over the paths yields, in order, the
string form of the URL of each path. -/
theorem normalizePaths_urls (paths : List String)
    (h : ∀ p ∈ paths, (pathToURL p).2 = none) :
    ∃ srcURLs, normalizePaths paths = .urls srcURLs ∧
      List.Forall₂ (fun p s => ∃ u, pathToURL p = (some u, none) ∧ s = u.String)
        paths srcURLs := by
  induction paths with
  | nil => exact ⟨[], rfl, List.Forall₂.nil⟩
  | cons p ps ih =>
    obtain ⟨u, hu⟩ := pathToURL_url_of_no_error p (h p (List.mem_cons_self _ _))
    obtain ⟨l, hl, hall⟩ := ih fun q hq => h q (List.mem_cons_of_mem _ hq)
    refine ⟨u.String :: l, ?_, List.Forall₂.cons ⟨u, hu, rfl⟩ hall⟩
    unfold normalizePaths
    rw [hu]; simp [hl]

/-- C1. For every input whose parsed path component is not an absolute
filesystem path, `pathToURL` returns a non-nil error; an input that
`url.Parse` rejects falls under it, there being no parsed path at all. -/
theorem pathToURL_error_of_path_not_absolute (path : String)
    (h : ∀ u, url.Parse path = .ok u → filepath.IsAbs u.Path = false) :
    (pathToURL path).2 ≠ none := by
  unfold pathToURL
  cases hp : url.Parse path with
  | error e => simp
  | ok u => simp [h u hp]

/-- C1 at the relative path `relative/path` and at the empty string. -/
theorem pathToURL_error_of_path_not_absolute_witness :
    ((∀ u, url.Parse "relative/path" = .ok u → filepath.IsAbs u.Path = false) ∧
      (pathToURL "relative/path").2 ≠ none) ∧
    ((∀ u, url.Parse "" = .ok u → filepath.IsAbs u.Path = false) ∧
      (pathToURL "").2 ≠ none) := by
  have h1 : ∀ u, url.Parse "relative/path" = .ok u → filepath.IsAbs u.Path = false := by
    intro u hu
    have h0 : (match url.Parse "relative/path" with
        | .ok u => filepath.IsAbs u.Path
        | .error _ => false) = false := by decide
    rw [hu] at h0
    exact h0
  have h2 : ∀ u, url.Parse "" = .ok u → filepath.IsAbs u.Path = false := by
    intro u hu
    have h0 : (match url.Parse "" with
        | .ok u => filepath.IsAbs u.Path
        | .error _ => false) = false := by decide
    rw [hu] at h0
    exact h0
  exact ⟨⟨h1, pathToURL_error_of_path_not_absolute "relative/path" h1⟩,
    ⟨h2, pathToURL_error_of_path_not_absolute "" h2⟩⟩

/-! ### `newOperationJob` on a path that does not convert -/

/-- C2. When `pathToURL` fails on at least one path of the list, then
whatever the factory `fn` and the other paths are, `newOperationJob`
returns the sentinel address (destination `""`, object path
`d.JobObjectPath`, interface `""`) and logs one error line: `fn` is never
called.  So does `NewRenameJob`, built on it, for a `fileURL` on which
`pathToURL` fails: no constructor of the engine is called. -/
theorem newOperationJob_sentinel_of_failing_path (env : Env) (paths : List String)
    (fn : List String → Outcome DBusObject × List Event) (newName : String)
    (h : ∃ p ∈ paths, (pathToURL p).2 ≠ none) :
    (∃ err, newOperationJob env paths fn =
      (.ret ⟨"", env.JobObjectPath, "", some err⟩,
        [Event.Log .Error ["convert path to URL failed:", err.msg]])) ∧
    (∀ e ∈ (newOperationJob env paths fn).2, e.isCallFn = false) ∧
    (∀ fileURL, paths = [fileURL] →
      ∃ err, NewRenameJob env fileURL newName =
        (.ret ⟨"", env.JobObjectPath, "", some err⟩,
          [Event.Log .Debug ["NewRenameJob"],
            Event.Log .Error ["convert path to URL failed:", err.msg]])) := by
  have key : ∀ fn : List String → Outcome DBusObject × List Event,
      ∃ err, newOperationJob env paths fn =
        (.ret ⟨"", env.JobObjectPath, "", some err⟩,
          [Event.Log .Error ["convert path to URL failed:", err.msg]]) := by
    intro fn
    obtain ⟨err, herr⟩ := normalizePaths_failed paths h
    exact ⟨err, by simp [newOperationJob, herr]⟩
  refine ⟨key fn, ?_, ?_⟩
  · obtain ⟨err, herr⟩ := key fn
    rw [herr]
    intro e he
    simp at he
    subst he
    rfl
  · intro fileURL hp
    subst hp
    obtain ⟨err, herr⟩ := key fun uris =>
      match uris with
      | fileURL0 :: _ => callEngine env [] (.NewRenameJob fileURL0 newName)
      | [] => (.panic, [])
    exact ⟨err, by simp [NewRenameJob, logDebug, herr]⟩

/-- C2 at the path list `["/home/user/docs", "relative/path"]`, and for a
rename of `relative/path`. -/
theorem newOperationJob_sentinel_of_failing_path_witness :
    (∃ p ∈ ["/home/user/docs", "relative/path"], (pathToURL p).2 ≠ none) ∧
    (∃ err, newOperationJob exampleEnv ["/home/user/docs", "relative/path"]
        (fun _ => (.ret (some exampleJob), [])) =
      (.ret ⟨"", exampleEnv.JobObjectPath, "", some err⟩,
        [Event.Log .Error ["convert path to URL failed:", err.msg]])) ∧
    (∃ err, NewRenameJob exampleEnv "relative/path" "new-name" =
      (.ret ⟨"", exampleEnv.JobObjectPath, "", some err⟩,
        [Event.Log .Debug ["NewRenameJob"],
          Event.Log .Error ["convert path to URL failed:", err.msg]])) := by
  have h : ∃ p ∈ ["/home/user/docs", "relative/path"], (pathToURL p).2 ≠ none :=
    ⟨"relative/path", by simp, by decide⟩
  have h1 : ∃ p ∈ ["relative/path"], (pathToURL p).2 ≠ none :=
    ⟨"relative/path", by simp, by decide⟩
  exact ⟨h,
    (newOperationJob_sentinel_of_failing_path exampleEnv _ _ "new-name" h).1,
    (newOperationJob_sentinel_of_failing_path exampleEnv ["relative/path"]
      (fun _ => (.ret none, [])) "new-name" h1).2.2 "relative/path" rfl⟩

/-! ### `installJob` -/

/-- C3. Whenever `installJob` fails, because the job is nil or because the
registration on the session bus returns an error, it returns a non-nil
error together with exactly the sentinel address: destination `""`, object
path `d.JobObjectPath` (which is not the empty path, the constant
`d.JobObjectPath` not being empty) and interface `""`; for a nil job no registration is attempted. -/
theorem installJob_sentinel_of_failure (env : Env) (job : DBusObject)
    (h : job = none ∨ ∃ j err, job = some j ∧ env.InstallOnSession j = some err) :
    (∃ err, (installJob env job).1 = ⟨"", env.JobObjectPath, "", some err⟩) ∧
    (env.JobObjectPath ≠ "" → (installJob env job).1.objPath ≠ "") ∧
    (job = none → ∀ e ∈ (installJob env job).2, e.isInstallOnSession = false) := by
  rcases h with rfl | ⟨j, err, rfl, hj⟩
  · refine ⟨⟨_, rfl⟩, fun hne => hne, fun _ e he => ?_⟩
    simp [installJob] at he
    subst he
    rfl
  · refine ⟨⟨err, by simp [installJob, hj]⟩, fun hne => by simpa [installJob, hj] using hne,
      fun hn => by simp at hn⟩

/-- C3 for a nil job, and for a job that the session bus refuses. -/
theorem installJob_sentinel_of_failure_witness :
    ((∃ err, (installJob exampleEnv none).1 = ⟨"", exampleEnv.JobObjectPath, "", some err⟩) ∧
      (exampleEnv.JobObjectPath ≠ "" → (installJob exampleEnv none).1.objPath ≠ "") ∧
      ((none : DBusObject) = none →
        ∀ e ∈ (installJob exampleEnv none).2, e.isInstallOnSession = false)) ∧
    (∃ err, (installJob busFailsEnv (some exampleJob)).1 =
      ⟨"", busFailsEnv.JobObjectPath, "", some err⟩) :=
  ⟨installJob_sentinel_of_failure exampleEnv none (Or.inl rfl),
    (installJob_sentinel_of_failure busFailsEnv (some exampleJob)
      (Or.inr ⟨exampleJob, _, rfl, rfl⟩)).1⟩

/-- C4, as stated, fails: a job that is not nil but that the session bus
refuses to register comes back with the sentinel address, whose interface
is empty. -/
theorem installJob_iface_empty_of_bus_failure :
    exampleJob.GetDBusInfo.Interface ≠ "" ∧
    (installJob busFailsEnv (some exampleJob)).1.iface = "" ∧
    (NewListJob busFailsEnv "/home/user/docs" 0).1 =
      .ret ⟨"", busFailsEnv.JobObjectPath, "", some ⟨"object path already exported"⟩⟩ := by
  decide

/-- C4, amended. For every job that is not nil and that the session bus
registers, `installJob` returns no error and the address the job
describes itself by, whose interface is not empty when the job's is not;
for a nil job it returns the sentinel address, with an empty interface.
The same holds for the result of `newOperationJob`, hence of every
dispatch method: when the paths convert and the factory produces the job
`j`, the reply is that of `installJob` for `j`. -/
theorem installJob_address_of_registered (env : Env) (j : Job)
    (hbus : env.InstallOnSession j = none) :
    (installJob env (some j)).1 =
      ⟨j.GetDBusInfo.Dest, j.GetDBusInfo.ObjectPath, j.GetDBusInfo.Interface, none⟩ ∧
    (j.GetDBusInfo.Interface ≠ "" → (installJob env (some j)).1.iface ≠ "") ∧
    (installJob env none).1.iface = "" ∧
    (installJob env none).1.objPath = env.JobObjectPath ∧
    (∀ paths fn srcURLs events, normalizePaths paths = .urls srcURLs →
      fn srcURLs = (.ret (some j), events) →
      (newOperationJob env paths fn).1 =
        .ret ⟨j.GetDBusInfo.Dest, j.GetDBusInfo.ObjectPath, j.GetDBusInfo.Interface, none⟩) ∧
    (∀ paths fn srcURLs events, normalizePaths paths = .urls srcURLs →
      fn srcURLs = (.ret none, events) →
      ∃ err, (newOperationJob env paths fn).1 = .ret ⟨"", env.JobObjectPath, "", some err⟩) := by
  refine ⟨by simp [installJob, hbus], fun hne => by simpa [installJob, hbus] using hne,
    rfl, rfl, ?_, ?_⟩
  · intro paths fn srcURLs events hn hfn
    simp [newOperationJob, hn, hfn, installJob, hbus]
  · intro paths fn srcURLs events hn hfn
    exact ⟨errors.New "cannot install a nil object on dbus.",
      by simp [newOperationJob, hn, hfn, installJob]⟩

/-- C4, amended, for `exampleJob` on a session bus that registers it. -/
theorem installJob_address_of_registered_witness :
    exampleEnv.InstallOnSession exampleJob = none ∧
    (installJob exampleEnv (some exampleJob)).1 =
      ⟨"com.deepin.filemanager.Backend.Operations",
        "/com/deepin/filemanager/Backend/Operations/ListJob1",
        "com.deepin.filemanager.Backend.Operations.ListJob", none⟩ :=
  ⟨rfl, (installJob_address_of_registered exampleEnv exampleJob rfl).1⟩

/-! ### `newOperationJob` on paths that convert -/

/-- C7. When `pathToURL` succeeds on every path of the list,
`newOperationJob` calls the factory once, with the list `srcURLs` that
holds, in the order of the paths, the string form of the URL of each path,
and it returns what `installJob` returns for the job the factory produced
(a factory that panics ends the call).  So `NewListJob` hands the string
form of the URL of its path to `d.NewListJob`. -/
theorem newOperationJob_calls_factory (env : Env) (paths : List String)
    (fn : List String → Outcome DBusObject × List Event)
    (h : ∀ p ∈ paths, (pathToURL p).2 = none) :
    ∃ srcURLs,
      List.Forall₂ (fun p s => ∃ u, pathToURL p = (some u, none) ∧ s = u.String)
        paths srcURLs ∧
      srcURLs.length = paths.length ∧
      (∀ job events, fn srcURLs = (.ret job, events) →
        newOperationJob env paths fn =
          ((.ret (installJob env job).1),
            Event.CallFn srcURLs :: events ++ (installJob env job).2)) ∧
      (∀ events, fn srcURLs = (.panic, events) →
        newOperationJob env paths fn = (.panic, Event.CallFn srcURLs :: events)) ∧
      (∀ path flags, paths = [path] → ∃ u, pathToURL path = (some u, none) ∧
        NewListJob env path flags =
          (.ret (installJob env (env.d (.NewListJob u.String flags))).1,
            [Event.Log .Debug ["NewListJob"], Event.CallFn [u.String],
                Event.Engine (.NewListJob u.String flags)] ++
              (installJob env (env.d (.NewListJob u.String flags))).2)) := by
  obtain ⟨srcURLs, hn, hall⟩ := normalizePaths_urls paths h
  refine ⟨srcURLs, hall, hall.length_eq.symm, ?_, ?_, ?_⟩
  · intro job events hfn
    simp [newOperationJob, hn, hfn]
  · intro events hfn
    simp [newOperationJob, hn, hfn]
  · intro path flags hp
    subst hp
    obtain ⟨u, hu⟩ := pathToURL_url_of_no_error path (h path (List.mem_singleton_self _))
    refine ⟨u, hu, ?_⟩
    simp [NewListJob, logDebug, newOperationJob, normalizePaths, hu, callEngine]

/-- C7 for a list operation on `/home/user/docs`: the factory, and through
it `d.NewListJob`, receives `file:///home/user/docs`, and the reply is the
address of the job. -/
theorem newOperationJob_calls_factory_witness :
    (∀ p ∈ ["/home/user/docs"], (pathToURL p).2 = none) ∧
    NewListJob exampleEnv "/home/user/docs" 0 =
      (.ret ⟨"com.deepin.filemanager.Backend.Operations",
          "/com/deepin/filemanager/Backend/Operations/ListJob1",
          "com.deepin.filemanager.Backend.Operations.ListJob", none⟩,
        [Event.Log .Debug ["NewListJob"], Event.CallFn ["file:///home/user/docs"],
          Event.Engine (.NewListJob "file:///home/user/docs" 0),
          Event.InstallOnSession exampleJob]) := by
  have h : ∀ p ∈ ["/home/user/docs"], (pathToURL p).2 = none := by
    intro p hp
    rw [List.mem_singleton.mp hp]
    decide
  refine ⟨h, ?_⟩
  obtain ⟨srcURLs, -, -, -, -, hlist⟩ :=
    newOperationJob_calls_factory exampleEnv ["/home/user/docs"] (fun _ => (.panic, [])) h
  obtain ⟨u, hu, hrun⟩ := hlist "/home/user/docs" 0 rfl
  have hu0 : pathToURL "/home/user/docs" =
      (some { Scheme := "file", Path := "/home/user/docs" }, none) := by decide
  rw [hu0] at hu
  have hu1 : u = { Scheme := "file", Path := "/home/user/docs" } := by
    simpa using hu.symm
  subst hu1
  rw [hrun]
  decide

/-! ### Input that does not pass validation -/

/-- The run of `NewSetDefaultLaunchAppJob` on an identifier that does not
end in `.desktop`. -/
theorem NewSetDefaultLaunchAppJob_run_of_bad_id (env : Env) (id mimeType : String)
    (h : strings.HasSuffix id.data ".desktop".data = false) :
    NewSetDefaultLaunchAppJob env id mimeType =
      (.ret ⟨"", env.JobObjectPath, "", some (errors.New "cannot install a nil object on dbus.")⟩,
        [Event.Log .Debug ["NewSetDefaultLaunchAppJob"], Event.CallFn [],
          Event.Log .Error ["wrong desktop id: %q", id],
          Event.Log .Warning ["cannot install a nil object on dbus."]]) := by
  simp [NewSetDefaultLaunchAppJob, logDebug, newOperationJob, normalizePaths, h, installJob]

/-- The loop over the paths stops with the error of `pathToURL` on one of
the paths. -/
theorem normalizePaths_failed_with (paths : List String)
    (h : ∃ p ∈ paths, (pathToURL p).2 ≠ none) :
    ∃ p err, p ∈ paths ∧ (pathToURL p).2 = some err ∧ normalizePaths paths = .failed err := by
  induction paths with
  | nil => simp at h
  | cons p ps ih =>
    cases hp : (pathToURL p).2 with
    | some err =>
      refine ⟨p, err, List.mem_cons_self _ _, hp, ?_⟩
      unfold normalizePaths
      rcases hpu : pathToURL p with ⟨_ | u, _ | e⟩ <;> simp_all
    | none =>
      obtain ⟨u, hu⟩ := pathToURL_url_of_no_error p hp
      have hps : ∃ q ∈ ps, (pathToURL q).2 ≠ none := by
        obtain ⟨q, hq, hne⟩ := h
        rcases List.mem_cons.mp hq with rfl | hq
        · exact absurd hp hne
        · exact ⟨q, hq, hne⟩
      obtain ⟨q, err, hq, hqe, hn⟩ := ih hps
      refine ⟨q, err, List.mem_cons_of_mem _ hq, hqe, ?_⟩
      unfold normalizePaths
      rw [hu]; simp [hn]

/-- C8, as stated, fails: for the identifier `gedit`, which does not end
in `.desktop`, the installer `installJob` is invoked, on the nil job of
the factory: the reply is its reply, its warning is logged and the error
returned is its error. -/
theorem NewSetDefaultLaunchAppJob_invokes_installJob :
    strings.HasSuffix "gedit".data ".desktop".data = false ∧
    (NewSetDefaultLaunchAppJob exampleEnv "gedit" "text/plain").1 =
      .ret (installJob exampleEnv none).1 ∧
    (NewSetDefaultLaunchAppJob exampleEnv "gedit" "text/plain").1 =
      .ret ⟨"", "/com/deepin/filemanager/Backend/Operations", "",
        some (errors.New "cannot install a nil object on dbus.")⟩ ∧
    Event.Log .Warning ["cannot install a nil object on dbus."] ∈
      (NewSetDefaultLaunchAppJob exampleEnv "gedit" "text/plain").2 := by
  decide

/-- C8, amended. For every identifier `id` that does not end in
`.desktop` and every `mimeType`, `NewSetDefaultLaunchAppJob` returns the
sentinel address (object path `d.JobObjectPath`, empty interface) without
calling the constructor `d.NewSetDefaultLaunchAppJob` of the engine and
without a registration on the session bus; `installJob` is invoked, on a
nil job, and contributes its warning and its error. -/
theorem NewSetDefaultLaunchAppJob_sentinel_of_bad_id (env : Env) (id mimeType : String)
    (h : strings.HasSuffix id.data ".desktop".data = false) :
    NewSetDefaultLaunchAppJob env id mimeType =
      (.ret ⟨"", env.JobObjectPath, "", some (errors.New "cannot install a nil object on dbus.")⟩,
        [Event.Log .Debug ["NewSetDefaultLaunchAppJob"], Event.CallFn [],
          Event.Log .Error ["wrong desktop id: %q", id],
          Event.Log .Warning ["cannot install a nil object on dbus."]]) ∧
    (∀ e ∈ (NewSetDefaultLaunchAppJob env id mimeType).2,
      e.isEngine = false ∧ e.isInstallOnSession = false) := by
  have hmain := NewSetDefaultLaunchAppJob_run_of_bad_id env id mimeType h
  refine ⟨hmain, ?_⟩
  rw [hmain]
  intro e he
  simp at he
  rcases he with rfl | rfl | rfl | rfl <;> exact ⟨rfl, rfl⟩

/-- C8, amended, for the identifier `gedit`. -/
theorem NewSetDefaultLaunchAppJob_sentinel_of_bad_id_witness :
    strings.HasSuffix "gedit".data ".desktop".data = false ∧
    NewSetDefaultLaunchAppJob exampleEnv "gedit" "text/plain" =
      (.ret ⟨"", exampleEnv.JobObjectPath, "",
          some (errors.New "cannot install a nil object on dbus.")⟩,
        [Event.Log .Debug ["NewSetDefaultLaunchAppJob"], Event.CallFn [],
          Event.Log .Error ["wrong desktop id: %q", "gedit"],
          Event.Log .Warning ["cannot install a nil object on dbus."]]) :=
  ⟨by decide, (NewSetDefaultLaunchAppJob_sentinel_of_bad_id exampleEnv "gedit" "text/plain"
    (by decide)).1⟩

/-! ### The destination directory of a copy or a move -/

/-- On the empty string `pathToURL` fails, and returns the empty URL, whose
string form is the empty string. -/
theorem pathToURL_empty :
    pathToURL "" = (some {}, some (errors.New "a absolute path is requested")) ∧
    url.URL.String {} = "" := by
  decide

/-- What the factory of `NewCopyJob` and `NewMoveJob` does, by the
destination directory. -/
theorem copyMoveFn_run (env : Env) (destDir dest objPath iface : String)
    (call : List String → String → IUIDelegate → EngineCall) (uris : List String) :
    (destDir ≠ "" → ∀ err, (pathToURL destDir).2 = some err →
      copyMoveFn env destDir dest objPath iface call uris =
        (.ret none, [Event.Log .Error ["convert path to URL failed:", err.msg]])) ∧
    (destDir = "" →
      copyMoveFn env destDir dest objPath iface call uris =
        callEngine env (newUIDelegate env dest objPath iface).2
          (call uris "" (newUIDelegate env dest objPath iface).1)) ∧
    (destDir ≠ "" → ∀ u, pathToURL destDir = (some u, none) →
      copyMoveFn env destDir dest objPath iface call uris =
        callEngine env (newUIDelegate env dest objPath iface).2
          (call uris u.String (newUIDelegate env dest objPath iface).1)) := by
  refine ⟨?_, ?_, ?_⟩
  · intro hne err herr
    simp [copyMoveFn, hne, herr]
  · intro he
    subst he
    simp [copyMoveFn, pathToURL_empty.1, pathToURL_empty.2]
  · intro hne u hu
    simp [copyMoveFn, hne, hu]

/-- C9, as stated, fails: the factory of a copy or a move also yields a nil
job when the constructor of the engine returns one.  With an engine that
returns nil and the empty destination directory, the factory of `NewCopyJob`
yields a nil job, and `NewCopyJob` and `NewMoveJob` return the sentinel
address, although `destDir` is empty. -/
theorem copy_move_nil_job_of_engine :
    ¬ (("" : String) ≠ "" ∧ (pathToURL "").2 ≠ none) ∧
    (copyMoveFn { exampleEnv with d := fun _ => none } "" "" "" ""
      (fun uris destDirURL uiDelegate => .NewCopyJob uris destDirURL "" 0 uiDelegate)
      ["file:///home/user/docs"]).1 = .ret none ∧
    (NewCopyJob { exampleEnv with d := fun _ => none } ["/home/user/docs"] "" "" 0 "" "" "").1 =
      .ret ⟨"", "/com/deepin/filemanager/Backend/Operations", "",
        some (errors.New "cannot install a nil object on dbus.")⟩ ∧
    (NewMoveJob { exampleEnv with d := fun _ => none } ["/home/user/docs"] "" "" 0 "" "" "").1 =
      .ret ⟨"", "/com/deepin/filemanager/Backend/Operations", "",
        some (errors.New "cannot install a nil object on dbus.")⟩ ∧
    Event.Engine (.NewCopyJob ["file:///home/user/docs"] "" "" 0 (some ⟨"", "", ""⟩)) ∈
      (NewCopyJob { exampleEnv with d := fun _ => none } ["/home/user/docs"] "" "" 0 "" "" "").2 := by
  decide

/-- C9, amended. For `NewCopyJob` and `NewMoveJob` with sources that all
convert, the destination directory is optional.  The factory returns
without calling the constructor of the engine exactly when `destDir` is not
empty and `pathToURL destDir` fails: its job is then nil and the call
returns the sentinel address.  Otherwise the constructor of the engine is
called and its job installed: for an empty `destDir` it receives the empty
string as destination, for a `destDir` that converts the string form of its
URL.  So the factory yields a nil job exactly when `destDir` is not empty
and `pathToURL destDir` fails, or the constructor of the engine returns a
nil job. -/
theorem copy_move_destination (env : Env) (srcs : List String) (destDir targetName : String)
    (flags : Nat) (dest objPath iface : String)
    (h : ∀ p ∈ srcs, (pathToURL p).2 = none) :
    ∃ uris destRef,
      normalizePaths srcs = .urls uris ∧
      (destDir = "" → destRef = "") ∧
      (destDir ≠ "" → ∀ u, pathToURL destDir = (some u, none) → destRef = u.String) ∧
      ((destDir ≠ "" ∧ (pathToURL destDir).2 ≠ none) →
        ∃ err, (pathToURL destDir).2 = some err ∧
          NewCopyJob env srcs destDir targetName flags dest objPath iface =
            (.ret ⟨"", env.JobObjectPath, "",
                some (errors.New "cannot install a nil object on dbus.")⟩,
              [Event.Log .Debug ["NewCopyJob"], Event.CallFn uris,
                Event.Log .Error ["convert path to URL failed:", err.msg],
                Event.Log .Warning ["cannot install a nil object on dbus."]]) ∧
          NewMoveJob env srcs destDir targetName flags dest objPath iface =
            (.ret ⟨"", env.JobObjectPath, "",
                some (errors.New "cannot install a nil object on dbus.")⟩,
              [Event.Log .Debug ["NewMoveJob"], Event.CallFn uris,
                Event.Log .Error ["convert path to URL failed:", err.msg],
                Event.Log .Warning ["cannot install a nil object on dbus."]])) ∧
      (¬ (destDir ≠ "" ∧ (pathToURL destDir).2 ≠ none) →
        NewCopyJob env srcs destDir targetName flags dest objPath iface =
          (.ret (installJob env (env.d (.NewCopyJob uris destRef targetName flags
              (newUIDelegate env dest objPath iface).1))).1,
            [Event.Log .Debug ["NewCopyJob"], Event.CallFn uris] ++
              (newUIDelegate env dest objPath iface).2 ++
              [Event.Engine (.NewCopyJob uris destRef targetName flags
                (newUIDelegate env dest objPath iface).1)] ++
              (installJob env (env.d (.NewCopyJob uris destRef targetName flags
                (newUIDelegate env dest objPath iface).1))).2) ∧
        NewMoveJob env srcs destDir targetName flags dest objPath iface =
          (.ret (installJob env (env.d (.NewMoveJob uris destRef targetName flags
              (newUIDelegate env dest objPath iface).1))).1,
            [Event.Log .Debug ["NewMoveJob"], Event.CallFn uris] ++
              (newUIDelegate env dest objPath iface).2 ++
              [Event.Engine (.NewMoveJob uris destRef targetName flags
                (newUIDelegate env dest objPath iface).1)] ++
              (installJob env (env.d (.NewMoveJob uris destRef targetName flags
                (newUIDelegate env dest objPath iface).1))).2)) ∧
      (∀ call,
        ((∀ e ∈ (copyMoveFn env destDir dest objPath iface call uris).2, e.isEngine = false) ↔
          (destDir ≠ "" ∧ (pathToURL destDir).2 ≠ none)) ∧
        ((copyMoveFn env destDir dest objPath iface call uris).1 = .ret none ↔
          ((destDir ≠ "" ∧ (pathToURL destDir).2 ≠ none) ∨
            env.d (call uris destRef (newUIDelegate env dest objPath iface).1) = none))) := by
  obtain ⟨uris, hn, -⟩ := normalizePaths_urls srcs h
  by_cases hd : destDir = ""
  · refine ⟨uris, "", hn, fun _ => rfl, fun hne => absurd hd hne,
      fun hc => absurd hd hc.1, fun _ => ?_, fun call => ?_⟩
    · have hc := fun call => (copyMoveFn_run env destDir dest objPath iface call uris).2.1 hd
      simp [NewCopyJob, NewMoveJob, logDebug, newOperationJob, hn, hc, callEngine]
    · have hc := (copyMoveFn_run env destDir dest objPath iface call uris).2.1 hd
      rw [hc]
      simp [callEngine, hd, Event.isEngine]
      exact ⟨_, Or.inr rfl, rfl⟩
  · cases he : (pathToURL destDir).2 with
    | some err =>
      have hc := fun call =>
        (copyMoveFn_run env destDir dest objPath iface call uris).1 hd err he
      refine ⟨uris, "", hn, fun hd0 => absurd hd0 hd, fun _ u hu => ?_, fun _ => ⟨err, rfl, ?_⟩,
        fun hc0 => absurd ⟨hd, by simp⟩ hc0, fun call => ?_⟩
      · rw [hu] at he
        simp at he
      · simp [NewCopyJob, NewMoveJob, logDebug, newOperationJob, hn, hc, installJob]
      · simp [hc, hd, Event.isEngine]
    | none =>
      obtain ⟨u, hu⟩ := pathToURL_url_of_no_error destDir he
      have hc := fun call =>
        (copyMoveFn_run env destDir dest objPath iface call uris).2.2 hd u hu
      refine ⟨uris, u.String, hn, fun hd0 => absurd hd0 hd, fun _ v hv => ?_,
        fun hc0 => absurd rfl hc0.2, fun _ => ?_, fun call => ?_⟩
      · rw [hu] at hv
        simp at hv
        rw [hv]
      · simp [NewCopyJob, NewMoveJob, logDebug, newOperationJob, hn, hc, callEngine]
      · simp [hc, callEngine, Event.isEngine]
        exact ⟨_, Or.inr rfl, rfl⟩

/-- C9, amended, for a copy of `/home/user/docs` with the empty destination
directory: the call goes on and `d.NewCopyJob` receives the empty
string. -/
theorem copy_move_destination_witness :
    (∀ p ∈ ["/home/user/docs"], (pathToURL p).2 = none) ∧
    NewCopyJob exampleEnv ["/home/user/docs"] "" "" 0 "" "" "" =
      (.ret ⟨"com.deepin.filemanager.Backend.Operations",
          "/com/deepin/filemanager/Backend/Operations/ListJob1",
          "com.deepin.filemanager.Backend.Operations.ListJob", none⟩,
        [Event.Log .Debug ["NewCopyJob"], Event.CallFn ["file:///home/user/docs"],
          Event.Engine (.NewCopyJob ["file:///home/user/docs"] "" "" 0 (some ⟨"", "", ""⟩)),
          Event.InstallOnSession exampleJob]) := by
  have h : ∀ p ∈ ["/home/user/docs"], (pathToURL p).2 = none := by
    intro p hp
    rw [List.mem_singleton.mp hp]
    decide
  refine ⟨h, ?_⟩
  obtain ⟨uris, destRef, hn, hre, -, -, hgo, -⟩ :=
    copy_move_destination exampleEnv ["/home/user/docs"] "" "" 0 "" "" "" h
  have hn0 : normalizePaths ["/home/user/docs"] = .urls ["file:///home/user/docs"] := by decide
  rw [hn0] at hn
  injection hn with hn
  subst hn
  rw [hre rfl] at hgo
  rw [(hgo (by simp)).1]
  decide

/-! ### `url.Parse` on a plain path -/

namespace strings

/-- Cutting at a byte that does not occur leaves the text whole. -/
theorem Cut_of_not_mem (sep : Char) (s : List Char) (h : sep ∉ s) :
    Cut sep s = (s, [], false) := by
  induction s with
  | nil => rfl
  | cons c cs ih =>
    have hc : c ≠ sep := fun e => h (e ▸ List.mem_cons_self _ _)
    have hcs : sep ∉ cs := fun hm => h (List.mem_cons_of_mem _ hm)
    simp [Cut, hc, ih hcs]

end strings

namespace url

/-- Without a `%`, `unescape` of a path gives back the path. -/
theorem unescape_path_of_no_percent (s : List Char) (h : '%' ∉ s) :
    unescape encoding.encodePath s = .ok s := by
  induction s with
  | nil => rfl
  | cons c cs ih =>
    have hc : c ≠ '%' := fun e => h (e ▸ List.mem_cons_self _ _)
    have hcs : '%' ∉ cs := fun hm => h (List.mem_cons_of_mem _ hm)
    unfold unescape
    by_cases hp : c = '+'
    · subst hp
      simp [ih hcs]
    · simp [hc, hp, ih hcs]

/-- On a plain absolute path `url.Parse` succeeds: the URL has the path and
nothing else. -/
theorem Parse_of_plain (path : String) (h : isPlainAbsPath path = true) :
    ∃ raw, Parse path = .ok { Path := path, RawPath := raw } := by
  obtain ⟨s⟩ := path
  simp only [isPlainAbsPath, Bool.and_eq_true, List.all_eq_true] at h
  obtain ⟨⟨habs, hauth⟩, hall⟩ := h
  have hq : '?' ∉ s := fun hm => by simpa using hall _ hm
  have hh : '#' ∉ s := fun hm => by simpa using hall _ hm
  have hp : '%' ∉ s := fun hm => by simpa using hall _ hm
  have hctl : stringContainsCTLByte s = false := by
    simp only [stringContainsCTLByte, List.any_eq_false]
    intro c hc
    have := hall c hc
    simp at this
    simp
    omega
  cases s with
  | nil => simp [strings.HasPrefix] at habs
  | cons c cs =>
    have hc : c = '/' := by
      have : '/' = c := by simpa [strings.HasPrefix] using habs
      exact this.symm
    subst hc
    have hstar : ('/' :: cs) ≠ ['*'] := by simp
    have hsch : getScheme ('/' :: cs) = .ok ([], '/' :: cs) := by
      simp [getScheme, getSchemeLoop, between]
    have hfq : (strings.HasSuffix ('/' :: cs) ['?'] && strings.Count ('/' :: cs) '?' == 1)
        = false := by
      have : strings.Count ('/' :: cs) '?' = 0 := by
        simpa [strings.Count, List.count_eq_zero] using hq
      simp [this]
    refine ⟨if ('/' :: cs) = escape ('/' :: cs) encoding.encodePath then "" else ⟨'/' :: cs⟩, ?_⟩
    simp only [Parse, strings.Cut_of_not_mem _ _ hh, parse, hctl, hstar, hsch, hfq,
      strings.Cut_of_not_mem _ _ hq]
    cases h2 : strings.HasPrefix ('/' :: cs) ['/', '/'] <;>
      cases h3 : strings.HasPrefix ('/' :: cs) ['/', '/', '/'] <;>
      simp [h2, h3, habs, strings.ToLower, setPath, unescape_path_of_no_percent _ hp] at hauth ⊢

end url

/-- C5, as stated, fails. The absolute path `/a?b` carries no scheme and
`pathToURL` succeeds on it, but the path component of the URL is `/a`, the
text after `?` being read as a query; and on the absolute paths `/100%` and
`//foo` `pathToURL` returns an error. -/
theorem pathToURL_changes_path_with_query :
    filepath.IsAbs "/a?b" = true ∧
    pathToURL "/a?b" = (some { Scheme := "file", Path := "/a", RawQuery := "b" }, none) ∧
    filepath.IsAbs "/100%" = true ∧ (pathToURL "/100%").2 ≠ none ∧
    filepath.IsAbs "//foo" = true ∧ (pathToURL "//foo").2 ≠ none := by
  decide

/-- C5, amended. For every absolute path that holds no `?`, `#` or `%` and
no control byte and that does not start with exactly two slashes,
`pathToURL` succeeds and returns a URL whose scheme is `file`, whose path
component is the input path unchanged, and that has no other component. -/
theorem pathToURL_of_plain_path (path : String) (h : isPlainAbsPath path = true) :
    ∃ u, pathToURL path = (some u, none) ∧ u.Scheme = "file" ∧ u.Path = path ∧
      u.Opaque = "" ∧ u.User = none ∧ u.Host = "" ∧ u.RawQuery = "" ∧ u.Fragment = "" := by
  obtain ⟨raw, hparse⟩ := url.Parse_of_plain path h
  have habs : filepath.IsAbs path = true := by
    simp only [isPlainAbsPath, Bool.and_eq_true] at h
    exact h.1.1
  refine ⟨{ Scheme := "file", Path := path, RawPath := raw }, ?_, rfl, rfl, rfl, rfl, rfl, rfl,
    rfl⟩
  simp [pathToURL, hparse, habs]

/-- C5, amended, at `/home/user/docs`. -/
theorem pathToURL_of_plain_path_witness :
    isPlainAbsPath "/home/user/docs" = true ∧
    ∃ u, pathToURL "/home/user/docs" = (some u, none) ∧ u.Scheme = "file" ∧
      u.Path = "/home/user/docs" ∧
      u.Opaque = "" ∧ u.User = none ∧ u.Host = "" ∧ u.RawQuery = "" ∧ u.Fragment = "" :=
  ⟨by decide, pathToURL_of_plain_path "/home/user/docs" (by decide)⟩

/-! ### Escaping and unescaping -/

namespace url
open encoding

/-- The hexadecimal digit written for `n` reads back as `n`. -/
theorem unhex_upperhex : ∀ n, n < 16 → ishex (upperhex n) = true ∧ unhex (upperhex n) = n := by
  decide

/-- The two hexadecimal digits written for a byte read back as the byte. -/
theorem ofNat_unhex_upperhex (c : Char) (h : c.toNat < 256) :
    Char.ofNat (unhex (upperhex (c.toNat / 16)) * 16 + unhex (upperhex (c.toNat % 16))) = c := by
  rw [(unhex_upperhex _ (by omega)).2, (unhex_upperhex _ (by omega)).2]
  have : c.toNat / 16 * 16 + c.toNat % 16 = c.toNat := by omega
  rw [this]
  exact Char.ofNat_toNat c

/-- A percent sign is escaped in every part of a URL. -/
theorem shouldEscape_percent (m : encoding) : shouldEscape '%' m = true := by
  cases m <;> decide

/-- The escape of a text that starts with `c`. -/
theorem escape_cons (c : Char) (s : List Char) (m : encoding) :
    escape (c :: s) m = escapeByte m c ++ escape s m := by
  simp [escape]

/-- The escape of two texts one after the other. -/
theorem escape_append (s t : List Char) (m : encoding) :
    escape (s ++ t) m = escape s m ++ escape t m := by
  simp [escape]

/-- In a path, a fragment or user information, `unescape` undoes `escape`. -/
theorem unescape_escape (m : encoding) (hm : m = encodePath ∨ m = encodeFragment ∨
    m = encodeUserPassword) (s : List Char) (hs : ∀ c ∈ s, c.toNat < 256) :
    unescape m (escape s m) = .ok s := by
  induction s with
  | nil => rfl
  | cons c cs ih =>
    have ih := ih fun d hd => hs d (List.mem_cons_of_mem _ hd)
    have hc := hs c (List.mem_cons_self _ _)
    rw [escape_cons]
    by_cases he : shouldEscape c m = true
    · have hq : (m == encodeQueryComponent) = false := by
        rcases hm with rfl | rfl | rfl <;> rfl
      have hh : (m == encodeHost) = false := by
        rcases hm with rfl | rfl | rfl <;> rfl
      have hz : (m == encodeZone) = false := by
        rcases hm with rfl | rfl | rfl <;> rfl
      simp only [escapeByte, he, hq, Bool.and_false, if_true, Bool.false_eq_true, if_false,
        List.cons_append, List.nil_append]
      unfold unescape
      simp [(unhex_upperhex _ (show c.toNat / 16 < 16 by omega)).1,
        (unhex_upperhex _ (show c.toNat % 16 < 16 by omega)).1, hh, hz, ih,
        ofNat_unhex_upperhex c hc]
    · have hcp : c ≠ '%' := fun e => he (e ▸ shouldEscape_percent m)
      have hq : (m == encodeQueryComponent) = false := by
        rcases hm with rfl | rfl | rfl <;> rfl
      have hh : (m == encodeHost) = false := by
        rcases hm with rfl | rfl | rfl <;> rfl
      have hz : (m == encodeZone) = false := by
        rcases hm with rfl | rfl | rfl <;> rfl
      simp only [escapeByte, he, if_false, List.cons_append, List.nil_append,
        Bool.false_eq_true]
      unfold unescape
      by_cases hp : c = '+'
      · subst hp
        simp [ih, hq]
      · simp [hcp, hp, hh, hz, ih]

/-- What `unescape` returns is related to its argument by `Unescaped`. -/
theorem unescaped_of_unescape (m : encoding) (r : List Char) :
    ∀ t, unescape m r = .ok t → Unescaped m r t := by
  induction r using unescape.induct m with
  | case1 => intro t h; simp [unescape] at h; subst h; exact .nil
  | case2 a b rest2 hx => intro t h; simp [unescape, hx] at h
  | case3 a b rest2 hx hh => intro t h; simp [unescape, hx, hh] at h
  | case4 a b rest2 hx hh hz => intro t h; simp [unescape, hx, hh, hz] at h
  | case5 a b rest2 hx t0 ht hh hz ih =>
    intro t h
    simp [unescape, hx, ht, hh, hz] at h
    subst h
    simp at hx
    refine .hex a b rest2 t0 hx.1 hx.2 ?_ ?_ (ih t0 ht)
    · intro hm
      subst hm
      simp at hh
      by_cases h8 : unhex a < 8
      · exact Or.inr (hh h8)
      · exact Or.inl (by omega)
    · intro hm
      subst hm
      simp at hz
      by_cases h25 : a = '2' ∧ b = '5'
      · exact Or.inl h25
      · by_cases hsp : Char.ofNat (unhex a * 16 + unhex b) = ' '
        · exact Or.inr (Or.inl hsp)
        · exact Or.inr (Or.inr (hz (fun ha => fun hb => h25 ⟨ha, hb⟩) hsp))
  | case6 a b rest2 hx e he hh hz ih => intro t h; simp [unescape, hx, he, hh, hz] at h
  | case7 cs hcs =>
    intro t h
    unfold unescape at h
    rcases cs with _ | ⟨a, _ | ⟨b, cs⟩⟩
    · simp at h
    · simp at h
    · exact absurd rfl (hcs a b cs)
  | case8 cs t0 ht hne ih =>
    intro t h
    unfold unescape at h
    simp [ht] at h
    subst h
    have := Unescaped.raw (m := m) '+' cs t0 (by decide) (fun _ _ => by decide) (ih t0 ht)
    simpa using this
  | case9 cs e he hne ih => intro t h; unfold unescape at h; simp [he] at h
  | case10 c cs h1 h2 h3 => intro t h; unfold unescape at h; simp [h1, h2, h3] at h
  | case11 c cs h1 h2 h3 t0 ht ih =>
    intro t h
    unfold unescape at h
    simp [h1, h2, h3, ht] at h
    subst h
    have := Unescaped.raw (m := m) c cs t0 h1 ?_ (ih t0 ht)
    · simpa [h2] using this
    · intro hm hc
      simp at h3
      rcases hm with rfl | rfl
      · simpa [hc] using h3
      · simpa [hc] using h3
  | case12 c cs h1 h2 h3 e he ih => intro t h; unfold unescape at h; simp [h1, h2, h3, he] at h

end url

/-! ### Cutting and scanning -/

namespace strings

/-- Cutting at the first occurrence of the separator. -/
theorem Cut_append (sep : Char) (a b : List Char) (h : sep ∉ a) :
    Cut sep (a ++ sep :: b) = (a, b, true) := by
  induction a with
  | nil => simp [Cut]
  | cons c cs ih =>
    have hc : c ≠ sep := fun e => h (e ▸ List.mem_cons_self _ _)
    have hcs : sep ∉ cs := fun hm => h (List.mem_cons_of_mem _ hm)
    simp [Cut, hc, ih hcs]

/-- The text before the cut, the separator and the text after the cut make
up the text. -/
theorem Cut_eq (sep : Char) (s : List Char) :
    (sep ∉ (Cut sep s).1) ∧
    (((Cut sep s).2.2 = true ∧ s = (Cut sep s).1 ++ sep :: (Cut sep s).2.1) ∨
      ((Cut sep s).2.2 = false ∧ s = (Cut sep s).1 ∧ (Cut sep s).2.1 = [])) := by
  induction s with
  | nil => simp [Cut]
  | cons c cs ih =>
    by_cases hc : c = sep
    · subst hc
      simp [Cut]
    · obtain ⟨h1, h2⟩ := ih
      refine ⟨by simp [Cut, hc, h1, Ne.symm hc], ?_⟩
      rcases h2 with ⟨h2, h3⟩ | ⟨h2, h3, h4⟩
      · left
        simp only [Cut, hc, if_false]
        refine ⟨h2, ?_⟩
        rw [List.cons_append, ← h3]
      · right
        simp only [Cut, hc, if_false]
        exact ⟨h2, by rw [← h3], h4⟩

/-- The last occurrence of the separator, when the text after it holds none. -/
theorem LastIndex_append (sep : Char) (a b : List Char) (h : sep ∉ b) :
    LastIndex sep (a ++ sep :: b) = some a.length := by
  have hb : LastIndex sep b = none := by
    induction b with
    | nil => rfl
    | cons c cs ih =>
      have hc : c ≠ sep := fun e => h (e ▸ List.mem_cons_self _ _)
      have hcs : sep ∉ cs := fun hm => h (List.mem_cons_of_mem _ hm)
      simp [LastIndex, ih hcs, hc]
  induction a with
  | nil => simp [LastIndex, hb]
  | cons c cs ih => simp [LastIndex, ih]

/-- No last occurrence in a text without the separator. -/
theorem LastIndex_of_not_mem (sep : Char) (s : List Char) (h : sep ∉ s) :
    LastIndex sep s = none := by
  induction s with
  | nil => rfl
  | cons c cs ih =>
    have hc : c ≠ sep := fun e => h (e ▸ List.mem_cons_self _ _)
    have hcs : sep ∉ cs := fun hm => h (List.mem_cons_of_mem _ hm)
    simp [LastIndex, ih hcs, hc]

/-- The last occurrence of the separator splits the text around it. -/
theorem LastIndex_eq (sep : Char) (s : List Char) :
    (LastIndex sep s = none ∧ sep ∉ s) ∨
    (∃ i, LastIndex sep s = some i ∧ s = s.take i ++ sep :: s.drop (i + 1) ∧
      sep ∉ s.drop (i + 1) ∧ i < s.length) := by
  induction s with
  | nil => simp [LastIndex]
  | cons c cs ih =>
    rcases ih with ⟨h1, h2⟩ | ⟨i, h1, h2, h3, h4⟩
    · by_cases hc : c = sep
      · subst hc
        right
        exact ⟨0, by simp [LastIndex, h1], by simp, by simpa using h2, by simp⟩
      · left
        exact ⟨by simp [LastIndex, h1, hc], by simp [h2, Ne.symm hc]⟩
    · right
      refine ⟨i + 1, by simp [LastIndex, h1], ?_, by simpa using h3, by simpa using h4⟩
      simp only [List.take_succ_cons, List.drop_succ_cons, List.cons_append]
      rw [← h2]

end strings

/-! ### The scheme -/

namespace url

/-- Lower case letters, digits and signs are their own lower case. -/
theorem toLower_of_not_upper (c : Char) (h : between 'A' 'Z' c = false) : c.toLower = c := by
  simp only [between, decide_eq_false_iff_not, not_and, not_le, Char.reduceToNat] at h
  unfold Char.toLower
  have hc : ¬ (c.toNat ≥ 65 ∧ c.toNat ≤ 90) := fun hc => by
    have := h hc.1
    omega
  simp only [hc, if_false]

/-- The loop of `getScheme` reads a scheme up to its colon. -/
theorem getSchemeLoop_scheme (rawURL sch rest : List Char) :
    ∀ pre, pre ≠ [] →
      (∀ d ∈ sch, (between 'a' 'z' d || between '0' '9' d || d == '+' || d == '-' ||
        d == '.') = true) →
      getSchemeLoop rawURL pre (sch ++ ':' :: rest) = .ok (pre ++ sch, rest) := by
  induction sch with
  | nil =>
    intro pre hpre _
    simp [getSchemeLoop, hpre, between]
  | cons c cs ih =>
    intro pre hpre hall
    have hc := hall c (List.mem_cons_self _ _)
    have hcs := fun d hd => hall d (List.mem_cons_of_mem _ hd)
    have hnext := ih (pre ++ [c]) (by simp) hcs
    simp only [List.cons_append, getSchemeLoop]
    by_cases h1 : (between 'a' 'z' c || between 'A' 'Z' c) = true
    · simp only [h1, if_true]
      show getSchemeLoop rawURL (pre ++ [c]) (cs ++ ':' :: rest) = _
      rw [hnext]
      simp
    · have h2 : (between '0' '9' c || c == '+' || c == '-' || c == '.') = true := by
        simp only [Bool.or_eq_true, not_or] at h1 hc ⊢
        rcases hc with (((hc | hc) | hc) | hc) | hc
        · exact absurd hc h1.1
        · exact Or.inl (Or.inl (Or.inl hc))
        · exact Or.inl (Or.inl (Or.inr hc))
        · exact Or.inl (Or.inr hc)
        · exact Or.inr hc
      simp only [h1, h2, if_true, hpre, if_false, Bool.false_eq_true]
      show getSchemeLoop rawURL (pre ++ [c]) (cs ++ ':' :: rest) = _
      rw [hnext]
      simp

/-- Before a colon `getScheme` finds the scheme. -/
theorem getScheme_scheme (sch rest : List Char) (h : isScheme sch = true) :
    getScheme (sch ++ ':' :: rest) = .ok (sch, rest) := by
  cases sch with
  | nil => simp [isScheme] at h
  | cons c cs =>
    simp only [isScheme, Bool.and_eq_true, List.all_eq_true] at h
    have := getSchemeLoop_scheme (c :: cs ++ ':' :: rest) cs rest [c] (by simp) h.2
    simp only [getScheme, List.cons_append, getSchemeLoop, h.1, Bool.true_or, if_true]
    simpa using this

/-- A scheme is in lower case. -/
theorem ToLower_scheme (sch : List Char) (h : isScheme sch = true) :
    strings.ToLower sch = sch := by
  have hall : ∀ d ∈ sch, between 'A' 'Z' d = false := by
    cases sch with
    | nil => simp
    | cons c cs =>
      simp only [isScheme, Bool.and_eq_true, List.all_eq_true] at h
      intro d hd
      have hd' : (between 'a' 'z' d || between '0' '9' d || d == '+' || d == '-' ||
          d == '.') = true := by
        rcases List.mem_cons.mp hd with rfl | hd
        · simp [h.1]
        · exact h.2 d hd
      simp only [between, Bool.or_eq_true, decide_eq_true_eq, beq_iff_eq] at hd'
      simp only [between, decide_eq_false_iff_not, not_and, not_le]
      intro h65
      rcases hd' with (((hd' | hd') | hd') | hd') | hd'
      · simp at hd' ⊢; omega
      · simp at hd' h65 ⊢; omega
      · subst hd'; simp at h65
      · subst hd'; simp at h65
      · subst hd'; simp at h65
  unfold strings.ToLower
  conv_rhs => rw [← List.map_id sch]
  exact List.map_congr_left fun d hd => toLower_of_not_upper d (hall d hd)

end url

/-! ### Parsing a text put together from parts -/

namespace strings

/-- A text that ends with the separator has it as suffix. -/
theorem HasSuffix_append_singleton (a : List Char) (c : Char) :
    HasSuffix (a ++ [c]) [c] = true := by
  simp [HasSuffix, List.isSuffixOf]

/-- A text whose last part is not empty and does not hold `c` does not end
with `c`. -/
theorem HasSuffix_append_of_not_mem (a b : List Char) (c : Char) (hb : b ≠ []) (hc : c ∉ b) :
    HasSuffix (a ++ b) [c] = false := by
  have hr : b.reverse ≠ [] := by simpa using hb
  obtain ⟨x, xs, hx⟩ := List.exists_cons_of_ne_nil hr
  have hxb : x ∈ b := by
    have : x ∈ b.reverse := by rw [hx]; exact List.mem_cons_self _ _
    simpa using this
  have hne : c ≠ x := fun e => hc (e ▸ hxb)
  simp [HasSuffix, List.isSuffixOf, hx, List.isPrefixOf, hne]

/-- How `parse` splits the query off: from a text without `?`, followed by
the query that `String` writes, it finds back `ForceQuery`, the text and the
query. -/
theorem query_split (body rq : List Char) (force : Bool) (hq : '?' ∉ body)
    (hforce : force = true → rq = []) :
    let rest := body ++ (if force = true ∨ rq ≠ [] then '?' :: rq else [])
    (HasSuffix rest ['?'] && Count rest '?' == 1) = force ∧
    (if force = true then rest.dropLast else (Cut '?' rest).1) = body ∧
    (if force = true then [] else (Cut '?' rest).2.1) = rq := by
  intro rest
  have hcount : List.count '?' body = 0 := List.count_eq_zero.mpr hq
  cases force with
  | true =>
    have hrq := hforce rfl
    subst hrq
    have hrest : rest = body ++ ['?'] := by simp [rest]
    rw [hrest]
    refine ⟨?_, by simp, by simp⟩
    rw [HasSuffix_append_singleton]
    simp [Count, hcount]
  | false =>
    by_cases hrq : rq = []
    · subst hrq
      have hrest : rest = body := by simp [rest]
      rw [hrest]
      refine ⟨?_, by simp [Cut_of_not_mem _ _ hq], by simp [Cut_of_not_mem _ _ hq]⟩
      simp [Count, hcount]
    · have hrest : rest = body ++ '?' :: rq := by simp [rest, hrq]
      rw [hrest]
      refine ⟨?_, by simp [Cut_append _ _ _ hq], by simp [Cut_append _ _ _ hq]⟩
      by_cases hin : '?' ∈ rq
      · have : 0 < List.count '?' rq := List.count_pos_iff.mpr hin
        have hne : ¬ (List.count '?' body + (List.count '?' rq + 1) = 1) := by omega
        simp [Count, List.count_append, hne]
      · have := HasSuffix_append_of_not_mem (body ++ ['?']) rq '?' hrq hin
        simp only [List.append_assoc, List.singleton_append] at this
        simp [this]

end strings

namespace url
open encoding

/-- The text of a scheme holds no control byte, no `?` and no `#`. -/
theorem isScheme_chars (sch : List Char) (h : isScheme sch = true) :
    stringContainsCTLByte sch = false ∧ '?' ∉ sch ∧ '#' ∉ sch ∧ sch ≠ [] := by
  cases sch with
  | nil => simp [isScheme] at h
  | cons c cs =>
    simp only [isScheme, Bool.and_eq_true, List.all_eq_true] at h
    have hall : ∀ d ∈ c :: cs, (between 'a' 'z' d || between '0' '9' d || d == '+' ||
        d == '-' || d == '.') = true := by
      intro d hd
      rcases List.mem_cons.mp hd with rfl | hd
      · simp [h.1]
      · exact h.2 d hd
    have key : ∀ d ∈ c :: cs, 32 ≤ d.toNat ∧ d.toNat ≠ 127 ∧ d ≠ '?' ∧ d ≠ '#' := by
      intro d hd
      have := hall d hd
      simp only [between, Bool.or_eq_true, decide_eq_true_eq, beq_iff_eq,
        Char.reduceToNat] at this
      rcases this with (((h1 | h1) | h1) | h1) | h1
      · refine ⟨by omega, by omega, ?_, ?_⟩ <;> (rintro rfl; simp at h1)
      · refine ⟨by omega, by omega, ?_, ?_⟩ <;> (rintro rfl; simp at h1)
      · subst h1; decide
      · subst h1; decide
      · subst h1; decide
    refine ⟨?_, fun hm => (key _ hm).2.2.1 rfl, fun hm => (key _ hm).2.2.2 rfl, by simp⟩
    simp only [stringContainsCTLByte, List.any_eq_false]
    intro d hd
    have := key d hd
    simp
    omega

/-- The URL that `parse` finds in `scheme://authority/path?query`. -/
theorem parse_with_authority (sch auth e rq path host : List Char) (user : Option Userinfo)
    (force : Bool) (hsch : isScheme sch = true)
    (hctl : stringContainsCTLByte (auth ++ '/' :: e ++ rq) = false)
    (hq : '?' ∉ auth ++ '/' :: e) (hslash : '/' ∉ auth)
    (hauth : parseAuthority auth = .ok (user, host))
    (hpath : unescape encodePath ('/' :: e) = .ok path)
    (hforce : force = true → rq = []) :
    parse (sch ++ ':' :: ('/' :: '/' :: (auth ++ '/' :: e) ++
        (if force = true ∨ rq ≠ [] then '?' :: rq else []))) =
      .ok { Scheme := ⟨sch⟩, User := user, Host := ⟨host⟩, Path := ⟨path⟩,
            RawPath := if '/' :: e = escape path encodePath then "" else ⟨'/' :: e⟩,
            ForceQuery := force, RawQuery := ⟨rq⟩ } := by
  obtain ⟨hs1, hs2, hs3, hs4⟩ := isScheme_chars sch hsch
  have hq2 : '?' ∉ '/' :: '/' :: (auth ++ '/' :: e) := by
    intro hm
    simp only [List.mem_cons] at hm
    rcases hm with hm | hm | hm
    · exact absurd hm (by decide)
    · exact absurd hm (by decide)
    · exact hq hm
  obtain ⟨hf1, hf2, hf3⟩ := strings.query_split _ rq force hq2 hforce
  have hctl2 : stringContainsCTLByte (sch ++ ':' :: ('/' :: '/' :: (auth ++ '/' :: e) ++
      (if force = true ∨ rq ≠ [] then '?' :: rq else []))) = false := by
    simp only [stringContainsCTLByte, List.any_append, List.any_cons, Bool.or_eq_false_iff,
      List.append_assoc] at hctl hs1 ⊢
    split_ifs <;> simp_all
  have hstar : sch ++ ':' :: ('/' :: '/' :: (auth ++ '/' :: e) ++
      (if force = true ∨ rq ≠ [] then '?' :: rq else [])) ≠ ['*'] := by
    cases sch with
    | nil => exact absurd rfl hs4
    | cons c cs => simp
  unfold parse
  rw [hctl2]
  simp only [Bool.false_eq_true, if_false, hstar, getScheme_scheme _ _ hsch,
    ToLower_scheme _ hsch]
  simp only [hf1]
  cases force with
  | true =>
    simp only [if_true] at hf2
    simp only [if_true, hf2]
    have hcut : strings.Cut '/' (auth ++ '/' :: e) = (auth, e, true) :=
      strings.Cut_append _ _ _ hslash
    simp [strings.HasPrefix, hs4, hcut, strings.Contains, hauth, setPath, hpath,
      hforce rfl]
  | false =>
    simp only [Bool.false_eq_true, if_false] at hf2 hf3
    simp only [Bool.false_eq_true, if_false, hf2, hf3]
    have hcut : strings.Cut '/' (auth ++ '/' :: e) = (auth, e, true) :=
      strings.Cut_append _ _ _ hslash
    simp [strings.HasPrefix, hs4, hcut, strings.Contains, hauth, setPath, hpath]


/-- The URL that `parse` finds in `scheme:/path?query`, the path not
starting with two slashes. -/
theorem parse_without_authority (sch e rq path : List Char) (force : Bool)
    (hsch : isScheme sch = true)
    (hctl : stringContainsCTLByte ('/' :: e ++ rq) = false)
    (hq : '?' ∉ '/' :: e) (hslash : strings.HasPrefix e ['/'] = false)
    (hpath : unescape encodePath ('/' :: e) = .ok path)
    (hforce : force = true → rq = []) :
    parse (sch ++ ':' :: ('/' :: e ++ (if force = true ∨ rq ≠ [] then '?' :: rq else []))) =
      .ok { Scheme := ⟨sch⟩, Path := ⟨path⟩,
            RawPath := if '/' :: e = escape path encodePath then "" else ⟨'/' :: e⟩,
            OmitHost := true, ForceQuery := force, RawQuery := ⟨rq⟩ } := by
  obtain ⟨hs1, hs2, hs3, hs4⟩ := isScheme_chars sch hsch
  obtain ⟨hf1, hf2, hf3⟩ := strings.query_split _ rq force hq hforce
  have hctl2 : stringContainsCTLByte (sch ++ ':' :: ('/' :: e ++
      (if force = true ∨ rq ≠ [] then '?' :: rq else []))) = false := by
    simp only [stringContainsCTLByte, List.any_append, List.any_cons, Bool.or_eq_false_iff,
      List.append_assoc] at hctl hs1 ⊢
    split_ifs <;> simp_all
  have hstar : sch ++ ':' :: ('/' :: e ++
      (if force = true ∨ rq ≠ [] then '?' :: rq else [])) ≠ ['*'] := by
    cases sch with
    | nil => exact absurd rfl hs4
    | cons c cs => simp
  have h2 : strings.HasPrefix ('/' :: e) ['/', '/'] = false := by
    simpa [strings.HasPrefix, List.isPrefixOf] using hslash
  unfold parse
  rw [hctl2]
  simp only [Bool.false_eq_true, if_false, hstar, getScheme_scheme _ _ hsch,
    ToLower_scheme _ hsch]
  simp only [hf1]
  cases force with
  | true =>
    simp only [if_true] at hf2
    simp only [if_true, hf2, h2]
    simp [strings.HasPrefix, hs4, setPath, hpath, hforce rfl]
  | false =>
    simp only [Bool.false_eq_true, if_false] at hf2 hf3
    simp only [Bool.false_eq_true, if_false, hf2, hf3, h2]
    simp [strings.HasPrefix, hs4, setPath, hpath]

/-- The URL that `Parse` finds in a text without `#` followed by the
fragment that `String` writes. -/
theorem Parse_with_fragment (pre ef frag : List Char) (u : URL) (hh : '#' ∉ pre)
    (hparse : parse pre = .ok u)
    (hfrag : frag ≠ [] → ef ≠ [] ∧ unescape encodeFragment ef = .ok frag) :
    Parse ⟨pre ++ (if frag ≠ [] then '#' :: ef else [])⟩ =
      .ok (if frag ≠ [] then
        { u with Fragment := ⟨frag⟩,
                 RawFragment := if ef = escape frag encodeFragment then "" else ⟨ef⟩ }
        else u) := by
  by_cases hf : frag = []
  · subst hf
    simp [Parse, strings.Cut_of_not_mem _ _ hh, hparse]
  · obtain ⟨hef, hun⟩ := hfrag hf
    simp [Parse, hf, strings.Cut_append _ _ _ hh, hparse, hef, setFragment, hun]


/-- A byte that needs no escape is printable, and is neither `#` nor `%`. -/
theorem of_shouldEscape_false (c : Char) (m : encoding) (h : shouldEscape c m = false) :
    32 < c.toNat ∧ c.toNat < 127 ∧ c ≠ '#' ∧ c ≠ '%' := by
  unfold shouldEscape at h
  split_ifs at h with h1 h2 h3 h4 h5
  · simp only [between, Bool.or_eq_true, decide_eq_true_eq, Char.reduceToNat] at h1
    refine ⟨by omega, by omega, ?_, ?_⟩ <;> (rintro rfl; simp at h1)
  · simp only [Bool.and_eq_true, List.contains_eq_any_beq, List.any_cons, List.any_nil,
      Bool.or_false, Bool.or_eq_true, beq_iff_eq] at h2
    obtain ⟨-, h2⟩ := h2
    rcases h2 with h2 | h2 | h2 | h2 | h2 | h2 | h2 | h2 | h2 | h2 | h2 | h2 | h2 | h2 | h2 |
      h2 | h2 <;> (subst h2; decide)
  · simp only [List.contains_eq_any_beq, List.any_cons, List.any_nil,
      Bool.or_false, Bool.or_eq_true, beq_iff_eq] at h3
    rcases h3 with h3 | h3 | h3 | h3 <;> (subst h3; decide)
  · simp only [List.contains_eq_any_beq, List.any_cons, List.any_nil,
      Bool.or_false, Bool.or_eq_true, beq_iff_eq] at h4
    rcases h4 with h4 | h4 | h4 | h4 | h4 | h4 | h4 | h4 | h4 | h4 <;> (subst h4; decide)
  · simp only [Bool.and_eq_true, List.contains_eq_any_beq, List.any_cons, List.any_nil,
      Bool.or_false, Bool.or_eq_true, beq_iff_eq] at h5
    obtain ⟨-, h5⟩ := h5
    rcases h5 with h5 | h5 | h5 | h5 <;> (subst h5; decide)

/-- The hexadecimal digits are printable and none of `#`, `?`, `/`, `@`, `:`,
`%`. -/
theorem upperhex_char (n : Nat) (h : n < 16) :
    32 < (upperhex n).toNat ∧ (upperhex n).toNat < 127 ∧ upperhex n ≠ '#' ∧ upperhex n ≠ '?' ∧
    upperhex n ≠ '/' ∧ upperhex n ≠ '@' ∧ upperhex n ≠ ':' ∧ upperhex n ≠ '%' ∧
    upperhex n ≠ ']' := by
  revert n
  decide

/-- The bytes of an escaped text: bytes that need no escape, and the percent
sign and hexadecimal digits of the escapes. -/
theorem mem_escape (s : List Char) (m : encoding) (hm : m ≠ encodeQueryComponent)
    (hs : ∀ c ∈ s, c.toNat < 256) (d : Char) (hd : d ∈ escape s m) :
    (d ∈ s ∧ shouldEscape d m = false) ∨ d = '%' ∨ ∃ n, n < 16 ∧ d = upperhex n := by
  induction s with
  | nil => simp [escape] at hd
  | cons c cs ih =>
    rw [escape_cons, List.mem_append] at hd
    have hc := hs c (List.mem_cons_self _ _)
    rcases hd with hd | hd
    · unfold escapeByte at hd
      have hq : (m == encodeQueryComponent) = false := by
        cases m <;> first | rfl | exact absurd rfl hm
      by_cases he : shouldEscape c m = true
      · simp only [he, if_true, hq, Bool.and_false, Bool.false_eq_true, if_false,
          List.mem_cons, List.mem_nil_iff, or_false] at hd
        rcases hd with rfl | rfl | rfl
        · exact Or.inr (Or.inl rfl)
        · exact Or.inr (Or.inr ⟨_, by omega, rfl⟩)
        · exact Or.inr (Or.inr ⟨_, by omega, rfl⟩)
      · simp only [he, if_false, List.mem_singleton, Bool.false_eq_true] at hd
        subst hd
        exact Or.inl ⟨List.mem_cons_self _ _, by simpa using he⟩
    · rcases ih (fun x hx => hs x (List.mem_cons_of_mem _ hx)) hd with ⟨h1, h2⟩ | h | h
      · exact Or.inl ⟨List.mem_cons_of_mem _ h1, h2⟩
      · exact Or.inr (Or.inl h)
      · exact Or.inr (Or.inr h)

/-- An escaped text holds printable bytes only, and no `#`. -/
theorem escape_printable (s : List Char) (m : encoding) (hm : m ≠ encodeQueryComponent)
    (hs : ∀ c ∈ s, c.toNat < 256) (d : Char) (hd : d ∈ escape s m) :
    32 < d.toNat ∧ d.toNat < 127 ∧ d ≠ '#' := by
  rcases mem_escape s m hm hs d hd with ⟨-, h⟩ | rfl | ⟨n, hn, rfl⟩
  · have := of_shouldEscape_false d m h
    exact ⟨this.1, this.2.1, this.2.2.1⟩
  · decide
  · have := upperhex_char n hn
    exact ⟨this.1, this.2.1, this.2.2.1⟩

/-- A byte that is escaped, other than `%` and the hexadecimal digits, does
not occur in an escaped text. -/
theorem not_mem_escape (s : List Char) (m : encoding) (hm : m ≠ encodeQueryComponent)
    (hs : ∀ c ∈ s, c.toNat < 256) (x : Char) (hx : shouldEscape x m = true) (hp : x ≠ '%')
    (hhex : ∀ n, n < 16 → x ≠ upperhex n) : x ∉ escape s m := by
  intro hd
  rcases mem_escape s m hm hs x hd with ⟨-, h⟩ | h | ⟨n, hn, h⟩
  · rw [hx] at h
    exact absurd h (by simp)
  · exact hp h
  · exact hhex n hn h

/-- The escape of a text that is not empty is not empty. -/
theorem escape_ne_nil (s : List Char) (m : encoding) (h : s ≠ []) : escape s m ≠ [] := by
  cases s with
  | nil => exact absurd rfl h
  | cons c cs =>
    rw [escape_cons]
    unfold escapeByte
    split_ifs <;> simp

/-- The bytes of a valid encoding of a path or a fragment are printable, and
none is `#`; in a path none is `?`. -/
theorem of_validEncoded (s : List Char) (m : encoding) (h : validEncoded s m = true)
    (d : Char) (hd : d ∈ s) :
    32 < d.toNat ∧ d.toNat < 127 ∧ d ≠ '#' ∧ (m = encodePath → d ≠ '?') := by
  simp only [validEncoded, List.all_eq_true] at h
  have := h d hd
  split_ifs at this with h1 h2 h3
  · simp only [List.contains_eq_any_beq, List.any_cons, List.any_nil,
      Bool.or_false, Bool.or_eq_true, beq_iff_eq] at h1
    rcases h1 with h1 | h1 | h1 | h1 | h1 | h1 | h1 | h1 | h1 | h1 | h1 | h1 | h1 <;>
      (subst h1; refine ⟨by decide, by decide, by decide, fun _ => by decide⟩)
  · simp only [List.contains_eq_any_beq, List.any_cons, List.any_nil,
      Bool.or_false, Bool.or_eq_true, beq_iff_eq] at h2
    rcases h2 with h2 | h2 <;>
      (subst h2; refine ⟨by decide, by decide, by decide, fun _ => by decide⟩)
  · simp only [beq_iff_eq] at h3
    subst h3
    refine ⟨by decide, by decide, by decide, fun _ => by decide⟩
  · simp only [Bool.not_eq_true', ] at this
    have h4 := of_shouldEscape_false d m this
    refine ⟨h4.1, h4.2.1, h4.2.2.1, ?_⟩
    rintro rfl rfl
    simp [shouldEscape, between] at this

/-- The escaped form of a path or of a fragment: it unescapes to the plain
text, parsing it again leads to the same escaped form, and its bytes are
printable, none being `#` nor, in a path, `?`. -/
theorem escapedOf_spec (m : encoding) (hm : m = encodePath ∨ m = encodeFragment)
    (raw plain : List Char) (hb : ∀ c ∈ plain, c.toNat < 256) :
    unescape m (escapedOf m raw plain) = .ok plain ∧
    escapedOf m (if escapedOf m raw plain = escape plain m then [] else escapedOf m raw plain)
      plain = escapedOf m raw plain ∧
    (plain ≠ [] → escapedOf m raw plain ≠ []) ∧
    (∀ d ∈ escapedOf m raw plain,
      32 < d.toNat ∧ d.toNat < 127 ∧ d ≠ '#' ∧ (m = encodePath → d ≠ '?')) := by
  have hmq : m ≠ encodeQueryComponent := by rcases hm with rfl | rfl <;> simp
  have hm3 : m = encodePath ∨ m = encodeFragment ∨ m = encodeUserPassword := by
    rcases hm with rfl | rfl <;> simp
  by_cases hc : raw ≠ [] ∧ validEncoded raw m = true ∧ unescapesTo m raw plain = true
  · have he : escapedOf m raw plain = raw := by rw [escapedOf, if_pos hc]
    rw [he]
    obtain ⟨h1, h2, h3⟩ := hc
    refine ⟨?_, ?_, fun _ => h1, of_validEncoded raw m h2⟩
    · unfold unescapesTo at h3
      cases hu : unescape m raw with
      | error e => simp [hu] at h3
      | ok p =>
        simp only [hu, beq_iff_eq] at h3
        rw [h3]
    · by_cases hre : raw = escape plain m
      · simp only [hre, if_true]
        simp [escapedOf]
      · simp only [hre, if_false]
        rw [escapedOf, if_pos ⟨h1, h2, h3⟩]
  · have he : escapedOf m raw plain = escape plain m := by rw [escapedOf, if_neg hc]
    rw [he]
    refine ⟨unescape_escape m hm3 plain hb, by simp [escapedOf], escape_ne_nil plain m, ?_⟩
    intro d hd
    have h1 := escape_printable plain m hmq hb d hd
    refine ⟨h1.1, h1.2.1, h1.2.2, ?_⟩
    rintro rfl rfl
    exact not_mem_escape plain encodePath hmq hb '?' (by decide) (by decide)
      (fun n hn => ((upperhex_char n hn).2.2.2.1).symm) hd


/-- The code of the character built from the number of a byte. -/
theorem toNat_ofNat_byte (n : Nat) (h : n < 256) : (Char.ofNat n).toNat = n := by
  have hv : n.isValidChar := Or.inl (by omega)
  simp [Char.ofNat, hv, Char.ofNatAux, Char.toNat, UInt32.toNat]

/-- The value of a hexadecimal digit is below sixteen. -/
theorem unhex_lt (a : Char) : unhex a < 16 := by
  unfold unhex
  simp only [between, decide_eq_true_eq, Char.reduceToNat]
  split_ifs <;> omega

end url

namespace strings

/-- The text before the first occurrence of `sep` holds no occurrence. -/
theorem Index_take (sep s : List Char) (hsep : sep ≠ []) :
    ∀ z, Index sep s = some z → Index sep (s.take z) = none := by
  induction s with
  | nil =>
    intro z _
    simp [Index, hsep]
  | cons c cs ih =>
    intro z hz
    unfold Index at hz
    by_cases hpre : sep.isPrefixOf (c :: cs) = true
    · simp only [hpre, if_true, Option.some.injEq] at hz
      subst hz
      simp [Index, hsep]
    · simp only [hpre, if_false, Option.map_eq_some', Bool.false_eq_true] at hz
      obtain ⟨z0, hz0, rfl⟩ := hz
      have hnot : sep.isPrefixOf (c :: cs.take z0) = false := by
        rw [Bool.eq_false_iff]
        intro hp
        apply hpre
        rw [List.isPrefixOf_iff_prefix] at hp ⊢
        exact hp.trans (by
          rw [show c :: cs = (c :: cs.take z0) ++ cs.drop z0 by simp]
          exact List.prefix_append _ _)
      simp [Index, hnot, ih z0 hz0]

/-- At the first occurrence of `sep` the text goes on with `sep`. -/
theorem Index_drop (sep s : List Char) :
    ∀ z, Index sep s = some z → sep <+: s.drop z ∧ z ≤ s.length := by
  induction s with
  | nil =>
    intro z hz
    unfold Index at hz
    split_ifs at hz with h
    simp only [Option.some.injEq] at hz
    subst hz
    simp [h]
  | cons c cs ih =>
    intro z hz
    unfold Index at hz
    by_cases hpre : sep.isPrefixOf (c :: cs) = true
    · simp only [hpre, if_true, Option.some.injEq] at hz
      subst hz
      exact ⟨by simpa [List.isPrefixOf_iff_prefix] using hpre, by simp⟩
    · simp only [hpre, if_false, Option.map_eq_some', Bool.false_eq_true] at hz
      obtain ⟨z0, hz0, rfl⟩ := hz
      have := ih z0 hz0
      exact ⟨by simpa using this.1, by simpa using this.2⟩

end strings

namespace url
open encoding

/-- The bytes of a zone in ASCII, as `unescape` reads one: a `%`, a space,
or a byte a host may hold. -/
theorem zone_chars (r h : List Char) (hrel : Unescaped encodeZone r h)
    (hascii : ∀ c ∈ h, c.toNat < 128) :
    ∀ c ∈ h, c = '%' ∨ c = ' ' ∨ shouldEscape c encodeHost = false := by
  induction hrel with
  | nil => simp
  | hex a b r t ha hb _ hzone _ ih =>
    intro c hc
    rcases List.mem_cons.mp hc with rfl | hc
    · rcases hzone rfl with ⟨rfl, rfl⟩ | h | h
      · exact Or.inl rfl
      · exact Or.inr (Or.inl h)
      · exact Or.inr (Or.inr h)
    · exact ih (fun d hd => hascii d (List.mem_cons_of_mem _ hd)) c hc
  | raw c r t hc hsafe _ ih =>
    have hq : ¬ (c = '+' ∧ encodeZone = encodeQueryComponent) := by simp
    simp only [hq, if_false] at hascii ⊢
    intro d hd
    rcases List.mem_cons.mp hd with rfl | hd
    · exact Or.inr (Or.inr (hsafe (Or.inr rfl) (hascii _ (List.mem_cons_self _ _))))
    · exact ih (fun d hd => hascii d (List.mem_cons_of_mem _ hd)) d hd

/-- A zone in ASCII is read back from its escape. -/
theorem unescape_zone_escape (h : List Char)
    (hc : ∀ c ∈ h, c = '%' ∨ c = ' ' ∨ shouldEscape c encodeHost = false) :
    unescape encodeZone (escape h encodeHost) = .ok h := by
  induction h with
  | nil => rfl
  | cons c cs ih =>
    have ih := ih fun d hd => hc d (List.mem_cons_of_mem _ hd)
    rw [escape_cons]
    rcases hc c (List.mem_cons_self _ _) with rfl | rfl | hs
    · show unescape encodeZone ('%' :: '2' :: '5' :: escape cs encodeHost) = _
      have h1 : ishex '2' = true := by decide
      have h2 : ishex '5' = true := by decide
      have h3 : Char.ofNat (unhex '2' * 16 + unhex '5') = '%' := by decide
      unfold unescape
      simp [ih, h1, h2, h3]
    · show unescape encodeZone ('%' :: '2' :: '0' :: escape cs encodeHost) = _
      have h1 : ishex '2' = true := by decide
      have h2 : ishex '0' = true := by decide
      have h3 : Char.ofNat (unhex '2' * 16 + unhex '0') = ' ' := by decide
      unfold unescape
      simp [ih, h1, h2, h3]
    · have hcp : c ≠ '%' := fun e => by
        rw [e, shouldEscape_percent] at hs
        exact absurd hs (by simp)
      simp only [escapeByte, hs, Bool.false_eq_true, if_false, List.singleton_append]
      unfold unescape
      by_cases hp : c = '+'
      · subst hp
        simp [ih]
      · simp [hcp, hp, ih, hs]

end url

namespace url
open encoding

/-- A byte outside ASCII is escaped in every part of a URL. -/
theorem shouldEscape_of_high (c : Char) (m : encoding) (h : 128 ≤ c.toNat) :
    shouldEscape c m = true := by
  by_contra hn
  have := of_shouldEscape_false c m (by simpa using hn)
  omega

/-- The bytes of a host as `unescape` reads one: each is a byte, and is a
`%`, a byte a host may hold, or a byte outside ASCII. -/
theorem host_chars (r h : List Char) (hrel : Unescaped encodeHost r h)
    (hb : ∀ c ∈ r, c.toNat < 256) :
    ∀ c ∈ h, c.toNat < 256 ∧ (c = '%' ∨ shouldEscape c encodeHost = false ∨ 128 ≤ c.toNat) := by
  induction hrel with
  | nil => simp
  | hex a b r t ha hb1 hhost _ _ ih =>
    have ih := ih fun d hd => hb d (by simp [hd])
    intro c hc
    rcases List.mem_cons.mp hc with rfl | hc
    · have ha16 := unhex_lt a
      have hb16 := unhex_lt b
      rcases hhost rfl with h8 | ⟨rfl, rfl⟩
      · rw [toNat_ofNat_byte _ (by omega)]
        exact ⟨by omega, Or.inr (Or.inr (by omega))⟩
      · exact ⟨by decide, Or.inl (by decide)⟩
    · exact ih c hc
  | raw c r t hc hsafe _ ih =>
    have ih := ih fun d hd => hb d (by simp [hd])
    have hq : ¬ (c = '+' ∧ encodeHost = encodeQueryComponent) := by simp
    simp only [hq, if_false]
    intro d hd
    rcases List.mem_cons.mp hd with rfl | hd
    · refine ⟨hb _ (List.mem_cons_self _ _), ?_⟩
      by_cases h128 : d.toNat < 128
      · exact Or.inr (Or.inl (hsafe (Or.inl rfl) h128))
      · exact Or.inr (Or.inr (by omega))
    · exact ih d hd

/-- A host is read back from its escape. -/
theorem unescape_host_escape (h : List Char)
    (hc : ∀ c ∈ h, c.toNat < 256 ∧
      (c = '%' ∨ shouldEscape c encodeHost = false ∨ 128 ≤ c.toNat)) :
    unescape encodeHost (escape h encodeHost) = .ok h := by
  induction h with
  | nil => rfl
  | cons c cs ih =>
    have ih := ih fun d hd => hc d (List.mem_cons_of_mem _ hd)
    rw [escape_cons]
    obtain ⟨hbyte, hcase⟩ := hc c (List.mem_cons_self _ _)
    rcases hcase with rfl | hs | hhigh
    · show unescape encodeHost ('%' :: '2' :: '5' :: escape cs encodeHost) = _
      have h1 : ishex '2' = true := by decide
      have h2 : ishex '5' = true := by decide
      have h3 : Char.ofNat (unhex '2' * 16 + unhex '5') = '%' := by decide
      unfold unescape
      simp [ih, h1, h2, h3]
    · have hcp : c ≠ '%' := fun e => by
        rw [e, shouldEscape_percent] at hs
        exact absurd hs (by simp)
      simp only [escapeByte, hs, Bool.false_eq_true, if_false, List.singleton_append]
      unfold unescape
      by_cases hp : c = '+'
      · subst hp
        simp [ih]
      · simp [hcp, hp, ih, hs]
    · have he := shouldEscape_of_high c encodeHost hhigh
      have hu1 := unhex_upperhex (c.toNat / 16) (by omega)
      have hu2 := unhex_upperhex (c.toNat % 16) (by omega)
      have h8 : ¬ (c.toNat / 16 < 8) := by omega
      simp only [escapeByte, he, if_true, show (encodeHost == encodeQueryComponent) = false from rfl,
        Bool.and_false, Bool.false_eq_true, if_false, List.cons_append, List.nil_append]
      unfold unescape
      simp only [hu1.1, hu2.1, hu1.2, hu2.2, h8, ih, Bool.not_true, Bool.or_self,
        Bool.false_eq_true, if_false, beq_self_eq_true, Bool.true_and, decide_False,
        Bool.false_and, show (encodeHost == encodeZone) = false from rfl, if_true]
      have : c.toNat / 16 * 16 + c.toNat % 16 = c.toNat := by omega
      rw [this, Char.ofNat_toNat]

/-- What `unescape` reads from a text around a byte that is no `%`, no
hexadecimal digit and no `+`: what it reads before the byte, the byte, and
what it reads after it. -/
theorem Unescaped_split (m : encoding) (c : Char) (hc1 : c ≠ '%') (hc2 : ishex c = false)
    (hc3 : c ≠ '+') (r h : List Char) (hrel : Unescaped m r h) :
    ∀ a b, r = a ++ c :: b →
      ∃ ha hb, h = ha ++ c :: hb ∧ Unescaped m a ha ∧ Unescaped m b hb := by
  induction hrel with
  | nil =>
    intro a b hab
    simp at hab
  | hex x y r t hx hy hhost hzone hrt ih =>
    intro a b hab
    cases a with
    | nil =>
      simp only [List.nil_append, List.cons.injEq] at hab
      exact absurd hab.1.symm hc1
    | cons a0 a1 =>
      cases a1 with
      | nil =>
        simp only [List.cons_append, List.nil_append, List.cons.injEq] at hab
        obtain ⟨-, rfl, -⟩ := hab
        rw [hx] at hc2
        exact absurd hc2 (by simp)
      | cons a2 a3 =>
        cases a3 with
        | nil =>
          simp only [List.cons_append, List.nil_append, List.cons.injEq] at hab
          obtain ⟨-, -, rfl, -⟩ := hab
          rw [hy] at hc2
          exact absurd hc2 (by simp)
        | cons a4 a5 =>
          simp only [List.cons_append, List.cons.injEq] at hab
          obtain ⟨rfl, rfl, rfl, hab⟩ := hab
          obtain ⟨ha, hb, rfl, h1, h2⟩ := ih _ _ hab
          exact ⟨_ :: ha, hb, rfl, Unescaped.hex _ _ _ _ hx hy hhost hzone h1, h2⟩
  | raw x r t hx hsafe hrt ih =>
    intro a b hab
    cases a with
    | nil =>
      simp only [List.nil_append, List.cons.injEq] at hab
      obtain ⟨rfl, rfl⟩ := hab
      have hq : ¬ (x = '+' ∧ m = encodeQueryComponent) := fun h => hc3 h.1
      simp only [hq, if_false]
      exact ⟨[], t, rfl, Unescaped.nil, hrt⟩
    | cons a0 a1 =>
      simp only [List.cons_append, List.cons.injEq] at hab
      obtain ⟨rfl, hab⟩ := hab
      obtain ⟨ha, hb, rfl, h1, h2⟩ := ih _ _ hab
      exact ⟨_ :: ha, hb, rfl, Unescaped.raw _ _ _ hx hsafe h1, h2⟩

/-- A text of `]`, `:` and digits is read by `unescape` as it stands. -/
theorem Unescaped_port (m : encoding) (p t : List Char) (hrel : Unescaped m p t)
    (hp : ∀ d ∈ p, d = ']' ∨ d = ':' ∨ between '0' '9' d = true) : t = p := by
  induction hrel with
  | nil => rfl
  | hex x y r t hx hy hhost hzone hrt ih =>
    rcases hp '%' (List.mem_cons_self _ _) with h | h | h <;> exact absurd h (by decide)
  | raw x r t hx hsafe hrt ih =>
    have ih := ih fun d hd => hp d (List.mem_cons_of_mem _ hd)
    have hq : ¬ (x = '+' ∧ m = encodeQueryComponent) := by
      rintro ⟨rfl, -⟩
      rcases hp '+' (List.mem_cons_self _ _) with h | h | h <;> exact absurd h (by decide)
    simp only [hq, if_false, ih]

/-- A text of `]`, `:` and digits is written by `escape` as it stands. -/
theorem escape_port (p : List Char)
    (hp : ∀ d ∈ p, d = ']' ∨ d = ':' ∨ between '0' '9' d = true) :
    escape p encodeHost = p := by
  induction p with
  | nil => rfl
  | cons c cs ih =>
    have ih := ih fun d hd => hp d (List.mem_cons_of_mem _ hd)
    rw [escape_cons, ih]
    have hs : shouldEscape c encodeHost = false := by
      rcases hp c (List.mem_cons_self _ _) with rfl | rfl | h
      · decide
      · decide
      · simp [shouldEscape, h]
    simp [escapeByte, hs]

/-- The bytes of a valid optional port are among `]`, `:` and the digits. -/
theorem validOptionalPort_chars (p : List Char) (h : validOptionalPort p = true) :
    ∀ d ∈ p, d = ']' ∨ d = ':' ∨ between '0' '9' d = true := by
  cases p with
  | nil => simp
  | cons c ds =>
    simp only [validOptionalPort, Bool.and_eq_true, beq_iff_eq, List.all_eq_true] at h
    intro d hd
    rcases List.mem_cons.mp hd with rfl | hd
    · exact Or.inr (Or.inl h.1)
    · exact Or.inr (Or.inr (h.2 d hd))

end url

namespace strings

/-- Where `sep` does not occur in a text, it does not occur after the first
byte. -/
theorem Index_cons_none (sep : List Char) (c : Char) (cs : List Char)
    (h : Index sep (c :: cs) = none) : Index sep cs = none := by
  unfold Index at h
  split_ifs at h
  simpa using h

/-- The first `%` after a text without `%`. -/
theorem Index_percent_sign (a b : List Char) (ha : '%' ∉ a) :
    Index ['%'] (a ++ '%' :: b) = some a.length := by
  induction a with
  | nil => simp [Index, List.isPrefixOf]
  | cons c cs ih =>
    have hc : c ≠ '%' := fun e => ha (e ▸ List.mem_cons_self _ _)
    have hcs : '%' ∉ cs := fun hm => ha (List.mem_cons_of_mem _ hm)
    simp [Index, List.isPrefixOf, Ne.symm hc, ih hcs]

end strings

namespace url
open encoding

/-- A byte of ASCII other than `%` that a host holds stood in the text the
host was read from. -/
theorem mem_of_Unescaped_host (sep : Char) (hsep : sep.toNat < 128) (hp : sep ≠ '%')
    (r h : List Char) (hrel : Unescaped encodeHost r h) (hm : sep ∈ h) : sep ∈ r := by
  induction hrel with
  | nil => simp at hm
  | hex a b r t ha hb1 hhost _ _ ih =>
    rcases List.mem_cons.mp hm with rfl | hm
    · exfalso
      have ha16 := unhex_lt a
      have hb16 := unhex_lt b
      rcases hhost rfl with h8 | ⟨rfl, rfl⟩
      · rw [toNat_ofNat_byte _ (by omega)] at hsep
        omega
      · exact hp (by decide)
    · simp [ih hm]
  | raw c r t hc hsafe _ ih =>
    have hq : ¬ (c = '+' ∧ encodeHost = encodeQueryComponent) := by simp
    simp only [hq, if_false] at hm
    rcases List.mem_cons.mp hm with rfl | hm
    · simp
    · simp [ih hm]

/-- The escape of a host starts with `[` when the host does. -/
theorem HasPrefix_escape (h : List Char) :
    strings.HasPrefix (escape h encodeHost) ['['] = strings.HasPrefix h ['['] := by
  cases h with
  | nil => rfl
  | cons c cs =>
    rw [escape_cons]
    by_cases hc : c = '['
    · subst hc
      have : escapeByte encodeHost '[' = ['['] := by decide
      rw [this]
      simp [strings.HasPrefix]
    · unfold escapeByte
      split_ifs <;> simp [strings.HasPrefix, List.isPrefixOf, Ne.symm hc]

/-- A host starts with `[` when the text it was read from does. -/
theorem HasPrefix_of_Unescaped (r h : List Char) (hrel : Unescaped encodeHost r h) :
    strings.HasPrefix h ['['] = strings.HasPrefix r ['['] := by
  cases hrel with
  | nil => rfl
  | hex a b r t ha hb1 hhost _ _ =>
    have ha16 := unhex_lt a
    have hb16 := unhex_lt b
    have hne : Char.ofNat (unhex a * 16 + unhex b) ≠ '[' := by
      intro e
      rcases hhost rfl with h8 | ⟨rfl, rfl⟩
      · have := congrArg Char.toNat e
        rw [toNat_ofNat_byte _ (by omega)] at this
        simp at this
        omega
      · exact absurd e (by decide)
    simp [strings.HasPrefix, List.isPrefixOf, Ne.symm hne]
  | raw c r t hc hsafe _ =>
    have hq : ¬ (c = '+' ∧ encodeHost = encodeQueryComponent) := by simp
    simp only [hq, if_false]
    simp [strings.HasPrefix, List.isPrefixOf]

/-- A host read from a text without `%25` holds no `%`. -/
theorem not_mem_percent (r h : List Char) (hrel : Unescaped encodeHost r h)
    (hi : strings.Index ['%', '2', '5'] r = none) : '%' ∉ h := by
  induction hrel with
  | nil => simp
  | hex a b r t ha hb1 hhost _ _ ih =>
    have ha16 := unhex_lt a
    have hb16 := unhex_lt b
    have hi3 := strings.Index_cons_none _ _ _
      (strings.Index_cons_none _ _ _ (strings.Index_cons_none _ _ _ hi))
    intro hm
    rcases List.mem_cons.mp hm with e | hm
    · rcases hhost rfl with h8 | ⟨rfl, rfl⟩
      · have hv := toNat_ofNat_byte (unhex a * 16 + unhex b) (by omega)
        rw [← e] at hv
        simp at hv
        omega
      · simp [strings.Index, List.isPrefixOf] at hi
    · exact ih hi3 hm
  | raw c r t hc hsafe _ ih =>
    have hq : ¬ (c = '+' ∧ encodeHost = encodeQueryComponent) := by simp
    simp only [hq, if_false]
    intro hm
    rcases List.mem_cons.mp hm with e | hm
    · exact hc e.symm
    · exact ih (strings.Index_cons_none _ _ _ hi) hm

/-- The first `%25` in the escape of a host without `%`, followed by a
text, is the first one in that text. -/
theorem Index_escape (h tail : List Char)
    (hc : ∀ c ∈ h, c.toNat < 256 ∧
      (c = '%' ∨ shouldEscape c encodeHost = false ∨ 128 ≤ c.toNat))
    (hp : '%' ∉ h) :
    strings.Index ['%', '2', '5'] (escape h encodeHost ++ tail) =
      (strings.Index ['%', '2', '5'] tail).map (· + (escape h encodeHost).length) := by
  induction h with
  | nil => simp [escape]
  | cons c cs ih =>
    have ih := ih (fun d hd => hc d (List.mem_cons_of_mem _ hd))
      (fun hm => hp (List.mem_cons_of_mem _ hm))
    have hcp : c ≠ '%' := fun e => hp (e ▸ List.mem_cons_self _ _)
    obtain ⟨hbyte, hcase⟩ := hc c (List.mem_cons_self _ _)
    have s2 : ∀ (x : Char) l, x ≠ '%' → strings.Index ['%', '2', '5'] (x :: l) =
        (strings.Index ['%', '2', '5'] l).map (· + 1) := by
      intro x l hx
      rw [strings.Index]
      simp [List.isPrefixOf, Ne.symm hx]
    rw [escape_cons]
    rcases hcase with e | hs | hhigh
    · exact absurd e hcp
    · simp only [escapeByte, hs, Bool.false_eq_true, if_false, List.singleton_append,
        List.cons_append, List.length_cons]
      rw [s2 _ _ hcp, List.nil_append, ih]
      generalize strings.Index ['%', '2', '5'] tail = o
      cases o with
      | none => simp
      | some k => simp [Nat.add_assoc]
    · have he := shouldEscape_of_high c encodeHost hhigh
      have hu1 := unhex_upperhex (c.toNat / 16) (by omega)
      have hx := upperhex_char (c.toNat / 16) (by omega)
      have hy := upperhex_char (c.toNat % 16) (by omega)
      have hx2 : upperhex (c.toNat / 16) ≠ '2' := by
        intro e
        have := hu1.2
        rw [e] at this
        have h2 : unhex '2' = 2 := by decide
        omega
      simp only [escapeByte, he, if_true,
        show (encodeHost == encodeQueryComponent) = false from rfl,
        Bool.and_false, Bool.false_eq_true, if_false, List.cons_append, List.nil_append,
        List.length_cons]
      have s1 : ∀ l, strings.Index ['%', '2', '5'] ('%' :: upperhex (c.toNat / 16) :: l) =
          (strings.Index ['%', '2', '5'] (upperhex (c.toNat / 16) :: l)).map (· + 1) := by
        intro l
        rw [strings.Index]
        simp [List.isPrefixOf, Ne.symm hx2]
      rw [s1, s2 _ _ hx.2.2.2.2.2.2.2.1, s2 _ _ hy.2.2.2.2.2.2.2.1, ih]
      generalize strings.Index ['%', '2', '5'] tail = o
      cases o with
      | none => simp
      | some k => simp [Nat.add_assoc]

/-- The zone of a host made of a text without `%`, a `%` and a text, a `]`
and a text without `]`. -/
theorem hostZone_eq (host1 t port : List Char) (hbr : strings.HasPrefix host1 ['['] = true)
    (hp : '%' ∉ host1) (hnot : ']' ∉ port) :
    hostZone (host1 ++ '%' :: t ++ ']' :: port) = '%' :: t := by
  have hpre : strings.HasPrefix (host1 ++ '%' :: t ++ ']' :: port) ['['] = true := by
    cases host1 with
    | nil => simp [strings.HasPrefix] at hbr
    | cons c cs => simpa [strings.HasPrefix, List.isPrefixOf] using hbr
  unfold hostZone
  simp only [hpre, if_true, strings.LastIndex_append _ _ _ hnot, List.take_left,
    strings.Index_percent_sign _ _ hp, List.drop_left]

end url

namespace url
open encoding

/-- The zone case of `parseHost` on the text that `escape` writes. -/
theorem parseHost_zone (r1 port host1 host2 host3 : List Char)
    (hbr : strings.HasPrefix r1 ['['] = true)
    (hpct : ∀ b, strings.Index ['%', '2', '5'] (r1 ++ '%' :: '2' :: '5' :: b) = some r1.length)
    (hport : validOptionalPort port = true) (hnot : ']' ∉ port)
    (h1 : unescape encodeHost r1 = .ok host1)
    (h2 : ∀ c ∈ host2, c = '%' ∨ c = ' ' ∨ shouldEscape c encodeHost = false)
    (h3 : unescape encodeHost (']' :: port) = .ok host3) :
    parseHost (r1 ++ escape ('%' :: host2) encodeHost ++ ']' :: port) =
      .ok (host1 ++ '%' :: host2 ++ host3) := by
  have hz : escape ('%' :: host2) encodeHost = '%' :: '2' :: '5' :: escape host2 encodeHost := by
    rw [escape_cons]
    rfl
  have hpre : strings.HasPrefix (r1 ++ escape ('%' :: host2) encodeHost ++ ']' :: port) ['[']
      = true := by
    cases r1 with
    | nil => simp [strings.HasPrefix] at hbr
    | cons c cs => simpa [strings.HasPrefix, List.isPrefixOf] using hbr
  have hlast : strings.LastIndex ']' (r1 ++ escape ('%' :: host2) encodeHost ++ ']' :: port) =
      some (r1 ++ escape ('%' :: host2) encodeHost).length :=
    strings.LastIndex_append _ _ _ hnot
  have hidx : strings.Index ['%', '2', '5'] (r1 ++ escape ('%' :: host2) encodeHost) =
      some r1.length := by
    rw [hz]
    exact hpct _
  have hzone : unescape encodeZone (escape ('%' :: host2) encodeHost) = .ok ('%' :: host2) :=
    unescape_zone_escape _ (by
      intro c hc
      rcases List.mem_cons.mp hc with rfl | hc
      · exact Or.inl rfl
      · exact h2 c hc)
  unfold parseHost
  simp only [hpre, if_true, hlast]
  have hd1 : List.drop ((r1 ++ escape ('%' :: host2) encodeHost).length + 1)
      (r1 ++ escape ('%' :: host2) encodeHost ++ ']' :: port) = port := by
    rw [List.drop_append]
    rfl
  have ht1 : List.take (r1 ++ escape ('%' :: host2) encodeHost).length
      (r1 ++ escape ('%' :: host2) encodeHost ++ ']' :: port) =
      r1 ++ escape ('%' :: host2) encodeHost := List.take_left _ _
  have hd2 : List.drop (r1 ++ escape ('%' :: host2) encodeHost).length
      (r1 ++ escape ('%' :: host2) encodeHost ++ ']' :: port) = ']' :: port :=
    List.drop_left _ _
  have ht2 : List.take r1.length
      (r1 ++ escape ('%' :: host2) encodeHost ++ ']' :: port) = r1 := by
    rw [List.append_assoc]
    exact List.take_left _ _
  have hd3 : List.drop r1.length (r1 ++ escape ('%' :: host2) encodeHost) =
      escape ('%' :: host2) encodeHost := List.drop_left _ _
  simp only [hd1, hport, Bool.not_true, Bool.false_eq_true, if_false, ht1, hidx, ht2, h1,
    hd3, hzone, hd2, h3]

/-- The escape of a host that does not start with `[`, and whose text after
the last `:` is a port, is read by `parseHost` as the host. -/
theorem parseHost_escape_plain (h : List Char) (hbr : strings.HasPrefix h ['['] = false)
    (hch : ∀ c ∈ h, c.toNat < 256 ∧
      (c = '%' ∨ shouldEscape c encodeHost = false ∨ 128 ≤ c.toNat))
    (hport : ':' ∉ h ∨ ∃ ha port, h = ha ++ ':' :: port ∧ ':' ∉ port ∧
      validOptionalPort (':' :: port) = true) :
    parseHost (escape h encodeHost) = .ok h := by
  have hu := unescape_host_escape h hch
  have hpre : strings.HasPrefix (escape h encodeHost) ['['] = false := by
    rw [HasPrefix_escape, hbr]
  unfold parseHost
  simp only [hpre, Bool.false_eq_true, if_false]
  rcases hport with hno | ⟨ha, port, rfl, hnot, hvalid⟩
  · have hne : ':' ∉ escape h encodeHost := by
      intro hm
      rcases mem_escape h encodeHost (by simp) (fun c hc => (hch c hc).1) ':' hm with
        ⟨h1, -⟩ | h1 | ⟨n, hn, h1⟩
      · exact hno h1
      · exact absurd h1 (by decide)
      · exact (upperhex_char n hn).2.2.2.2.2.2.1 h1.symm
    simp only [strings.LastIndex_of_not_mem _ _ hne, hu]
  · have hpc := validOptionalPort_chars _ hvalid
    have he : escape (ha ++ ':' :: port) encodeHost = escape ha encodeHost ++ ':' :: port := by
      rw [escape_append, escape_port _ hpc]
    rw [he] at hu ⊢
    simp only [strings.LastIndex_append _ _ _ hnot, List.drop_left, hvalid, Bool.not_true,
      Bool.false_eq_true, if_false, hu]

/-- The escape of a host in brackets without a zone is read by `parseHost`
as the host. -/
theorem parseHost_escape_bracket (ha port : List Char)
    (hbr : strings.HasPrefix (ha ++ ']' :: port) ['['] = true)
    (hch : ∀ c ∈ ha ++ ']' :: port, c.toNat < 256 ∧
      (c = '%' ∨ shouldEscape c encodeHost = false ∨ 128 ≤ c.toNat))
    (hpa : '%' ∉ ha) (hnot : ']' ∉ port) (hvalid : validOptionalPort port = true) :
    parseHost (escape (ha ++ ']' :: port) encodeHost) = .ok (ha ++ ']' :: port) := by
  have hu := unescape_host_escape _ hch
  have hpre : strings.HasPrefix (escape (ha ++ ']' :: port) encodeHost) ['['] = true := by
    rw [HasPrefix_escape, hbr]
  have hpc : ∀ d ∈ ']' :: port, d = ']' ∨ d = ':' ∨ between '0' '9' d = true := by
    intro d hd
    rcases List.mem_cons.mp hd with rfl | hd
    · exact Or.inl rfl
    · exact validOptionalPort_chars _ hvalid d hd
  have he : escape (ha ++ ']' :: port) encodeHost = escape ha encodeHost ++ ']' :: port := by
    rw [escape_append, escape_port _ hpc]
  have hidx : strings.Index ['%', '2', '5'] (escape ha encodeHost) = none := by
    have := Index_escape ha [] (fun c hc => hch c (by simp [hc])) hpa
    simpa [strings.Index] using this
  unfold parseHost
  rw [he] at hu hpre ⊢
  have hd1 : List.drop ((escape ha encodeHost).length + 1)
      (escape ha encodeHost ++ ']' :: port) = port := by
    rw [List.drop_append]
    rfl
  simp only [hpre, if_true, strings.LastIndex_append _ _ _ hnot, hd1, hvalid, Bool.not_true,
    Bool.false_eq_true, if_false, List.take_left, hidx, hu]

/-- A host that `parseHost` accepts, and whose zone holds bytes of ASCII
only, is accepted again, with the same result, in the form `escape` writes
it in. -/
theorem parseHost_escape (r h : List Char) (hb : ∀ c ∈ r, c.toNat < 256)
    (hp : parseHost r = .ok h) (hzone : ∀ c ∈ hostZone h, c.toNat < 128) :
    parseHost (escape h encodeHost) = .ok h := by
  unfold parseHost at hp
  by_cases hbr : strings.HasPrefix r ['['] = true
  · simp only [hbr, if_true] at hp
    rcases strings.LastIndex_eq ']' r with ⟨hl, -⟩ | ⟨i, hl, hsplit, hnot, hilt⟩
    · simp [hl] at hp
    · simp only [hl] at hp
      by_cases hport : validOptionalPort (r.drop (i + 1)) = true
      · simp only [hport, Bool.not_true, Bool.false_eq_true, if_false] at hp
        have hpc : ∀ d ∈ ']' :: r.drop (i + 1),
            d = ']' ∨ d = ':' ∨ between '0' '9' d = true := by
          intro d hd
          rcases List.mem_cons.mp hd with rfl | hd
          · exact Or.inl rfl
          · exact validOptionalPort_chars _ hport d hd
        cases hz : strings.Index ['%', '2', '5'] (r.take i) with
        | none =>
          simp only [hz] at hp
          have hrel := unescaped_of_unescape _ _ _ hp
          have hch := host_chars _ _ hrel hb
          have hbrh := HasPrefix_of_Unescaped _ _ hrel
          rw [hbr] at hbrh
          obtain ⟨ha, hb2, rfl, hra, hrb⟩ := Unescaped_split encodeHost ']' (by decide)
            (by decide) (by decide) r h hrel _ _ hsplit
          have hb2e := Unescaped_port _ _ _ hrb
            (fun d hd => hpc d (List.mem_cons_of_mem _ hd))
          subst hb2e
          exact parseHost_escape_bracket _ _ hbrh hch (not_mem_percent _ _ hra hz) hnot hport
        | some z =>
          simp only [hz] at hp
          cases h1 : unescape encodeHost (r.take z) with
          | error e => simp [h1] at hp
          | ok host1 =>
            cases h2 : unescape encodeZone ((r.take i).drop z) with
            | error e => simp [h1, h2] at hp
            | ok host2 =>
              cases h3 : unescape encodeHost (r.drop i) with
              | error e => simp [h1, h2, h3] at hp
              | ok host3 =>
                simp only [h1, h2, h3, Except.ok.injEq] at hp
                subst hp
                obtain ⟨hpre, hzle⟩ := strings.Index_drop _ _ z hz
                have hzi : z ≤ i := le_trans hzle (List.length_take_le i r)
                have hlen : (r.take i).length = i := by
                  rw [List.length_take]
                  omega
                have hr3 : r.drop i = ']' :: r.drop (i + 1) := by
                  conv_lhs => rw [hsplit]
                  rw [List.drop_left' hlen]
                obtain ⟨r2, hr2⟩ := hpre
                have hrel := unescaped_of_unescape _ _ _ h2
                rw [← hr2] at hrel
                have hhost2 : ∃ t, host2 = '%' :: t := by
                  cases hrel with
                  | hex a b r t _ _ _ _ _ =>
                    exact ⟨t, congrArg (· :: t)
                      (by decide : Char.ofNat (unhex '2' * 16 + unhex '5') = '%')⟩
                  | raw c r t hc _ _ => exact absurd rfl hc
                obtain ⟨t, rfl⟩ := hhost2
                have htake : (r.take i).take z = r.take z := by
                  rw [List.take_take, min_eq_left hzi]
                have hnone := strings.Index_take _ _ (by simp) z hz
                rw [htake] at hnone
                have hrel1 := unescaped_of_unescape _ _ _ h1
                have hch1 := host_chars _ _ hrel1 (fun c hc => hb c (List.mem_of_mem_take hc))
                have hpct : '%' ∉ host1 := not_mem_percent _ _ hrel1 hnone
                have hbr1 : strings.HasPrefix (r.take z) ['['] = true := by
                  cases r with
                  | nil => simp [strings.HasPrefix] at hbr
                  | cons c cs =>
                    cases z with
                    | zero =>
                      exfalso
                      have hc : c = '[' := by
                        have : '[' = c := by simpa [strings.HasPrefix] using hbr
                        exact this.symm
                      subst hc
                      cases i with
                      | zero => simp at hr2
                      | succ j => simp at hr2
                    | succ z0 => simpa [strings.HasPrefix] using hbr
                have hbrh1 : strings.HasPrefix host1 ['['] = true := by
                  rw [HasPrefix_of_Unescaped _ _ hrel1, hbr1]
                rw [hr3] at h3
                have h3e := Unescaped_port _ _ _ (unescaped_of_unescape _ _ _ h3) hpc
                subst h3e
                rw [hostZone_eq _ _ _ hbrh1 hpct hnot] at hzone
                have hzc := zone_chars _ _ hrel hzone
                rw [escape_append, escape_append, escape_port _ hpc]
                exact parseHost_zone _ _ _ _ _ (by rw [HasPrefix_escape, hbrh1])
                  (fun b => by
                    rw [Index_escape _ _ hch1 hpct]
                    simp [strings.Index, List.isPrefixOf])
                  hport hnot (unescape_host_escape _ hch1)
                  (fun c hc => hzc c (List.mem_cons_of_mem _ hc)) h3
      · simp [hport] at hp
  · have hbr0 : strings.HasPrefix r ['['] = false := by simpa using hbr
    simp only [hbr0, if_false, Bool.false_eq_true] at hp
    rcases strings.LastIndex_eq ':' r with ⟨hl, hno⟩ | ⟨i, hl, hsplit, hnot, hilt⟩
    · simp only [hl] at hp
      have hrel := unescaped_of_unescape _ _ _ hp
      exact parseHost_escape_plain h (by rw [HasPrefix_of_Unescaped _ _ hrel, hbr0])
        (host_chars _ _ hrel hb)
        (Or.inl fun hm => hno (mem_of_Unescaped_host ':' (by decide) (by decide) _ _ hrel hm))
    · simp only [hl] at hp
      have hlen : (r.take i).length = i := by
        rw [List.length_take]
        omega
      have hr3 : r.drop i = ':' :: r.drop (i + 1) := by
        conv_lhs => rw [hsplit]
        rw [List.drop_left' hlen]
      by_cases hport : validOptionalPort (r.drop i) = true
      · simp only [hport, Bool.not_true, Bool.false_eq_true, if_false] at hp
        have hrel := unescaped_of_unescape _ _ _ hp
        have hch := host_chars _ _ hrel hb
        have hbrh := HasPrefix_of_Unescaped _ _ hrel
        rw [hbr0] at hbrh
        rw [hr3] at hport
        obtain ⟨ha, hb2, rfl, hra, hrb⟩ := Unescaped_split encodeHost ':' (by decide)
          (by decide) (by decide) r h hrel _ _ hsplit
        have hb2e := Unescaped_port _ _ _ hrb
          (fun d hd => validOptionalPort_chars _ hport d (List.mem_cons_of_mem _ hd))
        subst hb2e
        exact parseHost_escape_plain _ hbrh hch (Or.inr ⟨_, _, rfl, hnot, hport⟩)
      · simp [hport] at hp

end url

namespace url
open encoding

/-- A byte that needs no escape in user information is a byte that
`validUserinfo` accepts. -/
theorem userinfo_char_of_shouldEscape_false (c : Char)
    (h : shouldEscape c encodeUserPassword = false) :
    (between 'A' 'Z' c || between 'a' 'z' c || between '0' '9' c ||
      ['-', '.', '_', ':', '~', '!', '$', '&', '\'', '(', ')', '*', '+', ',', ';', '=', '%',
        '@'].contains c) = true := by
  unfold shouldEscape at h
  split_ifs at h with h1 h2 h3 h4 h5
  · simp only [Bool.or_eq_true] at h1 ⊢
    rcases h1 with (h1 | h1) | h1
    · exact Or.inl (Or.inl (Or.inr h1))
    · exact Or.inl (Or.inl (Or.inl h1))
    · exact Or.inl (Or.inr h1)
  · simp at h2
  · simp only [List.contains_eq_any_beq, List.any_cons, List.any_nil,
      Bool.or_false, Bool.or_eq_true, beq_iff_eq] at h3
    rcases h3 with h3 | h3 | h3 | h3 <;> (subst h3; decide)
  · simp only [List.contains_eq_any_beq, List.any_cons, List.any_nil,
      Bool.or_false, Bool.or_eq_true, beq_iff_eq] at h4
    rcases h4 with h4 | h4 | h4 | h4 | h4 | h4 | h4 | h4 | h4 | h4 <;>
      first
      | (subst h4; decide)
      | (subst h4; simp at h)
  · simp at h5

/-- The hexadecimal digits are bytes that `validUserinfo` accepts. -/
theorem userinfo_char_upperhex : ∀ n, n < 16 →
    (between 'A' 'Z' (upperhex n) || between 'a' 'z' (upperhex n) ||
      between '0' '9' (upperhex n) ||
      ['-', '.', '_', ':', '~', '!', '$', '&', '\'', '(', ')', '*', '+', ',', ';', '=', '%',
        '@'].contains (upperhex n)) = true := by
  decide

/-- The escape of user information is valid user information. -/
theorem validUserinfo_escape (s : List Char) (hs : ∀ c ∈ s, c.toNat < 256) :
    validUserinfo (escape s encodeUserPassword) = true := by
  simp only [validUserinfo, List.all_eq_true]
  intro d hd
  rcases mem_escape s _ (by simp) hs d hd with ⟨-, h⟩ | rfl | ⟨n, hn, rfl⟩
  · exact userinfo_char_of_shouldEscape_false d h
  · decide
  · exact userinfo_char_upperhex n hn

/-- The escape of user information holds none of `:`, `@`, `/` and `?`. -/
theorem escape_userinfo_chars (s : List Char) (hs : ∀ c ∈ s, c.toNat < 256) :
    ':' ∉ escape s encodeUserPassword ∧ '@' ∉ escape s encodeUserPassword ∧
    '/' ∉ escape s encodeUserPassword ∧ '?' ∉ escape s encodeUserPassword := by
  refine ⟨?_, ?_, ?_, ?_⟩
  · exact not_mem_escape s _ (by simp) hs ':' (by decide) (by decide)
      fun n hn => ((upperhex_char n hn).2.2.2.2.2.2.1).symm
  · exact not_mem_escape s _ (by simp) hs '@' (by decide) (by decide)
      fun n hn => ((upperhex_char n hn).2.2.2.2.2.1).symm
  · exact not_mem_escape s _ (by simp) hs '/' (by decide) (by decide)
      fun n hn => ((upperhex_char n hn).2.2.2.2.1).symm
  · exact not_mem_escape s _ (by simp) hs '?' (by decide) (by decide)
      fun n hn => ((upperhex_char n hn).2.2.2.1).symm

/-- The escape of a host holds none of `@`, `/` and `?`. -/
theorem escape_host_chars (s : List Char) (hs : ∀ c ∈ s, c.toNat < 256) :
    '@' ∉ escape s encodeHost ∧ '/' ∉ escape s encodeHost ∧ '?' ∉ escape s encodeHost := by
  refine ⟨?_, ?_, ?_⟩
  · exact not_mem_escape s _ (by simp) hs '@' (by decide) (by decide)
      fun n hn => ((upperhex_char n hn).2.2.2.2.2.1).symm
  · exact not_mem_escape s _ (by simp) hs '/' (by decide) (by decide)
      fun n hn => ((upperhex_char n hn).2.2.2.2.1).symm
  · exact not_mem_escape s _ (by simp) hs '?' (by decide) (by decide)
      fun n hn => ((upperhex_char n hn).2.2.2.1).symm

/-- The text `userinfo@host` that `String` writes is read by
`parseAuthority` as the user information and the host it was written
from. -/
theorem parseAuthority_authorityText (user : Option Userinfo) (h : List Char)
    (huser : userOK user) (hb : ∀ c ∈ h, c.toNat < 256)
    (hhost : parseHost (escape h encodeHost) = .ok h) :
    parseAuthority (authorityText user h) = .ok (user, h) := by
  obtain ⟨hat, -, -⟩ := escape_host_chars h hb
  cases user with
  | none =>
    simp [authorityText, parseAuthority, strings.LastIndex_of_not_mem _ _ hat, hhost]
  | some ui =>
    obtain ⟨un, pw, set⟩ := ui
    obtain ⟨hun, hpw, hset⟩ := huser _ rfl
    obtain ⟨hc1, -, -, -⟩ := escape_userinfo_chars un.data hun
    have htext : authorityText (some ⟨un, pw, set⟩) h =
        Userinfo.String ⟨un, pw, set⟩ ++ '@' :: escape h encodeHost := by
      simp [authorityText]
    rw [htext]
    unfold parseAuthority
    simp only [strings.LastIndex_append _ _ _ hat, List.drop_append, List.take_left]
    simp only [List.drop_one, List.tail_cons, hhost]
    cases set with
    | false =>
      have hpw0 : pw = "" := hset rfl
      subst hpw0
      have hstr : Userinfo.String ⟨un, "", false⟩ = escape un.data encodeUserPassword := by
        simp [Userinfo.String]
      rw [hstr]
      have hcont : strings.Contains (escape un.data encodeUserPassword) ':' = false := by
        simpa [strings.Contains] using hc1
      simp [validUserinfo_escape _ hun, hcont,
        unescape_escape encodeUserPassword (by simp) _ hun]
    | true =>
      have hstr : Userinfo.String ⟨un, pw, true⟩ =
          escape un.data encodeUserPassword ++ ':' :: escape pw.data encodeUserPassword := by
        simp [Userinfo.String]
      rw [hstr]
      have hvalid : validUserinfo (escape un.data encodeUserPassword ++
          ':' :: escape pw.data encodeUserPassword) = true := by
        have h1 := validUserinfo_escape _ hun
        have h2 := validUserinfo_escape _ hpw
        simp only [validUserinfo, List.all_append, List.all_cons, Bool.and_eq_true] at h1 h2 ⊢
        exact ⟨h1, by decide, h2⟩
      have hcont : strings.Contains (escape un.data encodeUserPassword ++
          ':' :: escape pw.data encodeUserPassword) ':' = true := by
        simp [strings.Contains]
      simp [hvalid, hcont, strings.Cut_append _ _ _ hc1,
        unescape_escape encodeUserPassword (by simp) _ hun,
        unescape_escape encodeUserPassword (by simp) _ hpw]

end url

namespace url
open encoding

/-- Adding a byte of a scheme at the end of a scheme gives a scheme. -/
theorem isSchemeAnyCase_append (pre : List Char) (c : Char) (hpre : isSchemeAnyCase pre = true)
    (hc : (between 'a' 'z' c || between 'A' 'Z' c || between '0' '9' c || c == '+' ||
      c == '-' || c == '.') = true) : isSchemeAnyCase (pre ++ [c]) = true := by
  cases pre with
  | nil => simp [isSchemeAnyCase] at hpre
  | cons p ps =>
    simp only [isSchemeAnyCase, Bool.and_eq_true, List.cons_append, List.all_append,
      List.all_cons, List.all_nil, Bool.and_true] at hpre ⊢
    exact ⟨hpre.1, hpre.2, hc⟩

/-- What the loop of `getScheme` returns: no scheme, or a scheme, and a text
whose bytes are bytes of the input. -/
theorem getSchemeLoop_inv (rawURL : List Char) (s : List Char) :
    ∀ pre x y, (pre = [] ∨ isSchemeAnyCase pre = true) → (∀ c ∈ s, c ∈ rawURL) →
      getSchemeLoop rawURL pre s = .ok (x, y) →
      (x = [] ∨ isSchemeAnyCase x = true) ∧ (∀ c ∈ y, c ∈ rawURL) := by
  induction s with
  | nil =>
    intro pre x y _ _ h
    simp only [getSchemeLoop, Except.ok.injEq, Prod.mk.injEq] at h
    obtain ⟨rfl, rfl⟩ := h
    exact ⟨Or.inl rfl, fun c hc => hc⟩
  | cons c cs ih =>
    intro pre x y hpre hsub h
    have hcs : ∀ d ∈ cs, d ∈ rawURL := fun d hd => hsub d (List.mem_cons_of_mem _ hd)
    unfold getSchemeLoop at h
    by_cases h1 : (between 'a' 'z' c || between 'A' 'Z' c) = true
    · simp only [h1, if_true] at h
      refine ih (pre ++ [c]) x y (Or.inr ?_) hcs h
      rcases hpre with rfl | hpre
      · simpa [isSchemeAnyCase] using h1
      · exact isSchemeAnyCase_append pre c hpre (by
          simp only [Bool.or_eq_true] at h1 ⊢
          exact Or.inl (Or.inl (Or.inl (Or.inl h1))))
    · simp only [h1, if_false, Bool.false_eq_true] at h
      by_cases h2 : (between '0' '9' c || c == '+' || c == '-' || c == '.') = true
      · simp only [h2, if_true] at h
        by_cases hp : pre = []
        · simp only [hp, if_true, Except.ok.injEq, Prod.mk.injEq] at h
          obtain ⟨rfl, rfl⟩ := h
          exact ⟨Or.inl rfl, fun c hc => hc⟩
        · simp only [hp, if_false] at h
          refine ih (pre ++ [c]) x y (Or.inr ?_) hcs h
          rcases hpre with rfl | hpre
          · exact absurd rfl hp
          · exact isSchemeAnyCase_append pre c hpre (by
              simp only [Bool.or_eq_true] at h2 ⊢
              rcases h2 with ((h2 | h2) | h2) | h2
              · exact Or.inl (Or.inl (Or.inl (Or.inr h2)))
              · exact Or.inl (Or.inl (Or.inr h2))
              · exact Or.inl (Or.inr h2)
              · exact Or.inr h2)
      · simp only [h2, if_false, Bool.false_eq_true] at h
        by_cases h3 : (c == ':') = true
        · simp only [h3, if_true] at h
          by_cases hp : pre = []
          · simp [hp] at h
          · simp only [hp, if_false, Except.ok.injEq, Prod.mk.injEq] at h
            obtain ⟨rfl, rfl⟩ := h
            rcases hpre with rfl | hpre
            · exact absurd rfl hp
            · exact ⟨Or.inr hpre, hcs⟩
        · simp only [h3, if_false, Except.ok.injEq, Prod.mk.injEq, Bool.false_eq_true] at h
          obtain ⟨rfl, rfl⟩ := h
          exact ⟨Or.inl rfl, fun c hc => hc⟩

/-- The lower case of a scheme that `getScheme` finds is a scheme as
`url.Parse` stores one. -/
theorem isScheme_ToLower (s : List Char) (h : isSchemeAnyCase s = true) :
    isScheme (strings.ToLower s) = true := by
  have hlow : ∀ d : Char, between 'A' 'Z' d = true → between 'a' 'z' d.toLower = true := by
    intro d hd
    simp only [between, decide_eq_true_eq, Char.reduceToNat] at hd ⊢
    unfold Char.toLower
    have hc : d.toNat ≥ 65 ∧ d.toNat ≤ 90 := hd
    simp only [hc, and_self, if_true]
    rw [toNat_ofNat_byte _ (by omega)]
    omega
  have hkeep : ∀ d : Char, between 'A' 'Z' d = false → d.toLower = d :=
    fun d hd => toLower_of_not_upper d hd
  cases s with
  | nil => simp [isSchemeAnyCase] at h
  | cons c cs =>
    simp only [isSchemeAnyCase, Bool.and_eq_true, List.all_eq_true] at h
    simp only [strings.ToLower, List.map_cons, isScheme, Bool.and_eq_true, List.all_eq_true,
      List.mem_map, forall_exists_index, and_imp, forall_apply_eq_imp_iff₂]
    constructor
    · by_cases hu : between 'A' 'Z' c = true
      · exact hlow c hu
      · simp only [Bool.not_eq_true] at hu
        rw [hkeep c hu]
        simpa [hu] using h.1
    · intro d hd
      have hd' := h.2 d hd
      by_cases hu : between 'A' 'Z' d = true
      · simp [hlow d hu]
      · simp only [Bool.not_eq_true] at hu
        rw [hkeep d hu]
        simpa [hu] using hd'

end url

namespace strings

/-- The bytes of the two parts of a cut are bytes of the text. -/
theorem Cut_mem (sep : Char) (s : List Char) :
    (∀ c ∈ (Cut sep s).1, c ∈ s) ∧ (∀ c ∈ (Cut sep s).2.1, c ∈ s) := by
  rcases (Cut_eq sep s).2 with ⟨-, h⟩ | ⟨-, h1, h2⟩
  · constructor
    · intro c hc
      rw [h]
      exact List.mem_append_left _ hc
    · intro c hc
      rw [h]
      exact List.mem_append_right _ (List.mem_cons_of_mem _ hc)
  · constructor
    · intro c hc
      rw [h1]
      exact hc
    · intro c hc
      rw [h2] at hc
      simp at hc

end strings

namespace url
open encoding

/-- What `unescape` returns holds bytes only. -/
theorem unescape_bytes' (m : encoding) (r t : List Char) (h : unescape m r = .ok t)
    (hb : ∀ c ∈ r, c.toNat < 256) : ∀ c ∈ t, c.toNat < 256 := by
  have hrel := unescaped_of_unescape m r t h
  clear h
  induction hrel with
  | nil => simp
  | hex a b r t _ _ _ _ _ ih =>
    intro c hc
    rcases List.mem_cons.mp hc with rfl | hc
    · have ha := unhex_lt a
      have hb2 := unhex_lt b
      rw [toNat_ofNat_byte _ (by omega)]
      omega
    · exact ih (fun d hd => hb d (by simp [hd])) c hc
  | raw c r t _ _ _ ih =>
    intro d hd
    rcases List.mem_cons.mp hd with rfl | hd
    · split_ifs
      · decide
      · exact hb c (List.mem_cons_self _ _)
    · exact ih (fun d hd => hb d (List.mem_cons_of_mem _ hd)) d hd

/-- The host that `parseHost` returns holds bytes only. -/
theorem parseHost_bytes (r h : List Char) (hb : ∀ c ∈ r, c.toNat < 256)
    (hp : parseHost r = .ok h) : ∀ c ∈ h, c.toNat < 256 := by
  unfold parseHost at hp
  by_cases hbr : strings.HasPrefix r ['['] = true
  · simp only [hbr, if_true] at hp
    cases hl : strings.LastIndex ']' r with
    | none => simp [hl] at hp
    | some i =>
      simp only [hl] at hp
      by_cases hport : validOptionalPort (r.drop (i + 1)) = true
      · simp only [hport, Bool.not_true, Bool.false_eq_true, if_false] at hp
        cases hz : strings.Index ['%', '2', '5'] (r.take i) with
        | none =>
          simp only [hz] at hp
          exact unescape_bytes' _ _ _ hp hb
        | some z =>
          simp only [hz] at hp
          cases h1 : unescape encodeHost (r.take z) with
          | error e => simp [h1] at hp
          | ok host1 =>
            cases h2 : unescape encodeZone ((r.take i).drop z) with
            | error e => simp [h1, h2] at hp
            | ok host2 =>
              cases h3 : unescape encodeHost (r.drop i) with
              | error e => simp [h1, h2, h3] at hp
              | ok host3 =>
                simp only [h1, h2, h3, Except.ok.injEq] at hp
                subst hp
                intro c hc
                simp only [List.mem_append] at hc
                rcases hc with (hc | hc) | hc
                · exact unescape_bytes' _ _ _ h1
                    (fun d hd => hb d (List.mem_of_mem_take hd)) c hc
                · exact unescape_bytes' _ _ _ h2
                    (fun d hd => hb d (List.mem_of_mem_take (List.mem_of_mem_drop hd))) c hc
                · exact unescape_bytes' _ _ _ h3
                    (fun d hd => hb d (List.mem_of_mem_drop hd)) c hc
      · simp [hport] at hp
  · have hbr0 : strings.HasPrefix r ['['] = false := by simpa using hbr
    simp only [hbr0, if_false, Bool.false_eq_true] at hp
    cases hl : strings.LastIndex ':' r with
    | none =>
      simp only [hl] at hp
      exact unescape_bytes' _ _ _ hp hb
    | some i =>
      simp only [hl] at hp
      split_ifs at hp
      exact unescape_bytes' _ _ _ hp hb

/-- What `parseAuthority` returns: user information and a host as the
invariant `Parsed` describes them. -/
theorem parseAuthority_inv (r h : List Char) (user : Option Userinfo)
    (hb : ∀ c ∈ r, c.toNat < 256) (hp : parseAuthority r = .ok (user, h)) :
    userOK user ∧ ∃ r0, (∀ c ∈ r0, c.toNat < 256) ∧ parseHost r0 = .ok h := by
  unfold parseAuthority at hp
  cases hl : strings.LastIndex '@' r with
  | none =>
    simp only [hl] at hp
    cases hh : parseHost r with
    | error e => simp [hh] at hp
    | ok host =>
      simp only [hh, Except.ok.injEq, Prod.mk.injEq] at hp
      obtain ⟨rfl, rfl⟩ := hp
      exact ⟨fun ui hui => by simp at hui, r, hb, hh⟩
  | some i =>
    simp only [hl] at hp
    cases hh : parseHost (r.drop (i + 1)) with
    | error e => simp [hh] at hp
    | ok host =>
      simp only [hh] at hp
      have hbt : ∀ c ∈ r.take i, c.toNat < 256 := fun c hc => hb c (List.mem_of_mem_take hc)
      have hbd : ∀ c ∈ r.drop (i + 1), c.toNat < 256 := fun c hc =>
        hb c (List.mem_of_mem_drop hc)
      split_ifs at hp with hv hc
      · cases hu : unescape encodeUserPassword (r.take i) with
        | error e => simp [hu] at hp
        | ok un =>
          simp only [hu, Except.ok.injEq, Prod.mk.injEq] at hp
          obtain ⟨rfl, rfl⟩ := hp
          refine ⟨fun ui hui => ?_, _, hbd, hh⟩
          simp only [Option.some.injEq] at hui
          subst hui
          exact ⟨unescape_bytes' _ _ _ hu hbt, by simp, fun _ => rfl⟩
      · cases hu : unescape encodeUserPassword (strings.Cut ':' (r.take i)).1 with
        | error e => simp [hu] at hp
        | ok un =>
          cases hw : unescape encodeUserPassword (strings.Cut ':' (r.take i)).2.1 with
          | error e => simp [hu, hw] at hp
          | ok pw =>
            simp only [hu, hw, Except.ok.injEq, Prod.mk.injEq] at hp
            obtain ⟨rfl, rfl⟩ := hp
            refine ⟨fun ui hui => ?_, _, hbd, hh⟩
            simp only [Option.some.injEq] at hui
            subst hui
            have hcm := strings.Cut_mem ':' (r.take i)
            exact ⟨unescape_bytes' _ _ _ hu (fun c hc => hbt c (hcm.1 c hc)),
              unescape_bytes' _ _ _ hw (fun c hc => hbt c (hcm.2 c hc)),
              fun hf => by simp at hf⟩

end url

namespace url
open encoding

/-- What `setPath` returns. -/
theorem setPath_inv (v u : URL) (p : List Char) (h : setPath v p = .ok u) :
    ∃ path, unescape encodePath p = .ok path ∧
      u = { v with Path := ⟨path⟩,
                   RawPath := if p = escape path encodePath then "" else ⟨p⟩ } := by
  unfold setPath at h
  cases hu : unescape encodePath p with
  | error e => simp [hu] at h
  | ok path =>
    simp only [hu, Except.ok.injEq] at h
    exact ⟨path, rfl, h.symm⟩

/-- The invariant `Parsed` for a URL given by its parts. -/
theorem Parsed_mk (sch rq host path : List Char) (fq omitHost : Bool) (user : Option Userinfo)
    (rawPath : String) (hsch : sch = [] ∨ isScheme sch = true)
    (hpath : ∀ c ∈ path, c.toNat < 256) (hrq1 : '#' ∉ rq)
    (hrq2 : stringContainsCTLByte rq = false) (hfq : fq = true → rq = [])
    (homit : omitHost = true → host = [] ∧ user = none ∧ sch ≠ [])
    (huser : userOK user)
    (hhost : ∃ r, (∀ c ∈ r, c.toNat < 256) ∧ parseHost r = .ok host) :
    Parsed { Scheme := ⟨sch⟩, User := user, Host := ⟨host⟩, Path := ⟨path⟩, RawPath := rawPath,
             OmitHost := omitHost, ForceQuery := fq, RawQuery := ⟨rq⟩ } := by
  refine ⟨hsch, rfl, hpath, hrq1, hrq2, ?_, ?_, huser, hhost, by simp⟩
  · intro h
    simp only [hfq h]
  · intro h
    obtain ⟨h1, h2, h3⟩ := homit h
    exact ⟨by simp only [h1], h2, h3⟩

/-- What `parse` returns with an absolute path satisfies the invariant
`Parsed`, and has no fragment. -/
theorem parse_inv (raw : List Char) (u : URL) (hb : ∀ c ∈ raw, c.toNat < 256)
    (hh : '#' ∉ raw) (hp : parse raw = .ok u) (habs : filepath.IsAbs u.Path = true) :
    Parsed u ∧ u.Fragment = "" ∧ u.RawFragment = "" := by
  unfold parse at hp
  by_cases hctl : stringContainsCTLByte raw = true
  · simp [hctl] at hp
  simp only [Bool.not_eq_true] at hctl
  simp only [hctl, if_false, Bool.false_eq_true] at hp
  by_cases hstar : raw = ['*']
  · simp only [hstar, if_true, Except.ok.injEq] at hp
    subst hp
    simp [filepath.IsAbs, strings.HasPrefix] at habs
  simp only [hstar, if_false] at hp
  cases hg : getScheme raw with
  | error e => simp [hg] at hp
  | ok sr =>
    obtain ⟨s0, rest0⟩ := sr
    obtain ⟨hs0, hrest0⟩ := getSchemeLoop_inv raw raw [] s0 rest0 (Or.inl rfl)
      (fun c hc => hc) hg
    simp only [hg] at hp
    have hsch : strings.ToLower s0 = [] ∨ isScheme (strings.ToLower s0) = true := by
      rcases hs0 with rfl | hs0
      · exact Or.inl rfl
      · exact Or.inr (isScheme_ToLower s0 hs0)
    have hrest : ∀ c ∈ (if (strings.HasSuffix rest0 ['?'] && strings.Count rest0 '?' == 1) = true
        then rest0.dropLast else (strings.Cut '?' rest0).1), c ∈ raw := by
      intro c hc
      split_ifs at hc
      · exact hrest0 c (List.dropLast_subset _ hc)
      · exact hrest0 c ((strings.Cut_mem _ _).1 c hc)
    have hrq : ∀ c ∈ (if (strings.HasSuffix rest0 ['?'] && strings.Count rest0 '?' == 1) = true
        then [] else (strings.Cut '?' rest0).2.1), c ∈ raw := by
      intro c hc
      split_ifs at hc
      · simp at hc
      · exact hrest0 c ((strings.Cut_mem _ _).2 c hc)
    have hfq : (strings.HasSuffix rest0 ['?'] && strings.Count rest0 '?' == 1) = true →
        (if (strings.HasSuffix rest0 ['?'] && strings.Count rest0 '?' == 1) = true
        then [] else (strings.Cut '?' rest0).2.1) = [] := by
      intro h
      simp only [h, if_true]
    generalize (strings.HasSuffix rest0 ['?'] && strings.Count rest0 '?' == 1) = fq at hp hrest hrq hfq
    generalize (if fq = true then rest0.dropLast else (strings.Cut '?' rest0).1) = rest
      at hp hrest
    generalize (if fq = true then [] else (strings.Cut '?' rest0).2.1) = rq at hp hrq hfq
    generalize strings.ToLower s0 = sch at hp hsch
    have hbyte : ∀ l : List Char, (∀ c ∈ l, c ∈ raw) → ∀ c ∈ l, c.toNat < 256 :=
      fun l hl c hc => hb c (hl c hc)
    have hrq1 : '#' ∉ rq := fun hm => hh (hrq _ hm)
    have hrq2 : stringContainsCTLByte rq = false := by
      simp only [stringContainsCTLByte, List.any_eq_false] at hctl ⊢
      exact fun c hc => hctl c (hrq c hc)
    have hhost0 : ∃ r, (∀ c ∈ r, c.toNat < 256) ∧ parseHost r = .ok ([] : List Char) :=
      ⟨[], by simp, rfl⟩
    have huser0 : userOK none := fun ui hui => by simp at hui
    have hrest2 : ∀ c ∈ (if strings.Contains (List.drop 2 rest) '/' = true then
        '/' :: (strings.Cut '/' (List.drop 2 rest)).2.1 else []), c.toNat < 256 := by
      intro c hc
      split_ifs at hc
      · rcases List.mem_cons.mp hc with rfl | hc
        · decide
        · exact hb c (hrest c (List.mem_of_mem_drop ((strings.Cut_mem _ _).2 c hc)))
      · simp at hc
    generalize (if strings.Contains (List.drop 2 rest) '/' = true then
        '/' :: (strings.Cut '/' (List.drop 2 rest)).2.1 else []) = rest2 at hp hrest2
    split_ifs at hp with c1 c2 c3 c4
    · simp only [Except.ok.injEq] at hp
      subst hp
      simp [filepath.IsAbs, strings.HasPrefix] at habs
    · cases ha : parseAuthority (strings.Cut '/' (List.drop 2 rest)).1 with
      | error e => simp [ha] at hp
      | ok uh =>
        obtain ⟨user, host⟩ := uh
        simp only [ha] at hp
        obtain ⟨path, hpath, rfl⟩ := setPath_inv _ _ _ hp
        have hauth : ∀ c ∈ (strings.Cut '/' (List.drop 2 rest)).1, c.toNat < 256 :=
          fun c hc => hb c (hrest c (List.mem_of_mem_drop ((strings.Cut_mem _ _).1 c hc)))
        obtain ⟨hu1, hu2⟩ := parseAuthority_inv _ _ _ hauth ha
        exact ⟨Parsed_mk sch rq host path fq false user _ hsch
          (unescape_bytes' _ _ _ hpath hrest2) hrq1 hrq2 hfq (by simp) hu1 hu2, rfl, rfl⟩
    · obtain ⟨path, hpath, rfl⟩ := setPath_inv _ _ _ hp
      refine ⟨Parsed_mk sch rq [] path fq true none _ hsch
        (unescape_bytes' _ _ _ hpath (hbyte rest hrest)) hrq1 hrq2 hfq ?_ huser0 hhost0,
        rfl, rfl⟩
      intro _
      refine ⟨rfl, rfl, ?_⟩
      simp only [Bool.and_eq_true, bne_iff_ne, ne_eq] at c4
      exact c4.1
    · obtain ⟨path, hpath, rfl⟩ := setPath_inv _ _ _ hp
      exact ⟨Parsed_mk sch rq [] path fq false none _ hsch
        (unescape_bytes' _ _ _ hpath (hbyte rest hrest)) hrq1 hrq2 hfq (by simp) huser0 hhost0,
        rfl, rfl⟩

end url

namespace url
open encoding

/-- What `url.Parse` returns with an absolute path satisfies the invariant
`Parsed`. -/
theorem Parse_inv (rawURL : String) (u : URL) (hb : ∀ c ∈ rawURL.data, c.toNat < 256)
    (hp : Parse rawURL = .ok u) (habs : filepath.IsAbs u.Path = true) : Parsed u := by
  unfold Parse at hp
  have hcut := strings.Cut_eq '#' rawURL.data
  have hmem := strings.Cut_mem '#' rawURL.data
  cases h1 : parse (strings.Cut '#' rawURL.data).1 with
  | error e => simp [h1] at hp
  | ok v =>
    simp only [h1] at hp
    have hbv : ∀ c ∈ (strings.Cut '#' rawURL.data).1, c.toNat < 256 :=
      fun c hc => hb c (hmem.1 c hc)
    split_ifs at hp with hf
    · simp only [Except.ok.injEq] at hp
      subst hp
      exact (parse_inv _ _ hbv hcut.1 h1 habs).1
    · unfold setFragment at hp
      cases h2 : unescape encodeFragment (strings.Cut '#' rawURL.data).2.1 with
      | error e => simp [h2] at hp
      | ok frag =>
        simp only [h2, Except.ok.injEq] at hp
        subst hp
        have hv := (parse_inv _ v hbv hcut.1 h1 habs).1
        obtain ⟨p1, p2, p3, p4, p5, p6, p7, p8, p9, -⟩ := hv
        exact ⟨p1, p2, p3, p4, p5, p6, p7, p8, p9,
          unescape_bytes' _ _ _ h2 fun c hc => hb c (hmem.2 c hc)⟩

end url

/-- What `pathToURL` returns without error: a URL with a scheme and an
absolute path that satisfies the invariant `Parsed`; it is the URL that
`url.Parse` returns, but for the scheme `file` set when there was none. -/
theorem pathToURL_inv (path : String) (u : url.URL) (hb : ∀ c ∈ path.data, c.toNat < 256)
    (h : pathToURL path = (some u, none)) :
    url.Parsed u ∧ url.isScheme u.Scheme.data = true ∧ filepath.IsAbs u.Path = true ∧
    ∃ v, url.Parse path = .ok v ∧
      ((v.Scheme ≠ "" ∧ u = v) ∨ (v.Scheme = "" ∧ u = { v with Scheme := "file" })) := by
  unfold pathToURL at h
  cases hp : url.Parse path with
  | error e => simp [hp] at h
  | ok v =>
    simp only [hp] at h
    by_cases habs : filepath.IsAbs v.Path = true
    · simp only [habs, Bool.not_true, Bool.false_eq_true, if_false] at h
      have hv := url.Parse_inv path v hb hp habs
      by_cases hs : v.Scheme = ""
      · simp only [hs, if_true, Prod.mk.injEq, Option.some.injEq, and_true] at h
        subst h
        obtain ⟨p1, p2, p3, p4, p5, p6, p7, p8, p9, p10⟩ := hv
        have hfile : url.isScheme "file".data = true := by decide
        refine ⟨⟨Or.inr hfile, p2, p3, p4, p5, p6, ?_, p8, p9, p10⟩, hfile, habs,
          v, rfl, Or.inr ⟨hs, rfl⟩⟩
        intro ho
        have := (p7 ho).2.2
        rw [hs] at this
        exact absurd rfl this
      · simp only [hs, if_false, Prod.mk.injEq, Option.some.injEq, and_true] at h
        subst h
        refine ⟨hv, ?_, habs, v, rfl, Or.inl ⟨hs, rfl⟩⟩
        rcases hv.1 with h0 | h0
        · exact absurd (String.ext h0) hs
        · exact h0
    · simp [habs] at h

namespace url
open encoding

/-- A string differs from the empty string when it holds a byte. -/
theorem bne_empty (s : String) : (s != "") = (s.data != []) := by
  obtain ⟨l⟩ := s
  cases l with
  | nil => rfl
  | cons c cs =>
    have h1 : (⟨c :: cs⟩ : String) ≠ "" := fun h => by
      have := congrArg String.data h
      simp at this
    have h2 : ((c :: cs) != []) = true := by simp
    have h3 : ((⟨c :: cs⟩ : String) != "") = true := bne_iff_ne.mpr h1
    rw [h2, h3]

/-- The escaped path of a URL with an absolute path. -/
theorem EscapedPath_eq (u : URL) (habs : filepath.IsAbs u.Path = true) :
    EscapedPath u = escapedOf encodePath u.RawPath.data u.Path.data := by
  have hstar : u.Path ≠ "*" := by
    intro h
    rw [h] at habs
    simp [filepath.IsAbs, strings.HasPrefix] at habs
  unfold EscapedPath escapedOf
  simp only [bne_empty, hstar, if_false]
  by_cases hc : u.RawPath.data ≠ [] ∧ validEncoded u.RawPath.data encodePath = true ∧
      unescapesTo encodePath u.RawPath.data u.Path.data = true
  · rw [if_pos hc, if_pos]
    simpa [Bool.and_eq_true, and_assoc] using hc
  · rw [if_neg hc, if_neg]
    simpa [Bool.and_eq_true, and_assoc] using hc

/-- The escaped fragment of a URL. -/
theorem EscapedFragment_eq (u : URL) :
    EscapedFragment u = escapedOf encodeFragment u.RawFragment.data u.Fragment.data := by
  unfold EscapedFragment escapedOf
  simp only [bne_empty]
  by_cases hc : u.RawFragment.data ≠ [] ∧ validEncoded u.RawFragment.data encodeFragment = true ∧
      unescapesTo encodeFragment u.RawFragment.data u.Fragment.data = true
  · rw [if_pos hc, if_pos]
    simpa [Bool.and_eq_true, and_assoc] using hc
  · rw [if_neg hc, if_neg]
    simpa [Bool.and_eq_true, and_assoc] using hc

/-- The text that `String` writes for a URL with a scheme, an absolute path
and no opaque part, the escaped path starting with a slash. -/
theorem String_data (u : URL) (e : List Char) (hsch : u.Scheme.data ≠ [])
    (hop : u.Opaque = "") (habs : filepath.IsAbs u.Path = true)
    (he : EscapedPath u = '/' :: e)
    (homit : u.OmitHost = true → u.Host = "" ∧ u.User = none) :
    u.String = ⟨(u.Scheme.data ++ ':' ::
        ((if u.OmitHost = true then '/' :: e
          else '/' :: '/' :: (authorityText u.User u.Host.data ++ '/' :: e)) ++
        (if u.ForceQuery = true ∨ u.RawQuery.data ≠ [] then '?' :: u.RawQuery.data else []))) ++
      (if u.Fragment.data ≠ [] then '#' :: EscapedFragment u else [])⟩ := by
  have hpath : u.Path.data ≠ [] := by
    intro h
    simp [filepath.IsAbs, strings.HasPrefix, h] at habs
  have hsp : schemePart u = u.Scheme.data ++ [':'] := by
    simp [schemePart, bne_empty, hsch]
  have hap : authorityPart u = if u.OmitHost = true then []
      else '/' :: '/' :: authorityText u.User u.Host.data := by
    unfold authorityPart
    simp only [bne_empty, hsch, bne_iff_ne, ne_eq, not_false_eq_true, decide_True, Bool.true_or,
      if_true, hpath, Bool.or_true]
    by_cases ho : u.OmitHost = true
    · obtain ⟨h1, h2⟩ := homit ho
      simp [ho, h1, h2]
    · simp only [ho, Bool.false_and, Bool.false_eq_true, if_false]
      unfold authorityText
      by_cases hh : u.Host.data = []
      · simp [hh, escape, hsch, hpath]
      · simp [hh, hsch, hpath]
  have hpp : pathPart u (schemePart u ++ authorityPart u) = '/' :: e := by
    unfold pathPart
    simp [he, hsp]
  unfold URL.String
  rw [hpp, hap, hsp]
  simp only [bne_empty, hop]
  congr 1
  by_cases ho : u.OmitHost = true <;> by_cases hf : u.ForceQuery = true <;>
    by_cases hq : u.RawQuery.data = [] <;> by_cases hfr : u.Fragment.data = [] <;>
    simp [ho, hf, hq, hfr]

end url

namespace url
open encoding

/-- A text of printable bytes holds no control byte. -/
theorem noCTL_of_printable (l : List Char) (h : ∀ d ∈ l, 32 < d.toNat ∧ d.toNat < 127) :
    stringContainsCTLByte l = false := by
  simp only [stringContainsCTLByte, List.any_eq_false]
  intro d hd
  have := h d hd
  simp
  omega

/-- The bytes of the text `userinfo@host` that `String` writes: printable,
and none of `#`, `/` and `?`. -/
theorem authorityText_chars (user : Option Userinfo) (host : List Char) (huser : userOK user)
    (hb : ∀ c ∈ host, c.toNat < 256) :
    ∀ d ∈ authorityText user host,
      (32 < d.toNat ∧ d.toNat < 127) ∧ d ≠ '#' ∧ d ≠ '/' ∧ d ≠ '?' := by
  have hesc : ∀ (s : List Char) (m : encoding), m = encodeUserPassword ∨ m = encodeHost →
      (∀ c ∈ s, c.toNat < 256) → ∀ d ∈ escape s m,
        (32 < d.toNat ∧ d.toNat < 127) ∧ d ≠ '#' ∧ d ≠ '/' ∧ d ≠ '?' := by
    intro s m hm hs d hd
    have hmq : m ≠ encodeQueryComponent := by rcases hm with rfl | rfl <;> simp
    have h1 := escape_printable s m hmq hs d hd
    refine ⟨⟨h1.1, h1.2.1⟩, h1.2.2, ?_, ?_⟩
    · rintro rfl
      rcases hm with rfl | rfl
      · exact (escape_userinfo_chars s hs).2.2.1 hd
      · exact (escape_host_chars s hs).2.1 hd
    · rintro rfl
      rcases hm with rfl | rfl
      · exact (escape_userinfo_chars s hs).2.2.2 hd
      · exact (escape_host_chars s hs).2.2 hd
  intro d hd
  unfold authorityText at hd
  rcases List.mem_append.mp hd with hd | hd
  · cases user with
    | none => simp at hd
    | some ui =>
      obtain ⟨h1, h2, -⟩ := huser ui rfl
      simp only [Userinfo.String, List.mem_append, List.mem_singleton] at hd
      rcases hd with (hd | hd) | hd
      · exact hesc _ _ (Or.inl rfl) h1 d hd
      · split_ifs at hd
        · rcases List.mem_cons.mp hd with rfl | hd
          · decide
          · exact hesc _ _ (Or.inl rfl) h2 d hd
        · simp at hd
      · subst hd
        decide
  · exact hesc _ _ (Or.inr rfl) hb d hd

end url

namespace url
open encoding

/-- Parsing the text that `String` writes for a URL as `pathToURL` returns
one gives the URL back, but for the hints `RawPath` and `RawFragment`. -/
theorem Parse_String (u : URL) (e : List Char) (hP : Parsed u)
    (hsch : isScheme u.Scheme.data = true) (habs : filepath.IsAbs u.Path = true)
    (he : EscapedPath u = '/' :: e)
    (homit : u.OmitHost = true → strings.HasPrefix e ['/'] = false)
    (hzone : ∀ c ∈ hostZone u.Host.data, c.toNat < 128) :
    Parse u.String = .ok
      { u with
        RawPath := if '/' :: e = escape u.Path.data encodePath then "" else ⟨'/' :: e⟩
        RawFragment :=
          if u.Fragment.data ≠ [] then
            (if EscapedFragment u = escape u.Fragment.data encodeFragment then ""
              else ⟨EscapedFragment u⟩)
          else "" } := by
  obtain ⟨p1, p2, p3, p4, p5, p6, p7, p8, ⟨r0, p9b, p9⟩, p10⟩ := hP
  obtain ⟨hs1, hs2, hs3, hs4⟩ := isScheme_chars _ hsch
  -- the path
  have hpe := escapedOf_spec encodePath (Or.inl rfl) u.RawPath.data u.Path.data p3
  rw [← EscapedPath_eq u habs, he] at hpe
  obtain ⟨hpath, -, -, hpchars⟩ := hpe
  -- the fragment
  have hfe := escapedOf_spec encodeFragment (Or.inr rfl) u.RawFragment.data u.Fragment.data p10
  rw [← EscapedFragment_eq u] at hfe
  obtain ⟨hfrag, -, hfne, -⟩ := hfe
  -- the authority
  have hbh : ∀ c ∈ u.Host.data, c.toNat < 256 := parseHost_bytes r0 _ p9b p9
  have hhost := parseHost_escape r0 _ p9b p9 hzone
  have hauth := parseAuthority_authorityText u.User u.Host.data p8 hbh hhost
  have hachars := authorityText_chars u.User u.Host.data p8 hbh
  have hrq6 : u.ForceQuery = true → u.RawQuery.data = [] := fun h => by rw [p6 h]
  have hsd := String_data u e hs4 p2 habs he (fun h => ⟨(p7 h).1, (p7 h).2.1⟩)
  rw [hsd]
  have hectl : stringContainsCTLByte ('/' :: e) = false :=
    noCTL_of_printable _ fun d hd => ⟨(hpchars d hd).1, (hpchars d hd).2.1⟩
  have heq : '?' ∉ '/' :: e := fun hm => (hpchars _ hm).2.2.2 rfl rfl
  have heh : '#' ∉ '/' :: e := fun hm => (hpchars _ hm).2.2.1 rfl
  by_cases ho : u.OmitHost = true
  · obtain ⟨ho1, ho2, -⟩ := p7 ho
    have hparse := parse_without_authority u.Scheme.data e u.RawQuery.data u.Path.data
      u.ForceQuery hsch (by
        simp only [stringContainsCTLByte, List.any_append, Bool.or_eq_false_iff] at hectl p5 ⊢
        exact ⟨hectl, p5⟩) heq (homit ho) hpath hrq6
    have hpre : '#' ∉ u.Scheme.data ++ ':' :: ('/' :: e ++
        (if u.ForceQuery = true ∨ u.RawQuery.data ≠ [] then '?' :: u.RawQuery.data else [])) := by
      intro hm
      simp only [List.mem_append, List.mem_cons] at hm
      rcases hm with hm | hm | hm | hm
      · exact hs3 hm
      · exact absurd hm (by decide)
      · exact heh (by simpa using hm)
      · split_ifs at hm
        · rcases List.mem_cons.mp hm with hm | hm
          · exact absurd hm (by decide)
          · exact p4 hm
        · simp at hm
    have := Parse_with_fragment _ (EscapedFragment u) u.Fragment.data _ hpre hparse
      (fun hf => ⟨hfne hf, hfrag⟩)
    simp only [ho, if_true]
    rw [this]
    clear this hparse hsd
    rcases u with ⟨sch, op, user, host, path, rawpath, omitHost, fq, rq, frag, rawfrag⟩
    simp only at ho ho1 ho2 p2 ⊢
    subst ho ho1 ho2 p2
    by_cases hf : frag.data = []
    · have hf0 : frag = "" := String.ext hf
      subst hf0
      simp
    · simp [hf]
  · have hparse := parse_with_authority u.Scheme.data (authorityText u.User u.Host.data) e
      u.RawQuery.data u.Path.data u.Host.data u.User u.ForceQuery hsch (by
        have ha := noCTL_of_printable _ fun d hd => (hachars d hd).1
        simp only [stringContainsCTLByte, List.any_append, Bool.or_eq_false_iff,
          List.append_assoc] at hectl p5 ha ⊢
        exact ⟨ha, hectl, p5⟩) (by
        intro hm
        rcases List.mem_append.mp hm with hm | hm
        · exact (hachars _ hm).2.2.2 rfl
        · exact heq hm) (fun hm => (hachars _ hm).2.2.1 rfl) hauth hpath hrq6
    have hpre : '#' ∉ u.Scheme.data ++ ':' :: ('/' :: '/' ::
        (authorityText u.User u.Host.data ++ '/' :: e) ++
        (if u.ForceQuery = true ∨ u.RawQuery.data ≠ [] then '?' :: u.RawQuery.data else [])) := by
      intro hm
      simp only [List.mem_append, List.mem_cons] at hm
      rcases hm with hm | hm | hm | hm
      · exact hs3 hm
      · exact absurd hm (by decide)
      · rcases hm with hm | hm | hm | hm
        · exact absurd hm (by decide)
        · exact absurd hm (by decide)
        · exact (hachars _ hm).2.1 rfl
        · exact heh (by simpa using hm)
      · split_ifs at hm
        · rcases List.mem_cons.mp hm with hm | hm
          · exact absurd hm (by decide)
          · exact p4 hm
        · simp at hm
    have := Parse_with_fragment _ (EscapedFragment u) u.Fragment.data _ hpre hparse
      (fun hf => ⟨hfne hf, hfrag⟩)
    simp only [ho, if_false, Bool.false_eq_true]
    rw [this]
    clear this hparse hsd
    rcases u with ⟨sch, op, user, host, path, rawpath, omitHost, fq, rq, frag, rawfrag⟩
    simp only [Bool.not_eq_true] at ho p2 ⊢
    subst ho p2
    by_cases hf : frag.data = []
    · have hf0 : frag = "" := String.ext hf
      subst hf0
      simp
    · simp [hf]

end url

namespace url
open encoding

/-- The URL that `url.Parse` finds in the text that `String` writes has the
same string form. -/
theorem String_reparsed (u : URL) (e : List Char) (hP : Parsed u)
    (hsch : isScheme u.Scheme.data = true) (habs : filepath.IsAbs u.Path = true)
    (he : EscapedPath u = '/' :: e) :
    URL.String
      { u with
        RawPath := if '/' :: e = escape u.Path.data encodePath then "" else ⟨'/' :: e⟩
        RawFragment :=
          if u.Fragment.data ≠ [] then
            (if EscapedFragment u = escape u.Fragment.data encodeFragment then ""
              else ⟨EscapedFragment u⟩)
          else "" } = u.String := by
  obtain ⟨p1, p2, p3, p4, p5, p6, p7, p8, p9, p10⟩ := hP
  obtain ⟨-, -, -, hs4⟩ := isScheme_chars _ hsch
  have hpe := (escapedOf_spec encodePath (Or.inl rfl) u.RawPath.data u.Path.data p3).2.1
  rw [← EscapedPath_eq u habs, he] at hpe
  have hfe := (escapedOf_spec encodeFragment (Or.inr rfl) u.RawFragment.data
    u.Fragment.data p10).2.1
  rw [← EscapedFragment_eq u] at hfe
  obtain ⟨U2, hU⟩ : ∃ U2 : URL, U2 =
      { u with
        RawPath := if '/' :: e = escape u.Path.data encodePath then "" else ⟨'/' :: e⟩
        RawFragment :=
          if u.Fragment.data ≠ [] then
            (if EscapedFragment u = escape u.Fragment.data encodeFragment then ""
              else ⟨EscapedFragment u⟩)
          else "" } := ⟨_, rfl⟩
  rw [← hU]
  have f1 : U2.Scheme = u.Scheme := by rw [hU]
  have f2 : U2.Opaque = u.Opaque := by rw [hU]
  have f3 : U2.User = u.User := by rw [hU]
  have f4 : U2.Host = u.Host := by rw [hU]
  have f5 : U2.Path = u.Path := by rw [hU]
  have f6 : U2.OmitHost = u.OmitHost := by rw [hU]
  have f7 : U2.ForceQuery = u.ForceQuery := by rw [hU]
  have f8 : U2.RawQuery = u.RawQuery := by rw [hU]
  have f9 : U2.Fragment = u.Fragment := by rw [hU]
  have f10 : U2.RawPath.data =
      if '/' :: e = escape u.Path.data encodePath then [] else '/' :: e := by
    rw [hU]
    simp only [apply_ite String.data]
  have f11 : u.Fragment.data ≠ [] → U2.RawFragment.data =
      if EscapedFragment u = escape u.Fragment.data encodeFragment then []
      else EscapedFragment u := by
    intro hf
    rw [hU]
    simp only [hf, ne_eq, not_false_eq_true, if_true, apply_ite String.data]
  have habs2 : filepath.IsAbs U2.Path = true := by rw [f5]; exact habs
  have he' : EscapedPath U2 = '/' :: e := by
    rw [EscapedPath_eq U2 habs2, f5, f10]
    exact hpe
  have hf' : u.Fragment.data ≠ [] → EscapedFragment U2 = EscapedFragment u := by
    intro hf
    rw [EscapedFragment_eq U2, f9, f11 hf]
    exact hfe
  rw [String_data u e hs4 p2 habs he (fun h => ⟨(p7 h).1, (p7 h).2.1⟩),
    String_data U2 e (by rw [f1]; exact hs4) (by rw [f2]; exact p2) habs2 he'
      (fun h => by rw [f4, f3]; rw [f6] at h; exact ⟨(p7 h).1, (p7 h).2.1⟩)]
  simp only [f1, f3, f4, f6, f7, f8, f9]
  by_cases hf : u.Fragment.data = []
  · simp [hf]
  · simp only [hf, ne_eq, not_false_eq_true, if_true]
    rw [hf' hf]

end url

/-- The second pass of `pathToURL`, over the string form of a URL it
returned. -/
theorem pathToURL_String (path : String) (u : url.URL) (hb : isBytes path = true)
    (h : pathToURL path = (some u, none))
    (hslash : (url.EscapedPath u).head? = some '/')
    (homit : u.OmitHost = true → strings.HasPrefix (url.EscapedPath u) ['/', '/'] = false)
    (hzone : isASCII (String.mk (url.hostZone u.Host.data)) = true) :
    ∃ u2, pathToURL u.String = (some u2, none) ∧ u2.String = u.String ∧
      u2 = { u with RawPath := u2.RawPath, RawFragment := u2.RawFragment } := by
  have hb' : ∀ c ∈ path.data, c.toNat < 256 := by
    simpa [isBytes] using hb
  have hzone' : ∀ c ∈ url.hostZone u.Host.data, c.toNat < 128 := by
    simpa [isASCII] using hzone
  obtain ⟨hP, hsch, habs, -⟩ := pathToURL_inv path u hb' h
  obtain ⟨e, he⟩ : ∃ e, url.EscapedPath u = '/' :: e := by
    cases hep : url.EscapedPath u with
    | nil => simp [hep] at hslash
    | cons c cs =>
      simp only [hep, List.head?_cons, Option.some.injEq] at hslash
      exact ⟨cs, by rw [hslash]⟩
  have homit' : u.OmitHost = true → strings.HasPrefix e ['/'] = false := by
    intro ho
    have := homit ho
    rw [he] at this
    simpa [strings.HasPrefix, List.isPrefixOf] using this
  have hparse := url.Parse_String u e hP hsch habs he homit' hzone'
  have hstr := url.String_reparsed u e hP hsch habs he
  have hne : u.Scheme ≠ "" := by
    intro h0
    rw [h0] at hsch
    simp [url.isScheme] at hsch
  refine ⟨_, ?_, hstr, rfl⟩
  unfold pathToURL
  rw [hparse]
  simp [habs, hne]

/-! ### C6: `pathToURL` on its own output -/

/-- C6, as stated, fails. On the input `%2Fx` `pathToURL` succeeds, with a
URL whose string form is `file://%2Fx`; on that string form `pathToURL`
returns an error, `%2Fx` being read as a host.  It fails likewise after
`s:/%2F x`, whose string form is `s://%20x`, and after a host with a zone
that holds a byte outside ASCII, which is written `%C3` and not accepted in
a zone. -/
theorem pathToURL_not_idempotent :
    (pathToURL "%2Fx" = (some { Scheme := "file", Path := "/x", RawPath := "%2Fx" }, none) ∧
      url.URL.String { Scheme := "file", Path := "/x", RawPath := "%2Fx" } = "file://%2Fx" ∧
      (pathToURL "file://%2Fx").2 ≠ none) ∧
    ((pathToURL "s:/%2F x").2 = none ∧
      (pathToURL "s:/%2F x").1.map url.URL.String = some "s://%20x" ∧
      (pathToURL "s://%20x").2 ≠ none) ∧
    ((pathToURL "//[::1%25\xC3\xA9]/p").2 = none ∧
      (pathToURL "//[::1%25\xC3\xA9]/p").1.map
        (fun u => url.hostZone u.Host.data) = some "%\xC3\xA9".data ∧
      (pathToURL "//[::1%25\xC3\xA9]/p").1.map url.URL.String =
        some "file://[::1%25%C3%A9]/p" ∧
      (pathToURL "file://[::1%25%C3%A9]/p").2 ≠ none) := by
  decide

/-- C6, amended. For every input, a sequence of bytes, on which `pathToURL`
succeeds with a URL `u` whose escaped path `u.EscapedPath()` starts with a
slash, and not with two when `u` was read without authority (`OmitHost`),
and whose host, when it is an IPv6 literal with a zone, has a zone in ASCII:
`pathToURL` succeeds on `u.String()`, with a URL `u2` that has the same
string form as `u` and differs from `u` in the hints `RawPath` and
`RawFragment` at most, and `pathToURL` applied to the string form of `u2`
yields `u2` again.  An input that already carries a scheme keeps it: `u` is
then the URL that `url.Parse` returns, and `u2` has its scheme.  A host
outside ASCII is no obstacle: its bytes are escaped in the string form and
read back from there. -/
theorem pathToURL_idempotent (path : String) (u : url.URL) (hb : isBytes path = true)
    (h : pathToURL path = (some u, none))
    (hslash : (url.EscapedPath u).head? = some '/')
    (homit : u.OmitHost = true → strings.HasPrefix (url.EscapedPath u) ['/', '/'] = false)
    (hzone : isASCII (String.mk (url.hostZone u.Host.data)) = true) :
    ∃ u2, pathToURL u.String = (some u2, none) ∧ u2.String = u.String ∧
      u2 = { u with RawPath := u2.RawPath, RawFragment := u2.RawFragment } ∧
      pathToURL u2.String = (some u2, none) ∧
      (∀ v, url.Parse path = .ok v → v.Scheme ≠ "" → u = v ∧ u2.Scheme = v.Scheme) := by
  obtain ⟨u2, h1, h2, h3⟩ := pathToURL_String path u hb h hslash homit hzone
  refine ⟨u2, h1, h2, h3, by rw [h2]; exact h1, ?_⟩
  intro v hv hne
  have hb' : ∀ c ∈ path.data, c.toNat < 256 := by
    simpa [isBytes] using hb
  obtain ⟨-, -, -, w, hw, hcase⟩ := pathToURL_inv path u hb' h
  rw [hv] at hw
  injection hw with hw
  subst hw
  rcases hcase with ⟨-, huv⟩ | ⟨h0, -⟩
  · refine ⟨huv, ?_⟩
    rw [h3, huv]
  · exact absurd h0 hne

/-- C6, amended, for the input `trash:///a b`: its URL has the string form
`trash:///a%20b`, on which `pathToURL` succeeds with the same string form
and the scheme `trash`.  And for the input `//h\xC3\xA9/p`, whose host is
outside ASCII: its URL has the string form `file://h%C3%A9/p`, on which
`pathToURL` succeeds with the same string form; and for the input
`//[::1%25eth0]:80/p`, whose host has the zone `%eth0`. -/
theorem pathToURL_idempotent_witness :
    (isBytes "trash:///a b" = true ∧
      pathToURL "trash:///a b" =
        (some { Scheme := "trash", Path := "/a b", RawPath := "/a b" }, none) ∧
      url.URL.String { Scheme := "trash", Path := "/a b", RawPath := "/a b" } =
        "trash:///a%20b" ∧
      ∃ u2, pathToURL "trash:///a%20b" = (some u2, none) ∧ u2.String = "trash:///a%20b" ∧
        u2.Scheme = "trash") ∧
    (isBytes "//h\xC3\xA9/p" = true ∧
      pathToURL "//h\xC3\xA9/p" =
        (some { Scheme := "file", Host := "h\xC3\xA9", Path := "/p" }, none) ∧
      url.hostZone "h\xC3\xA9".data = [] ∧
      url.URL.String { Scheme := "file", Host := "h\xC3\xA9", Path := "/p" } =
        "file://h%C3%A9/p" ∧
      ∃ u2, pathToURL "file://h%C3%A9/p" = (some u2, none) ∧
        u2.String = "file://h%C3%A9/p" ∧ u2.Host = "h\xC3\xA9") ∧
    (pathToURL "//[::1%25eth0]:80/p" =
        (some { Scheme := "file", Host := "[::1%eth0]:80", Path := "/p" }, none) ∧
      url.hostZone "[::1%eth0]:80".data = "%eth0".data ∧
      url.URL.String { Scheme := "file", Host := "[::1%eth0]:80", Path := "/p" } =
        "file://[::1%25eth0]:80/p" ∧
      ∃ u2, pathToURL "file://[::1%25eth0]:80/p" = (some u2, none) ∧
        u2.String = "file://[::1%25eth0]:80/p" ∧ u2.Host = "[::1%eth0]:80") := by
  have hs1 : url.URL.String { Scheme := "trash", Path := "/a b", RawPath := "/a b" } =
      "trash:///a%20b" := by decide
  have hs2 : url.URL.String { Scheme := "file", Host := "h\xC3\xA9", Path := "/p" } =
      "file://h%C3%A9/p" := by decide
  have hs3 : url.URL.String { Scheme := "file", Host := "[::1%eth0]:80", Path := "/p" } =
      "file://[::1%25eth0]:80/p" := by decide
  refine ⟨⟨by decide, by decide, hs1, ?_⟩, ⟨by decide, by decide, by decide, hs2, ?_⟩,
    ⟨by decide, by decide, hs3, ?_⟩⟩
  · obtain ⟨u2, h1, h2, h3, -, -⟩ := pathToURL_idempotent "trash:///a b"
      { Scheme := "trash", Path := "/a b", RawPath := "/a b" } (by decide) (by decide)
      (by decide) (by decide) (by decide)
    rw [hs1] at h1 h2
    exact ⟨u2, h1, h2, by rw [h3]⟩
  · obtain ⟨u2, h1, h2, h3, -, -⟩ := pathToURL_idempotent "//h\xC3\xA9/p"
      { Scheme := "file", Host := "h\xC3\xA9", Path := "/p" } (by decide) (by decide)
      (by decide) (by decide) (by decide)
    rw [hs2] at h1 h2
    exact ⟨u2, h1, h2, by rw [h3]⟩
  · obtain ⟨u2, h1, h2, h3, -, -⟩ := pathToURL_idempotent "//[::1%25eth0]:80/p"
      { Scheme := "file", Host := "[::1%eth0]:80", Path := "/p" } (by decide) (by decide)
      (by decide) (by decide) (by decide)
    rw [hs3] at h1 h2
    exact ⟨u2, h1, h2, by rw [h3]⟩

/-! ### The operations without a path argument -/

/-- What `newOperationJob` does on one path that `pathToURL` converts to
`u`, and on one path on which `pathToURL` fails with `err`. -/
theorem newOperationJob_singleton (env : Env) (path : String)
    (fn : List String → Outcome DBusObject × List Event) :
    (∀ u, pathToURL path = (some u, none) →
      newOperationJob env [path] fn =
        match fn [u.String] with
        | (.panic, events) => (.panic, Event.CallFn [u.String] :: events)
        | (.ret job, events) =>
          (.ret (installJob env job).1,
            Event.CallFn [u.String] :: events ++ (installJob env job).2)) ∧
    (∀ err, (pathToURL path).2 = some err →
      newOperationJob env [path] fn =
        (.ret ⟨"", env.JobObjectPath, "", some err⟩,
          [Event.Log .Error ["convert path to URL failed:", err.msg]])) := by
  constructor
  · intro u hu
    simp [newOperationJob, normalizePaths, hu]
  · intro err herr
    rcases hpu : pathToURL path with ⟨_ | u, _ | e⟩ <;> simp_all [newOperationJob, normalizePaths]

/-- C11, as stated, fails: `NewGetTemplateJob` runs `newOperationJob` with
the one path of the templates directory, not with an empty list.  With the
directory `/home/user/Templates` the factory gets the list of its one URL;
with no templates directory (the empty string), and with the directory
`/home/user/100%/Templates`, the normalization fails: the reply is the
sentinel address with the error of `pathToURL`, and neither the factory nor
the engine is called. -/
theorem NewGetTemplateJob_normalizes_templates_dir :
    Event.CallFn ["file:///home/user/Templates"] ∈ (NewGetTemplateJob exampleEnv).2 ∧
    Event.CallFn [] ∉ (NewGetTemplateJob exampleEnv).2 ∧
    NewGetTemplateJob { exampleEnv with templatesDir := "" } =
      (.ret ⟨"", "/com/deepin/filemanager/Backend/Operations", "",
          some (errors.New "a absolute path is requested")⟩,
        [Event.Log .Debug ["NewGetTemplateJob"],
          Event.Log .Error ["convert path to URL failed:", "a absolute path is requested"]]) ∧
    (pathToURL "/home/user/100%/Templates").2 ≠ none ∧
    (NewGetTemplateJob { exampleEnv with templatesDir := "/home/user/100%/Templates" }).1 =
      .ret ⟨"", "/com/deepin/filemanager/Backend/Operations", "",
        (pathToURL "/home/user/100%/Templates").2⟩ ∧
    (∀ e ∈ (NewGetTemplateJob { exampleEnv with templatesDir := "/home/user/100%/Templates" }).2,
      e.isCallFn = false ∧ e.isEngine = false ∧ e.isInstallOnSession = false) := by
  decide

/-- C11, amended. `NewEmptyTrashJob` and `NewGetAllLaunchAppsJob` run
`newOperationJob` with an empty path list: for every argument and
environment the factory is called, on the empty list, it calls the
constructor of the engine, and the job of the engine is passed to
`installJob`, whose reply is returned.  `NewGetTemplateJob` runs
`newOperationJob` with the one path of the templates directory: when
`pathToURL` converts it to `u`, the factory is called on the string form of
`u`, it calls the constructor of the engine with it, and the job of the
engine is passed to `installJob`; when `pathToURL` fails on it with `err`,
the reply is the sentinel address with `err` and the factory is not
called. -/
theorem zero_path_operations (env : Env) :
    (∀ (shouldConfirm : Bool) (dest objPath iface : String),
      NewEmptyTrashJob env shouldConfirm dest objPath iface =
        (.ret (installJob env (env.d
            (.NewEmptyTrashJob shouldConfirm (newUIDelegate env dest objPath iface).1))).1,
          Event.Log .Debug ["NewEmptyTrashJob"] :: Event.CallFn [] ::
            ((newUIDelegate env dest objPath iface).2 ++
              [Event.Engine
                (.NewEmptyTrashJob shouldConfirm (newUIDelegate env dest objPath iface).1)]) ++
            (installJob env (env.d
              (.NewEmptyTrashJob shouldConfirm
                (newUIDelegate env dest objPath iface).1))).2)) ∧
    NewGetAllLaunchAppsJob env =
      (.ret (installJob env (env.d .NewGetAllLaunchAppsJob)).1,
        Event.Log .Debug ["NewGetAllLaunchAppsJob"] :: Event.CallFn [] ::
          Event.Engine .NewGetAllLaunchAppsJob ::
          (installJob env (env.d .NewGetAllLaunchAppsJob)).2) ∧
    (∀ u, pathToURL env.templatesDir = (some u, none) →
      NewGetTemplateJob env =
        (.ret (installJob env (env.d (.NewGetTemplateJob u.String))).1,
          Event.Log .Debug ["NewGetTemplateJob"] :: Event.CallFn [u.String] ::
            Event.Engine (.NewGetTemplateJob u.String) ::
            (installJob env (env.d (.NewGetTemplateJob u.String))).2)) ∧
    (∀ err, (pathToURL env.templatesDir).2 = some err →
      NewGetTemplateJob env =
        (.ret (sentinel env (some err)),
          [Event.Log .Debug ["NewGetTemplateJob"],
            Event.Log .Error ["convert path to URL failed:", err.msg]])) := by
  refine ⟨?_, ?_, ?_, ?_⟩
  · intro shouldConfirm dest objPath iface
    simp [NewEmptyTrashJob, logDebug, newOperationJob, normalizePaths, callEngine]
  · simp [NewGetAllLaunchAppsJob, logDebug, newOperationJob, normalizePaths, callEngine]
  · intro u hu
    unfold NewGetTemplateJob
    rw [(newOperationJob_singleton env env.templatesDir _).1 u hu]
    simp [logDebug, callEngine]
  · intro err herr
    unfold NewGetTemplateJob
    rw [(newOperationJob_singleton env env.templatesDir _).2 err herr]
    simp [logDebug, sentinel]

/-- C11, amended, for the templates directory `/home/user/Templates` and
for no templates directory: in the first environment the engine gets the
URL `file:///home/user/Templates` and its job is installed, in the second
the reply is the sentinel address. -/
theorem zero_path_operations_witness :
    pathToURL exampleEnv.templatesDir =
      (some { Scheme := "file", Path := "/home/user/Templates" }, none) ∧
    NewGetTemplateJob exampleEnv =
      (.ret ⟨"com.deepin.filemanager.Backend.Operations",
          "/com/deepin/filemanager/Backend/Operations/ListJob1",
          "com.deepin.filemanager.Backend.Operations.ListJob", none⟩,
        [Event.Log .Debug ["NewGetTemplateJob"],
          Event.CallFn ["file:///home/user/Templates"],
          Event.Engine (.NewGetTemplateJob "file:///home/user/Templates"),
          Event.InstallOnSession exampleJob]) ∧
    (pathToURL "").2 = some (errors.New "a absolute path is requested") ∧
    NewGetTemplateJob { exampleEnv with templatesDir := "" } =
      (.ret (sentinel exampleEnv (some (errors.New "a absolute path is requested"))),
        [Event.Log .Debug ["NewGetTemplateJob"],
          Event.Log .Error ["convert path to URL failed:", "a absolute path is requested"]]) :=
  ⟨by decide,
    (zero_path_operations exampleEnv).2.2.1
      { Scheme := "file", Path := "/home/user/Templates" } (by decide),
    by decide,
    (zero_path_operations { exampleEnv with templatesDir := "" }).2.2.2
      (errors.New "a absolute path is requested") (by decide)⟩

/-! ### The error returned on invalid input -/

/-- The loop over the paths stops at the first path that does not convert,
with the error of `pathToURL` on it. -/
theorem normalizePaths_first_failure (pre post : List String) (p : String) (err : GoError)
    (hpre : ∀ q ∈ pre, (pathToURL q).2 = none) (hp : (pathToURL p).2 = some err) :
    normalizePaths (pre ++ p :: post) = .failed err := by
  induction pre with
  | nil =>
    show normalizePaths (p :: post) = _
    unfold normalizePaths
    rcases hpu : pathToURL p with ⟨_ | u, _ | e⟩ <;> simp_all
  | cons q qs ih =>
    obtain ⟨u, hu⟩ := pathToURL_url_of_no_error q (hpre q (List.mem_cons_self _ _))
    have ih := ih fun r hr => hpre r (List.mem_cons_of_mem _ hr)
    show normalizePaths (q :: (qs ++ p :: post)) = _
    unfold normalizePaths
    rw [hu]
    simp [ih]

/-- C10, as stated, fails: a rename of the relative path `relative/path`, a
default application `gedit` without the suffix `.desktop` and a link of
`/a` into the relative directory `rel` all return, next to the sentinel
address, an error that is not nil. -/
theorem dispatch_error_not_nil_on_invalid_input :
    (NewRenameJob exampleEnv "relative/path" "new-name").1 =
      .ret ⟨"", "/com/deepin/filemanager/Backend/Operations", "",
        some (errors.New "a absolute path is requested")⟩ ∧
    (NewSetDefaultLaunchAppJob exampleEnv "gedit" "text/plain").1 =
      .ret ⟨"", "/com/deepin/filemanager/Backend/Operations", "",
        some (errors.New "cannot install a nil object on dbus.")⟩ ∧
    (NewLinkJob exampleEnv "/a" "rel" "" "" "").1 =
      .ret ⟨"", "/com/deepin/filemanager/Backend/Operations", "",
        some (errors.New "cannot install a nil object on dbus.")⟩ := by
  decide

/-- C10, amended. For every dispatch call that fails because of ordinary
input validation, the error returned to the caller is not nil, and it comes
with the sentinel address.  When a path of the list handed to
`newOperationJob` does not convert, it is the error of `pathToURL` on the
first such path: so for every method with a path argument.  When the
validation fails inside the factory, the path list having converted, it is
the error of `installJob` on a nil job: for a desktop id without the suffix
`.desktop`, for a destination directory that does not convert in
`NewLinkJob`, `NewCopyJob` and `NewMoveJob` (a non-empty one in the last
two), and for a template path that does not convert in
`NewCreateFileFromTemplateJob`. -/
theorem dispatch_error_of_invalid_input (env : Env) :
    (∀ (pre post : List String) (p : String) (err : GoError)
        (fn : List String → Outcome DBusObject × List Event),
      (∀ q ∈ pre, (pathToURL q).2 = none) → (pathToURL p).2 = some err →
      (newOperationJob env (pre ++ p :: post) fn).1 = .ret (sentinel env (some err))) ∧
    (∀ (path : String) (err : GoError), (pathToURL path).2 = some err →
      (∀ flags, (NewListJob env path flags).1 = .ret (sentinel env (some err))) ∧
      (NewStatJob env path).1 = .ret (sentinel env (some err)) ∧
      (∀ permission, (NewChmodJob env path permission).1 = .ret (sentinel env (some err))) ∧
      (∀ newOwner newGroup,
        (NewChownJob env path newOwner newGroup).1 = .ret (sentinel env (some err))) ∧
      (∀ filename initContent dest objPath iface,
        (NewCreateFileJob env path filename initContent dest objPath iface).1 =
          .ret (sentinel env (some err))) ∧
      (∀ dirname dest objPath iface,
        (NewCreateDirectoryJob env path dirname dest objPath iface).1 =
          .ret (sentinel env (some err))) ∧
      (∀ templatePath dest objPath iface,
        (NewCreateFileFromTemplateJob env path templatePath dest objPath iface).1 =
          .ret (sentinel env (some err))) ∧
      (∀ destDir dest objPath iface,
        (NewLinkJob env path destDir dest objPath iface).1 = .ret (sentinel env (some err))) ∧
      (∀ mustSupportURI,
        (NewGetDefaultLaunchAppJob env path mustSupportURI).1 = .ret (sentinel env (some err))) ∧
      (NewGetRecommendedLaunchAppsJob env path).1 = .ret (sentinel env (some err)) ∧
      (∀ newName, (NewRenameJob env path newName).1 = .ret (sentinel env (some err)))) ∧
    (∀ (pre post : List String) (p : String) (err : GoError),
      (∀ q ∈ pre, (pathToURL q).2 = none) → (pathToURL p).2 = some err →
      (∀ shouldConfirm dest objPath iface,
        (NewDeleteJob env (pre ++ p :: post) shouldConfirm dest objPath iface).1 =
          .ret (sentinel env (some err))) ∧
      (∀ shouldConfirm dest objPath iface,
        (NewTrashJob env (pre ++ p :: post) shouldConfirm dest objPath iface).1 =
          .ret (sentinel env (some err))) ∧
      (∀ destDir targetName flags dest objPath iface,
        (NewCopyJob env (pre ++ p :: post) destDir targetName flags dest objPath iface).1 =
          .ret (sentinel env (some err))) ∧
      (∀ destDir targetName flags dest objPath iface,
        (NewMoveJob env (pre ++ p :: post) destDir targetName flags dest objPath iface).1 =
          .ret (sentinel env (some err)))) ∧
    (∀ err, (pathToURL env.templatesDir).2 = some err →
      (NewGetTemplateJob env).1 = .ret (sentinel env (some err))) ∧
    (∀ id mimeType, strings.HasSuffix id.data ".desktop".data = false →
      (NewSetDefaultLaunchAppJob env id mimeType).1 =
        .ret (sentinel env (some (errors.New "cannot install a nil object on dbus.")))) ∧
    (∀ src destDir dest objPath iface,
      (pathToURL src).2 = none → (pathToURL destDir).2 ≠ none →
      (NewLinkJob env src destDir dest objPath iface).1 =
        .ret (sentinel env (some (errors.New "cannot install a nil object on dbus.")))) ∧
    (∀ destDir templatePath dest objPath iface,
      (pathToURL destDir).2 = none → (pathToURL templatePath).2 ≠ none →
      (NewCreateFileFromTemplateJob env destDir templatePath dest objPath iface).1 =
        .ret (sentinel env (some (errors.New "cannot install a nil object on dbus.")))) ∧
    (∀ srcs destDir targetName flags dest objPath iface,
      (∀ p ∈ srcs, (pathToURL p).2 = none) → destDir ≠ "" → (pathToURL destDir).2 ≠ none →
      (NewCopyJob env srcs destDir targetName flags dest objPath iface).1 =
        .ret (sentinel env (some (errors.New "cannot install a nil object on dbus."))) ∧
      (NewMoveJob env srcs destDir targetName flags dest objPath iface).1 =
        .ret (sentinel env (some (errors.New "cannot install a nil object on dbus.")))) := by
  have hgen : ∀ (pre post : List String) (p : String) (err : GoError)
      (fn : List String → Outcome DBusObject × List Event),
      (∀ q ∈ pre, (pathToURL q).2 = none) → (pathToURL p).2 = some err →
      (newOperationJob env (pre ++ p :: post) fn).1 = .ret (sentinel env (some err)) := by
    intro pre post p err fn hpre hp
    simp [newOperationJob, normalizePaths_first_failure pre post p err hpre hp, sentinel]
  have hone : ∀ (path : String) (err : GoError)
      (fn : List String → Outcome DBusObject × List Event), (pathToURL path).2 = some err →
      (newOperationJob env [path] fn).1 = .ret (sentinel env (some err)) :=
    fun path err fn hp => hgen [] [] path err fn (by simp) hp
  refine ⟨hgen, ?_, ?_, ?_, ?_, ?_, ?_, ?_⟩
  · intro path err hp
    exact ⟨fun _ => hone path err _ hp, hone path err _ hp, fun _ => hone path err _ hp,
      fun _ _ => hone path err _ hp, fun _ _ _ _ _ => hone path err _ hp,
      fun _ _ _ _ => hone path err _ hp, fun _ _ _ _ => hone path err _ hp,
      fun _ _ _ _ => hone path err _ hp, fun _ => hone path err _ hp, hone path err _ hp,
      fun _ => hone path err _ hp⟩
  · intro pre post p err hpre hp
    exact ⟨fun _ _ _ _ => hgen pre post p err _ hpre hp,
      fun _ _ _ _ => hgen pre post p err _ hpre hp,
      fun _ _ _ _ _ _ => hgen pre post p err _ hpre hp,
      fun _ _ _ _ _ _ => hgen pre post p err _ hpre hp⟩
  · intro err hp
    exact hone env.templatesDir err _ hp
  · intro id mimeType hid
    rw [NewSetDefaultLaunchAppJob_run_of_bad_id env id mimeType hid]
    rfl
  · intro src destDir dest objPath iface hsrc hdest
    obtain ⟨u, hu⟩ := pathToURL_url_of_no_error src hsrc
    unfold NewLinkJob
    rw [(newOperationJob_singleton env src _).1 u hu]
    rcases hpd : pathToURL destDir with ⟨d, _ | e⟩
    · rw [hpd] at hdest
      exact absurd rfl hdest
    · simp [logDebug, installJob, sentinel]
  · intro destDir templatePath dest objPath iface hdest htpl
    obtain ⟨u, hu⟩ := pathToURL_url_of_no_error destDir hdest
    unfold NewCreateFileFromTemplateJob
    rw [(newOperationJob_singleton env destDir _).1 u hu]
    rcases hpd : pathToURL templatePath with ⟨d, _ | e⟩
    · rw [hpd] at htpl
      exact absurd rfl htpl
    · simp [logDebug, installJob, sentinel]
  · intro srcs destDir targetName flags dest objPath iface hsrcs hne hdest
    obtain ⟨uris, hn, -⟩ := normalizePaths_urls srcs hsrcs
    cases he : (pathToURL destDir).2 with
    | none => exact absurd he hdest
    | some err =>
      have hc := fun call =>
        (copyMoveFn_run env destDir dest objPath iface call uris).1 hne err he
      simp [NewCopyJob, NewMoveJob, logDebug, newOperationJob, hn, hc, installJob, sentinel]

/-- C10, amended, for a rename of `relative/path`, whose error is the error
of `pathToURL`; for a deletion of `/a`, `b` and `c`, whose error is the
error of `pathToURL` on `b`; and for a link of `/a` into the relative
directory `rel`, whose error is the error of `installJob` on a nil job. -/
theorem dispatch_error_of_invalid_input_witness :
    (pathToURL "relative/path").2 = some (errors.New "a absolute path is requested") ∧
    (NewRenameJob exampleEnv "relative/path" "new-name").1 =
      .ret (sentinel exampleEnv (some (errors.New "a absolute path is requested"))) ∧
    ((∀ q ∈ ["/a"], (pathToURL q).2 = none) ∧
      (pathToURL "b").2 = some (errors.New "a absolute path is requested") ∧
      (NewDeleteJob exampleEnv (["/a"] ++ "b" :: ["c"]) false "" "" "").1 =
        .ret (sentinel exampleEnv (some (errors.New "a absolute path is requested")))) ∧
    ((pathToURL "/a").2 = none ∧ (pathToURL "rel").2 ≠ none ∧
      (NewLinkJob exampleEnv "/a" "rel" "" "" "").1 =
        .ret (sentinel exampleEnv
          (some (errors.New "cannot install a nil object on dbus.")))) :=
  ⟨by decide,
    ((dispatch_error_of_invalid_input exampleEnv).2.1 "relative/path" _
      (by decide)).2.2.2.2.2.2.2.2.2.2 "new-name",
    ⟨by decide, by decide,
      ((dispatch_error_of_invalid_input exampleEnv).2.2.1 ["/a"] ["c"] "b" _ (by decide)
        (by decide)).1 false "" "" ""⟩,
    ⟨by decide, by decide,
      (dispatch_error_of_invalid_input exampleEnv).2.2.2.2.2.1 "/a" "rel" "" "" ""
        (by decide) (by decide)⟩⟩
